import Mathlib

/-!
# AutoStockTrade: order admission, matching cycle and settlement

A shallow embedding of `src/code.cpp`.

Modelling conventions
* `double` values (prices, balances) are exact rationals `ℚ`; rounding is not modelled.
* `int` values (quantities, share counts, timestamps) are unbounded integers `Int` in
  the basic definitions, which describe the program as long as no `int` overflows.
  Where the range of a share count matters, the copies `updateHoldings32`, `fillBuy32`,
  `fillSell32`, `buyLoop32`, `sellLoop32`, `executeOrders32`, `step32` and `run32`
  perform `holdings[stock] += quantity` as a 32-bit `int` does (two's-complement
  wrap-around), and the statement is made about them.
* `std::map<string, T>` is a key-sorted association list (`SMap T`); the functions do
  not require sortedness, they only maintain it.
* `std::priority_queue<StockOrder>` is the list of its elements; `top` is a greatest
  element under `StockOrder::operator<` and `pop` removes it.  Among elements that
  compare equal the real heap's choice is implementation-defined; the model picks
  the one stored first.
* `User* currentUser` is the key of the `users` entry it points to (`none` = `nullptr`).
  Dereferencing `nullptr` (or a key that is not in `users`) is a fault: the
  operation returns `none`.
* `rand()` is an input: `rnd i` is the value of the `i`-th call made by one
  `updatePrices`.
* Console output is dropped, except the line that reports the outcome of an order
  submission, which is returned as a `Notice`.
-/

namespace AutoStockTrade

/-! ## `std::map<string, T>` -/

/-- A `std::map<string, T>`: association list, kept sorted by key. -/
abbrev SMap (α : Type) := List (String × α)

namespace SMap

/-- The `map::find` lookup: the value stored under `k`, if any. -/
def find {α : Type} : SMap α → String → Option α
  | [], _ => none
  | (k, v) :: rest, key => if key = k then some v else find rest key

/-- Store `v` under `k` (replacing an existing entry, else inserting in key order). -/
def insert {α : Type} : SMap α → String → α → SMap α
  | [], key, val => [(key, val)]
  | (k, v) :: rest, key, val =>
    if key = k then (k, val) :: rest
    else if key.data < k.data then (key, val) :: (k, v) :: rest
    else (k, v) :: insert rest key val

end SMap

/-! ## Records -/

/-- The class `Transaction` (lines 14-29). -/
structure Transaction where
  stock : String
  quantity : Int
  price : ℚ
  type : String
  timestamp : Int
  deriving DecidableEq, Repr

/-- The class `StockOrder` (lines 32-48). -/
structure StockOrder where
  type : String
  stock : String
  quantity : Int
  price : ℚ
  timestamp : Int
  orderType : String
  deriving DecidableEq, Repr

/-- The comparison `StockOrder::operator<` (lines 44-47): by timestamp. -/
def StockOrder.lt (a other : StockOrder) : Bool := decide (a.timestamp < other.timestamp)

/-! ## `std::priority_queue<StockOrder>` -/

/-- A `std::priority_queue<StockOrder>` (default comparator `std::less`, i.e. `operator<`). -/
abbrev PQueue := List StockOrder

namespace PQueue

/-- The `priority_queue::push` operation. -/
def push (q : PQueue) (o : StockOrder) : PQueue := q ++ [o]

/-- The `priority_queue::top` operation: an element `t` such that `t < x` holds for no
element `x` of the queue (`none` on the empty queue). -/
def top : PQueue → Option StockOrder
  | [] => none
  | x :: rest =>
    match top rest with
    | none => some x
    | some y => if x.lt y then some y else some x

/-- The `priority_queue::pop` operation: remove the top element. -/
def pop (q : PQueue) : PQueue :=
  match top q with
  | none => q
  | some t => q.erase t

end PQueue

/-! ## Portfolio -/

/-- The class `Portfolio` (lines 51-87). -/
structure Portfolio where
  holdings : SMap Int
  balance : ℚ
  deriving DecidableEq, Repr

namespace Portfolio

/-- The constructor `Portfolio()` (line 57): balance 10000, no holdings. -/
def init : Portfolio := { holdings := [], balance := 10000 }

/-- The check `canBuy` (lines 59-61). -/
def canBuy (p : Portfolio) (amount : ℚ) : Bool := decide (p.balance ≥ amount)

/-- The check `canSell` (lines 63-66). -/
def canSell (p : Portfolio) (stock : String) (quantity : Int) : Bool :=
  match p.holdings.find stock with
  | none => false
  | some n => decide (n ≥ quantity)

/-- The update `holdings[stock] += quantity` (lines 68-70); `operator[]` creates a
missing entry with value 0.  The sum is exact; `updateHoldings32` is the same update on a
32-bit `int`. -/
def updateHoldings (p : Portfolio) (stock : String) (quantity : Int) : Portfolio :=
  { p with holdings := p.holdings.insert stock ((p.holdings.find stock).getD 0 + quantity) }

/-- The update `balance += amount` (lines 72-74). -/
def adjustBalance (p : Portfolio) (amount : ℚ) : Portfolio :=
  { p with balance := p.balance + amount }

/-- Number of shares of `stock` held; an instrument without an entry counts as 0. -/
def shares (p : Portfolio) (stock : String) : Int := (p.holdings.find stock).getD 0

end Portfolio

/-! ## Market -/

/-- The class `Market` (lines 90-127). -/
structure Market where
  currentPrices : SMap ℚ
  stockSymbols : List String
  deriving DecidableEq, Repr

namespace Market

/-- The constructor `Market(symbols)` (lines 96-101): every symbol starts at 100. -/
def init (symbols : List String) : Market :=
  { currentPrices := symbols.foldl (fun m symbol => m.insert symbol 100) [],
    stockSymbols := symbols }

/-- The loop of `updatePrices` from the `i`-th `rand()` call on: each price gets
`(rand() % 100 - 50) / 10.0` added. -/
def perturb (rnd : Nat → Nat) : Nat → SMap ℚ → SMap ℚ
  | _, [] => []
  | i, (k, v) :: rest => (k, v + (((rnd i % 100 : Nat) : ℚ) - 50) / 10) :: perturb rnd (i + 1) rest

/-- The method `updatePrices` (lines 103-108). -/
def updatePrices (m : Market) (rnd : Nat → Nat) : Market :=
  { m with currentPrices := perturb rnd 0 m.currentPrices }

/-- The method `getPrice` (lines 110-113): 0 for a symbol that is not tracked. -/
def getPrice (m : Market) (stock : String) : ℚ :=
  match m.currentPrices.find stock with
  | some p => p
  | none => 0

end Market

/-! ## User -/

/-- The class `User` (lines 130-153). -/
structure User where
  username : String
  passwordHash : String
  portfolio : Portfolio
  deriving DecidableEq, Repr

namespace User

/-- The constructor `User(username, password)` (line 140). -/
def create (username password : String) : User :=
  { username := username, passwordHash := password, portfolio := Portfolio.init }

/-- The method `checkPassword` (lines 142-144). -/
def checkPassword (u : User) (password : String) : Bool := u.passwordHash == password

end User

/-! ## Trading system -/

/-- The fields of the class `TradingSystem` (lines 157-164). -/
structure TradingSystem where
  market : Market
  users : SMap User
  currentUser : Option String
  buyOrders : PQueue
  sellOrders : PQueue
  transactionHistory : List Transaction
  timestamp : Int
  deriving DecidableEq, Repr

/-- The line an order submission prints. -/
inductive Notice where
  | pleaseLogIn
  | insufficientFunds
  | insufficientShares
  | added
  deriving DecidableEq, Repr

namespace TradingSystem

/-- The constructor `TradingSystem(market)` (line 167). -/
def init (market : Market) : TradingSystem :=
  { market := market, users := [], currentUser := none, buyOrders := [], sellOrders := [],
    transactionHistory := [], timestamp := 0 }

/-- The method `addUser` (lines 169-177). -/
def addUser (s : TradingSystem) (username password : String) : TradingSystem :=
  match s.users.find username with
  | some _ => s
  | none => { s with users := s.users.insert username (User.create username password) }

/-- The method `authenticateUser` (lines 179-188), with its return value. -/
def authenticateUser (s : TradingSystem) (username password : String) : TradingSystem × Bool :=
  match s.users.find username with
  | some u => if u.checkPassword password then ({ s with currentUser := some username }, true)
              else (s, false)
  | none => (s, false)

/-- The method `addBuyOrder` (lines 190-202), with the line it prints. -/
def addBuyOrder (s : TradingSystem) (stock : String) (quantity : Int) (price : ℚ)
    (orderType : String) : Option (TradingSystem × Notice) :=
  match s.currentUser with
  | none => some (s, Notice.pleaseLogIn)
  | some u =>
    match s.users.find u with
    | none => none
    | some usr =>
      let totalCost := price * quantity
      if !usr.portfolio.canBuy totalCost then some (s, Notice.insufficientFunds)
      else
        some ({ s with
                buyOrders := s.buyOrders.push ⟨"buy", stock, quantity, price, s.timestamp, orderType⟩,
                timestamp := s.timestamp + 1 }, Notice.added)

/-- The method `addSellOrder` (lines 204-215), with the line it prints. -/
def addSellOrder (s : TradingSystem) (stock : String) (quantity : Int) (price : ℚ)
    (orderType : String) : Option (TradingSystem × Notice) :=
  match s.currentUser with
  | none => some (s, Notice.pleaseLogIn)
  | some u =>
    match s.users.find u with
    | none => none
    | some usr =>
      if !usr.portfolio.canSell stock quantity then some (s, Notice.insufficientShares)
      else
        some ({ s with
                sellOrders := s.sellOrders.push ⟨"sell", stock, quantity, price, s.timestamp, orderType⟩,
                timestamp := s.timestamp + 1 }, Notice.added)

/-- The condition of the buy loop's `if` (line 225). -/
def buyMatches (o : StockOrder) (marketPrice : ℚ) : Bool :=
  o.orderType == "market" || (o.orderType == "limit" && decide (o.price ≥ marketPrice))

/-- The condition of the sell loop's `if` (line 240). -/
def sellMatches (o : StockOrder) (marketPrice : ℚ) : Bool :=
  o.orderType == "market" || (o.orderType == "limit" && decide (o.price ≤ marketPrice))

/-- The `then` branch of the buy loop (lines 227-230) for the top order `o`. -/
def fillBuy (s : TradingSystem) (o : StockOrder) (marketPrice : ℚ) : Option TradingSystem :=
  match s.currentUser with
  | none => none
  | some u =>
    match s.users.find u with
    | none => none
    | some usr =>
      let p1 := usr.portfolio.updateHoldings o.stock o.quantity
      let p2 := p1.adjustBalance (-marketPrice * o.quantity)
      some { s with
             users := s.users.insert u { usr with portfolio := p2 },
             transactionHistory :=
               s.transactionHistory ++ [⟨o.stock, o.quantity, marketPrice, "buy", o.timestamp⟩],
             buyOrders := s.buyOrders.pop }

/-- The `then` branch of the sell loop (lines 242-245) for the top order `o`. -/
def fillSell (s : TradingSystem) (o : StockOrder) (marketPrice : ℚ) : Option TradingSystem :=
  match s.currentUser with
  | none => none
  | some u =>
    match s.users.find u with
    | none => none
    | some usr =>
      let p1 := usr.portfolio.updateHoldings o.stock (-o.quantity)
      let p2 := p1.adjustBalance (marketPrice * o.quantity)
      some { s with
             users := s.users.insert u { usr with portfolio := p2 },
             transactionHistory :=
               s.transactionHistory ++ [⟨o.stock, o.quantity, marketPrice, "sell", o.timestamp⟩],
             sellOrders := s.sellOrders.pop }

/-- The buy loop (lines 222-234), run for at most `fuel` iterations. -/
def buyLoop : Nat → TradingSystem → Option TradingSystem
  | 0, s => some s
  | fuel + 1, s =>
    match s.buyOrders.top with
    | none => some s
    | some buyOrder =>
      let marketPrice := s.market.getPrice buyOrder.stock
      if buyMatches buyOrder marketPrice then
        (fillBuy s buyOrder marketPrice).bind (buyLoop fuel)
      else some s

/-- The sell loop (lines 237-249), run for at most `fuel` iterations. -/
def sellLoop : Nat → TradingSystem → Option TradingSystem
  | 0, s => some s
  | fuel + 1, s =>
    match s.sellOrders.top with
    | none => some s
    | some sellOrder =>
      let marketPrice := s.market.getPrice sellOrder.stock
      if sellMatches sellOrder marketPrice then
        (fillSell s sellOrder marketPrice).bind (sellLoop fuel)
      else some s

/-- The first two lines of `executeOrders` (218-219): the price refresh. -/
def refresh (s : TradingSystem) (rnd : Nat → Nat) : TradingSystem :=
  { s with market := s.market.updatePrices rnd }

/-- The buy loop with fuel for one iteration per queued order (every iteration that
does not leave the loop pops one). -/
def buyPhase (s : TradingSystem) : Option TradingSystem := buyLoop s.buyOrders.length s

/-- The sell loop with fuel for one iteration per queued order. -/
def sellPhase (s : TradingSystem) : Option TradingSystem := sellLoop s.sellOrders.length s

/-- The method `executeOrders` (lines 217-257): refresh the prices, drain the buy queue,
then drain the sell queue. -/
def executeOrders (s : TradingSystem) (rnd : Nat → Nat) : Option TradingSystem :=
  (buyPhase (refresh s rnd)).bind sellPhase

end TradingSystem

/-! ## Command sequences -/

/-- One call made by the command loop `userInteraction` (lines 327-402) on the
trading system. -/
inductive Command where
  | register (username password : String)
  | login (username password : String)
  | buy (stock : String) (quantity : Int) (price : ℚ) (orderType : String)
  | sell (stock : String) (quantity : Int) (price : ℚ) (orderType : String)
  | cycle (rnd : Nat → Nat)

/-- Order submissions and matching cycles: the commands that neither register nor log in. -/
def Command.isTrade : Command → Bool
  | .buy _ _ _ _ => true
  | .sell _ _ _ _ => true
  | .cycle _ => true
  | _ => false

/-- Perform one command. -/
def step (s : TradingSystem) : Command → Option TradingSystem
  | .register username password => some (s.addUser username password)
  | .login username password => some (s.authenticateUser username password).1
  | .buy stock quantity price orderType =>
    (s.addBuyOrder stock quantity price orderType).map Prod.fst
  | .sell stock quantity price orderType =>
    (s.addSellOrder stock quantity price orderType).map Prod.fst
  | .cycle rnd => s.executeOrders rnd

/-- Perform a sequence of commands, left to right. -/
def run : TradingSystem → List Command → Option TradingSystem
  | s, [] => some s
  | s, c :: cs => (step s c).bind (fun s1 => run s1 cs)

/-- The object `currentUser` points to (`none`: null or dangling). -/
def TradingSystem.account (s : TradingSystem) : Option User :=
  match s.currentUser with
  | none => none
  | some u => s.users.find u

/-! ## What a ledger accounts for -/

/-- Sum of price × quantity over the "buy" transactions of a ledger. -/
def spent (ledger : List Transaction) : ℚ :=
  ((ledger.filter (fun t => t.type == "buy")).map (fun t => t.price * (t.quantity : ℚ))).sum

/-- Sum of price × quantity over the "sell" transactions of a ledger. -/
def earned (ledger : List Transaction) : ℚ :=
  ((ledger.filter (fun t => t.type == "sell")).map (fun t => t.price * (t.quantity : ℚ))).sum

/-- Sum of the quantities of the "buy" transactions of a ledger on `stock`. -/
def sharesBought (ledger : List Transaction) (stock : String) : Int :=
  ((ledger.filter (fun t => t.type == "buy" && t.stock == stock)).map
    (fun t => t.quantity)).sum

/-- Sum of the quantities of the "sell" transactions of a ledger on `stock`. -/
def sharesSold (ledger : List Transaction) (stock : String) : Int :=
  ((ledger.filter (fun t => t.type == "sell" && t.stock == stock)).map
    (fun t => t.quantity)).sum

/-- The account `u` is bound, and its balance and holdings are what the ledger says. -/
def Conserved (s : TradingSystem) (u : String) : Prop :=
  s.currentUser = some u ∧
  ∃ usr, s.users.find u = some usr ∧
    usr.portfolio.balance = 10000 - spent s.transactionHistory + earned s.transactionHistory ∧
    ∀ st, usr.portfolio.shares st =
      sharesBought s.transactionHistory st - sharesSold s.transactionHistory st

/-! ## Concrete states -/

/-- The system of `main` (lines 406-408) after the commands `register u pw` and
`login u pw`: one account, bound, in its initial state; nothing queued. -/
def sessionStart : TradingSystem :=
  { market := ⟨[("AAPL", 100), ("GOOGL", 100), ("MSFT", 100)], ["AAPL", "GOOGL", "MSFT"]⟩,
    users := [("u", ⟨"u", "pw", Portfolio.init⟩)],
    currentUser := some "u",
    buyOrders := [], sellOrders := [], transactionHistory := [], timestamp := 0 }

/-- A book whose head buy order (number 1, limit 50) cannot execute at price 100, while
the market order numbered 0 behind it could. -/
def blockedBook : TradingSystem :=
  { sessionStart with
    buyOrders := [⟨"buy", "AAPL", 1, 100, 0, "market"⟩, ⟨"buy", "AAPL", 1, 50, 1, "limit"⟩],
    timestamp := 2 }

/-- One limit buy order: 3 shares of AAPL with limit price 120, sequence number 0. -/
def limitBuyBook : TradingSystem :=
  { sessionStart with buyOrders := [⟨"buy", "AAPL", 3, 120, 0, "limit"⟩], timestamp := 1 }

/-- An account holding 5 shares of MSFT with one queued limit sell order for them at
limit price 200, while MSFT trades at `price`. -/
def limitSellBook (price : ℚ) : TradingSystem :=
  { market := ⟨[("AAPL", 100), ("GOOGL", 100), ("MSFT", price)], ["AAPL", "GOOGL", "MSFT"]⟩,
    users := [("u", ⟨"u", "pw", ⟨[("MSFT", 5)], 10000⟩⟩)],
    currentUser := some "u",
    buyOrders := [],
    sellOrders := [⟨"sell", "MSFT", 5, 200, 0, "limit"⟩],
    transactionHistory := [], timestamp := 1 }

/-- The state after a market buy of 200 AAPL quoted at 1 was admitted. -/
def overdraftBook : TradingSystem :=
  { sessionStart with buyOrders := [⟨"buy", "AAPL", 200, 1, 0, "market"⟩], timestamp := 1 }

/-! ## Reachable states -/

/-- The states the program can be in: those a sequence of commands leads to from the
freshly constructed system, for some market. -/
def Reachable (s : TradingSystem) : Prop :=
  ∃ market cmds, run (TradingSystem.init market) cmds = some s

/-- The sequence numbers present in a state: those of the pending buy orders, of the
pending sell orders and of the ledger's transactions. -/
def sequenceNumbers (s : TradingSystem) : List Int :=
  s.buyOrders.map (fun o => o.timestamp) ++ s.sellOrders.map (fun o => o.timestamp) ++
    s.transactionHistory.map (fun t => t.timestamp)

/-- The sequence numbers of a state are pairwise distinct, lie in `[0, timestamp)`, and
there are `timestamp` of them. -/
def Numbered (s : TradingSystem) : Prop :=
  (sequenceNumbers s).Nodup ∧
  (∀ n ∈ sequenceNumbers s, 0 ≤ n ∧ n < s.timestamp) ∧
  s.timestamp = ((sequenceNumbers s).length : Int)

/-- The pointer `currentUser` is null or points into `users`; while it is null nothing
is queued; and the sequence numbers are in order. -/
def WellFormed (s : TradingSystem) : Prop :=
  (∀ u, s.currentUser = some u → ∃ usr, s.users.find u = some usr) ∧
  (s.currentUser = none → s.buyOrders = [] ∧ s.sellOrders = []) ∧
  Numbered s

/-- Whether the command is an order submission that the state admits (1) or not (0). -/
def admittedBy (s : TradingSystem) : Command → Nat
  | .buy stock quantity price orderType =>
    match s.addBuyOrder stock quantity price orderType with
    | some (_, Notice.added) => 1
    | _ => 0
  | .sell stock quantity price orderType =>
    match s.addSellOrder stock quantity price orderType with
    | some (_, Notice.added) => 1
    | _ => 0
  | _ => 0

/-- The number of orders admitted while the commands are performed from state `s`. -/
def admissions : TradingSystem → List Command → Nat
  | _, [] => 0
  | s, c :: cs =>
    admittedBy s c +
      match step s c with
      | some s1 => admissions s1 cs
      | none => 0

/-- The order `o` fails the matching condition `cond` at the refreshed prices of every
matching cycle among the commands performed from `s`. -/
def neverMatches (cond : StockOrder → ℚ → Bool) (o : StockOrder) :
    TradingSystem → List Command → Prop
  | _, [] => True
  | s, c :: cs =>
    (match c with
      | .cycle rnd => cond o ((s.refresh rnd).market.getPrice o.stock) = false
      | _ => True) ∧
    (match step s c with
      | some s1 => neverMatches cond o s1 cs
      | none => True)

/-- One limit buy order that the market price 100 does not reach: 1 share of AAPL with
limit price 50, sequence number 0. -/
def lowBidBook : TradingSystem :=
  { sessionStart with buyOrders := [⟨"buy", "AAPL", 1, 50, 0, "limit"⟩], timestamp := 1 }

/-- The transaction the buy loop records for order `o` (line 229). -/
def buyRecord (m : Market) (o : StockOrder) : Transaction :=
  ⟨o.stock, o.quantity, m.getPrice o.stock, "buy", o.timestamp⟩

/-- The transaction the sell loop records for order `o` (line 244). -/
def sellRecord (m : Market) (o : StockOrder) : Transaction :=
  ⟨o.stock, o.quantity, m.getPrice o.stock, "sell", o.timestamp⟩

/-! ## Import and export of the registry

The file is modelled by its characters.  Opening the file is assumed to succeed. -/

/-- The whitespace of the classic locale (`std::isspace`): space, tab, line feed,
vertical tab, form feed, carriage return. -/
def isSpace (c : Char) : Bool :=
  c == ' ' || c == '\t' || c == '\n' || c == Char.ofNat 11 || c == Char.ofNat 12 || c == '\r'

/-- What `file << bool` prints (no `boolalpha`). -/
def boolDigit (b : Bool) : Char := if b then '1' else '0'

/-- The loop of `exportUserData` (lines 320-322): per entry the key, a space, the result
of `checkPassword("")` and a line end. -/
def exportLines : SMap User → List Char
  | [] => []
  | (name, u) :: rest =>
    name.data ++ ' ' :: boolDigit (u.checkPassword "") :: '\n' :: exportLines rest

/-- The method `exportUserData` (lines 313-325): the text written to the file. -/
def TradingSystem.exportUserData (s : TradingSystem) : List Char := exportLines s.users

/-- Skip leading whitespace, as formatted stream input does. -/
def skipSpaces : List Char → List Char
  | [] => []
  | c :: cs => if isSpace c then skipSpaces cs else c :: cs

/-- The longest whitespace-free prefix of the input, and what follows it. -/
def readWord : List Char → List Char × List Char
  | [] => ([], [])
  | c :: cs => if isSpace c then ([], c :: cs) else ((c :: (readWord cs).1), (readWord cs).2)

/-- The extraction `file >> word`: skip whitespace, then read up to the next whitespace;
it fails (`none`) when only whitespace is left. -/
def extractWord (input : List Char) : Option (String × List Char) :=
  match skipSpaces input with
  | [] => none
  | c :: cs => some (String.mk (readWord (c :: cs)).1, (readWord (c :: cs)).2)

/-- The loop of `importUserData` (lines 306-308), run for at most `fuel` iterations. -/
def importLoop : Nat → List Char → TradingSystem → TradingSystem
  | 0, _, s => s
  | fuel + 1, input, s =>
    match extractWord input with
    | none => s
    | some (username, rest) =>
      match extractWord rest with
      | none => s
      | some (password, rest1) => importLoop fuel rest1 (s.addUser username password)

/-- The method `importUserData` (lines 298-311) on the text of the file; every iteration
consumes characters, so one unit of fuel per character is enough. -/
def TradingSystem.importUserData (s : TradingSystem) (text : List Char) : TradingSystem :=
  importLoop text.length text s

/-- A registry with two accounts. -/
def twoUsers : TradingSystem :=
  { sessionStart with
    users := [("ann", ⟨"ann", "", Portfolio.init⟩), ("bob", ⟨"bob", "pw", Portfolio.init⟩)],
    currentUser := none }

/-- The accounts `importUserData` registers when it reads what `exportLines` wrote. -/
def registerAll : SMap User → TradingSystem → TradingSystem
  | [], s => s
  | (name, u) :: rest, s =>
    registerAll rest (s.addUser name (String.mk [boolDigit (u.checkPassword "")]))

/-- Two accounts "ann" and "bob" in their initial state, "ann" logged in, nothing
queued. -/
def annAndBob : TradingSystem :=
  { sessionStart with
    users := [("ann", ⟨"ann", "a1", Portfolio.init⟩), ("bob", ⟨"bob", "b1", Portfolio.init⟩)],
    currentUser := some "ann" }

/-- A book in which a cycle executes on both sides: two market buys (numbers 1 and 2) and
one market sell of the 5 MSFT held (number 3), with one earlier transaction (number 0)
in the ledger. -/
def mixedBook : TradingSystem :=
  { market := ⟨[("AAPL", 100), ("GOOGL", 100), ("MSFT", 100)], ["AAPL", "GOOGL", "MSFT"]⟩,
    users := [("u", ⟨"u", "pw", ⟨[("AAPL", 10), ("MSFT", 5)], 9000⟩⟩)],
    currentUser := some "u",
    buyOrders := [⟨"buy", "AAPL", 1, 100, 1, "market"⟩, ⟨"buy", "GOOGL", 2, 100, 2, "market"⟩],
    sellOrders := [⟨"sell", "MSFT", 5, 100, 3, "market"⟩],
    transactionHistory := [⟨"AAPL", 10, 100, "buy", 0⟩],
    timestamp := 4 }

/-! ## Share counts as 32-bit integers

The definitions above keep share counts as unbounded integers.  The copies below perform
`holdings[stock] += quantity` as a 32-bit `int` does, wrapping around on overflow; they
are used where the range of a share count matters. -/

/-- The value a 32-bit two's-complement `int` holds when the exact result is `n`. -/
def wrapInt (n : Int) : Int := (n + 2147483648) % 4294967296 - 2147483648

/-- The update `holdings[stock] += quantity` (lines 68-70) on a 32-bit `int`. -/
def Portfolio.updateHoldings32 (p : Portfolio) (stock : String) (quantity : Int) :
    Portfolio :=
  { p with
    holdings := p.holdings.insert stock (wrapInt ((p.holdings.find stock).getD 0 + quantity)) }

namespace TradingSystem

/-- The `then` branch of the buy loop (lines 227-230) with 32-bit share counts. -/
def fillBuy32 (s : TradingSystem) (o : StockOrder) (marketPrice : ℚ) :
    Option TradingSystem :=
  match s.currentUser with
  | none => none
  | some u =>
    match s.users.find u with
    | none => none
    | some usr =>
      let p1 := usr.portfolio.updateHoldings32 o.stock o.quantity
      let p2 := p1.adjustBalance (-marketPrice * o.quantity)
      some { s with
             users := s.users.insert u { usr with portfolio := p2 },
             transactionHistory :=
               s.transactionHistory ++ [⟨o.stock, o.quantity, marketPrice, "buy", o.timestamp⟩],
             buyOrders := s.buyOrders.pop }

/-- The `then` branch of the sell loop (lines 242-245) with 32-bit share counts; the
negation `-sellOrder.quantity` is a 32-bit operation too. -/
def fillSell32 (s : TradingSystem) (o : StockOrder) (marketPrice : ℚ) :
    Option TradingSystem :=
  match s.currentUser with
  | none => none
  | some u =>
    match s.users.find u with
    | none => none
    | some usr =>
      let p1 := usr.portfolio.updateHoldings32 o.stock (wrapInt (-o.quantity))
      let p2 := p1.adjustBalance (marketPrice * o.quantity)
      some { s with
             users := s.users.insert u { usr with portfolio := p2 },
             transactionHistory :=
               s.transactionHistory ++ [⟨o.stock, o.quantity, marketPrice, "sell", o.timestamp⟩],
             sellOrders := s.sellOrders.pop }

/-- The buy loop (lines 222-234) with 32-bit share counts. -/
def buyLoop32 : Nat → TradingSystem → Option TradingSystem
  | 0, s => some s
  | fuel + 1, s =>
    match s.buyOrders.top with
    | none => some s
    | some buyOrder =>
      let marketPrice := s.market.getPrice buyOrder.stock
      if buyMatches buyOrder marketPrice then
        (fillBuy32 s buyOrder marketPrice).bind (buyLoop32 fuel)
      else some s

/-- The sell loop (lines 237-249) with 32-bit share counts. -/
def sellLoop32 : Nat → TradingSystem → Option TradingSystem
  | 0, s => some s
  | fuel + 1, s =>
    match s.sellOrders.top with
    | none => some s
    | some sellOrder =>
      let marketPrice := s.market.getPrice sellOrder.stock
      if sellMatches sellOrder marketPrice then
        (fillSell32 s sellOrder marketPrice).bind (sellLoop32 fuel)
      else some s

/-- The method `executeOrders` (lines 217-257) with 32-bit share counts. -/
def executeOrders32 (s : TradingSystem) (rnd : Nat → Nat) : Option TradingSystem :=
  (buyLoop32 (refresh s rnd).buyOrders.length (refresh s rnd)).bind
    (fun b => sellLoop32 b.sellOrders.length b)

end TradingSystem

/-- Perform one command, with 32-bit share counts. -/
def step32 (s : TradingSystem) : Command → Option TradingSystem
  | .cycle rnd => s.executeOrders32 rnd
  | c => step s c

/-- Perform a sequence of commands, left to right, with 32-bit share counts. -/
def run32 : TradingSystem → List Command → Option TradingSystem
  | s, [] => some s
  | s, c :: cs => (step32 s c).bind (fun s1 => run32 s1 cs)

/-- The total quantity of the queued orders on `stock`. -/
def pendingQuantity (q : PQueue) (stock : String) : Int :=
  ((q.filter (fun o => o.stock == stock)).map (fun o => o.quantity)).sum

/-- The side condition on one command issued in state `s`.  Quantities are positive.  A
buy order that is admitted keeps the quantity of all buy orders admitted so far on its
instrument (pending or executed) within the `int` range.  A sell order that is admitted
is covered, together with the sell orders already pending on its instrument, by the
holdings of the bound account.  A login that binds another account binds one whose
holdings cover the pending sell orders. -/
def covered (s : TradingSystem) : Command → Prop
  | .buy stock quantity price orderType =>
    0 < quantity ∧
    (admittedBy s (.buy stock quantity price orderType) = 1 →
      pendingQuantity s.buyOrders stock + sharesBought s.transactionHistory stock + quantity
        ≤ 2147483647)
  | .sell stock quantity price orderType =>
    0 < quantity ∧
    (admittedBy s (.sell stock quantity price orderType) = 1 →
      ∀ usr, s.account = some usr →
        pendingQuantity s.sellOrders stock + quantity ≤ usr.portfolio.shares stock)
  | .login username password =>
    (s.authenticateUser username password).1.currentUser = s.currentUser ∨
    ∀ usr, (s.authenticateUser username password).1.account = some usr →
      ∀ st, pendingQuantity s.sellOrders st ≤ usr.portfolio.shares st
  | _ => True

/-- Every command of the sequence performed from `s` (with 32-bit share counts) is
`covered` in the state in which it is issued. -/
def Covered : TradingSystem → List Command → Prop
  | _, [] => True
  | s, c :: cs =>
    covered s c ∧
    (match step32 s c with
      | some s1 => Covered s1 cs
      | none => True)

/-- The invariant behind non-negative share counts: every share count lies between 0 and
the quantity bought so far on the instrument; the pending and executed buy quantities on
an instrument stay within the `int` range; pending quantities are positive; and the
holdings of the bound account cover the pending sell orders. -/
def Sound (s : TradingSystem) : Prop :=
  (∀ st, 0 ≤ sharesBought s.transactionHistory st) ∧
  (∀ name usr, s.users.find name = some usr → ∀ st,
    0 ≤ usr.portfolio.shares st ∧
    usr.portfolio.shares st ≤ sharesBought s.transactionHistory st) ∧
  (∀ o ∈ s.buyOrders, 0 < o.quantity) ∧
  (∀ st, pendingQuantity s.buyOrders st + sharesBought s.transactionHistory st
    ≤ 2147483647) ∧
  (∀ o ∈ s.sellOrders, 0 < o.quantity) ∧
  (∀ usr, s.account = some usr → ∀ st,
    pendingQuantity s.sellOrders st ≤ usr.portfolio.shares st)

/-! ## Maps and queues: basic facts -/

theorem SMap.find_insert_self {α : Type} (m : SMap α) (k : String) (v : α) :
    (m.insert k v).find k = some v := by
  induction m with
  | nil => simp [SMap.insert, SMap.find]
  | cons e rest ih =>
    obtain ⟨k1, v1⟩ := e
    by_cases h1 : k = k1
    · simp [SMap.insert, SMap.find, h1]
    · by_cases h2 : k.data < k1.data
      · simp [SMap.insert, SMap.find, h1, h2]
      · simp [SMap.insert, SMap.find, h1, h2, ih]

theorem SMap.find_insert_ne {α : Type} (m : SMap α) (k j : String) (v : α) (h : j ≠ k) :
    (m.insert k v).find j = m.find j := by
  induction m with
  | nil => simp [SMap.insert, SMap.find, h]
  | cons e rest ih =>
    obtain ⟨k1, v1⟩ := e
    by_cases h1 : k = k1
    · subst h1
      simp [SMap.insert, SMap.find, h]
    · by_cases h2 : k.data < k1.data
      · simp [SMap.insert, SMap.find, h1, h2, h]
      · simp [SMap.insert, SMap.find, h1, h2, ih]

theorem PQueue.top_eq_none_iff (q : PQueue) : q.top = none ↔ q = [] := by
  cases q with
  | nil => simp [PQueue.top]
  | cons x rest =>
    simp only [PQueue.top]
    constructor
    · intro h
      split at h
      · cases h
      · split at h <;> cases h
    · intro h
      cases h

theorem PQueue.top_mem (q : PQueue) (o : StockOrder) (h : q.top = some o) : o ∈ q := by
  induction q generalizing o with
  | nil => simp [PQueue.top] at h
  | cons x rest ih =>
    simp only [PQueue.top] at h
    split at h
    · cases h
      simp
    · rename_i y hy
      split at h
      · cases h
        exact List.mem_cons_of_mem _ (ih o hy)
      · cases h
        simp

/-- The top of a queue is an order with the greatest timestamp. -/
theorem PQueue.top_max (q : PQueue) (o : StockOrder) (h : q.top = some o) :
    ∀ x ∈ q, x.timestamp ≤ o.timestamp := by
  induction q generalizing o with
  | nil => simp [PQueue.top] at h
  | cons x rest ih =>
    simp only [PQueue.top] at h
    split at h
    · rename_i hy
      cases h
      have hr : rest = [] := (PQueue.top_eq_none_iff rest).1 hy
      subst hr
      simp
    · rename_i y hy
      have hmax := ih y hy
      split at h
      · rename_i hlt
        cases h
        simp only [StockOrder.lt, decide_eq_true_eq] at hlt
        intro z hz
        rcases List.mem_cons.1 hz with hz | hz
        · subst hz
          exact le_of_lt hlt
        · exact hmax z hz
      · rename_i hlt
        cases h
        simp only [StockOrder.lt, decide_eq_true_eq, not_lt] at hlt
        intro z hz
        rcases List.mem_cons.1 hz with hz | hz
        · subst hz
          exact le_refl _
        · exact le_trans (hmax z hz) hlt

theorem PQueue.pop_eq_erase (q : PQueue) (o : StockOrder) (h : q.top = some o) :
    q.pop = q.erase o := by
  simp [PQueue.pop, h]

theorem PQueue.length_pop (q : PQueue) (o : StockOrder) (h : q.top = some o) :
    q.pop.length + 1 = q.length := by
  have hm := PQueue.top_mem q o h
  rw [PQueue.pop_eq_erase q o h, List.length_erase_of_mem hm]
  have : 0 < q.length := List.length_pos_of_mem hm
  omega

/-! ## One fill -/

namespace TradingSystem

theorem fillBuy_eq (s : TradingSystem) (o : StockOrder) (p : ℚ) (u : String) (usr : User)
    (hu : s.currentUser = some u) (hf : s.users.find u = some usr) :
    fillBuy s o p = some { s with
      users := s.users.insert u { usr with portfolio :=
        (usr.portfolio.updateHoldings o.stock o.quantity).adjustBalance (-p * o.quantity) },
      transactionHistory := s.transactionHistory ++ [⟨o.stock, o.quantity, p, "buy", o.timestamp⟩],
      buyOrders := s.buyOrders.pop } := by
  simp [fillBuy, hu, hf]

theorem fillSell_eq (s : TradingSystem) (o : StockOrder) (p : ℚ) (u : String) (usr : User)
    (hu : s.currentUser = some u) (hf : s.users.find u = some usr) :
    fillSell s o p = some { s with
      users := s.users.insert u { usr with portfolio :=
        (usr.portfolio.updateHoldings o.stock (-o.quantity)).adjustBalance (p * o.quantity) },
      transactionHistory := s.transactionHistory ++ [⟨o.stock, o.quantity, p, "sell", o.timestamp⟩],
      sellOrders := s.sellOrders.pop } := by
  simp [fillSell, hu, hf]

theorem fillBuy_bound (s r : TradingSystem) (o : StockOrder) (p : ℚ)
    (h : fillBuy s o p = some r) :
    ∃ u usr, s.currentUser = some u ∧ s.users.find u = some usr := by
  unfold fillBuy at h
  split at h
  · cases h
  · rename_i u hu
    split at h
    · cases h
    · rename_i usr hf
      exact ⟨u, usr, hu, hf⟩

theorem fillSell_bound (s r : TradingSystem) (o : StockOrder) (p : ℚ)
    (h : fillSell s o p = some r) :
    ∃ u usr, s.currentUser = some u ∧ s.users.find u = some usr := by
  unfold fillSell at h
  split at h
  · cases h
  · rename_i u hu
    split at h
    · cases h
    · rename_i usr hf
      exact ⟨u, usr, hu, hf⟩

/-- What a buy fill leaves alone, and what it appends. -/
theorem fillBuy_frame (s r : TradingSystem) (o : StockOrder) (p : ℚ)
    (h : fillBuy s o p = some r) :
    r.sellOrders = s.sellOrders ∧ r.market = s.market ∧ r.currentUser = s.currentUser ∧
    r.timestamp = s.timestamp ∧ r.buyOrders = s.buyOrders.pop ∧
    r.transactionHistory =
      s.transactionHistory ++ [⟨o.stock, o.quantity, p, "buy", o.timestamp⟩] := by
  obtain ⟨u, usr, hu, hf⟩ := fillBuy_bound s r o p h
  rw [fillBuy_eq s o p u usr hu hf] at h
  cases h
  simp

/-- What a sell fill leaves alone, and what it appends. -/
theorem fillSell_frame (s r : TradingSystem) (o : StockOrder) (p : ℚ)
    (h : fillSell s o p = some r) :
    r.buyOrders = s.buyOrders ∧ r.market = s.market ∧ r.currentUser = s.currentUser ∧
    r.timestamp = s.timestamp ∧ r.sellOrders = s.sellOrders.pop ∧
    r.transactionHistory =
      s.transactionHistory ++ [⟨o.stock, o.quantity, p, "sell", o.timestamp⟩] := by
  obtain ⟨u, usr, hu, hf⟩ := fillSell_bound s r o p h
  rw [fillSell_eq s o p u usr hu hf] at h
  cases h
  simp

/-! ## The drain loops -/

theorem buyLoop_succ (n : Nat) (s : TradingSystem) (o : StockOrder)
    (ht : s.buyOrders.top = some o) :
    buyLoop (n + 1) s =
      if buyMatches o (s.market.getPrice o.stock) then
        (fillBuy s o (s.market.getPrice o.stock)).bind (buyLoop n)
      else some s := by
  simp [buyLoop, ht]

theorem sellLoop_succ (n : Nat) (s : TradingSystem) (o : StockOrder)
    (ht : s.sellOrders.top = some o) :
    sellLoop (n + 1) s =
      if sellMatches o (s.market.getPrice o.stock) then
        (fillSell s o (s.market.getPrice o.stock)).bind (sellLoop n)
      else some s := by
  simp [sellLoop, ht]

theorem buyLoop_empty (n : Nat) (s : TradingSystem) (h : s.buyOrders = []) :
    buyLoop n s = some s := by
  cases n with
  | zero => rfl
  | succ n => simp [buyLoop, h, PQueue.top]

theorem sellLoop_empty (n : Nat) (s : TradingSystem) (h : s.sellOrders = []) :
    sellLoop n s = some s := by
  cases n with
  | zero => rfl
  | succ n => simp [sellLoop, h, PQueue.top]

/-- The buy loop touches neither the sell queue, the prices, the session nor the
counter, and only appends "buy" transactions. -/
theorem buyLoop_frame (n : Nat) : ∀ s r : TradingSystem, buyLoop n s = some r →
    r.sellOrders = s.sellOrders ∧ r.market = s.market ∧ r.currentUser = s.currentUser ∧
    r.timestamp = s.timestamp ∧
    ∃ new, r.transactionHistory = s.transactionHistory ++ new ∧ ∀ t ∈ new, t.type = "buy" := by
  induction n with
  | zero =>
    intro s r h
    simp only [buyLoop, Option.some.injEq] at h
    subst h
    exact ⟨rfl, rfl, rfl, rfl, [], by simp, by simp⟩
  | succ n ih =>
    intro s r h
    cases ht : s.buyOrders.top with
    | none =>
      simp only [buyLoop, ht, Option.some.injEq] at h
      subst h
      exact ⟨rfl, rfl, rfl, rfl, [], by simp, by simp⟩
    | some o =>
      rw [buyLoop_succ n s o ht] at h
      split at h
      · obtain ⟨m, hm, hr⟩ := Option.bind_eq_some.1 h
        obtain ⟨f1, f2, f3, f4, _, f6⟩ := fillBuy_frame s m o _ hm
        obtain ⟨g1, g2, g3, g4, new, g5, g6⟩ := ih m r hr
        refine ⟨g1.trans f1, g2.trans f2, g3.trans f3, g4.trans f4,
          ⟨o.stock, o.quantity, s.market.getPrice o.stock, "buy", o.timestamp⟩ :: new, ?_, ?_⟩
        · rw [g5, f6]
          simp
        · intro t ht1
          rcases List.mem_cons.1 ht1 with ht1 | ht1
          · subst ht1
            rfl
          · exact g6 t ht1
      · simp only [Option.some.injEq] at h
        subst h
        exact ⟨rfl, rfl, rfl, rfl, [], by simp, by simp⟩

/-- The sell loop touches neither the buy queue, the prices, the session nor the
counter, and only appends "sell" transactions. -/
theorem sellLoop_frame (n : Nat) : ∀ s r : TradingSystem, sellLoop n s = some r →
    r.buyOrders = s.buyOrders ∧ r.market = s.market ∧ r.currentUser = s.currentUser ∧
    r.timestamp = s.timestamp ∧
    ∃ new, r.transactionHistory = s.transactionHistory ++ new ∧ ∀ t ∈ new, t.type = "sell" := by
  induction n with
  | zero =>
    intro s r h
    simp only [sellLoop, Option.some.injEq] at h
    subst h
    exact ⟨rfl, rfl, rfl, rfl, [], by simp, by simp⟩
  | succ n ih =>
    intro s r h
    cases ht : s.sellOrders.top with
    | none =>
      simp only [sellLoop, ht, Option.some.injEq] at h
      subst h
      exact ⟨rfl, rfl, rfl, rfl, [], by simp, by simp⟩
    | some o =>
      rw [sellLoop_succ n s o ht] at h
      split at h
      · obtain ⟨m, hm, hr⟩ := Option.bind_eq_some.1 h
        obtain ⟨f1, f2, f3, f4, _, f6⟩ := fillSell_frame s m o _ hm
        obtain ⟨g1, g2, g3, g4, new, g5, g6⟩ := ih m r hr
        refine ⟨g1.trans f1, g2.trans f2, g3.trans f3, g4.trans f4,
          ⟨o.stock, o.quantity, s.market.getPrice o.stock, "sell", o.timestamp⟩ :: new, ?_, ?_⟩
        · rw [g5, f6]
          simp
        · intro t ht1
          rcases List.mem_cons.1 ht1 with ht1 | ht1
          · subst ht1
            rfl
          · exact g6 t ht1
      · simp only [Option.some.injEq] at h
        subst h
        exact ⟨rfl, rfl, rfl, rfl, [], by simp, by simp⟩

/-- With an account bound the buy loop never faults, and the account stays bound. -/
theorem buyLoop_total (n : Nat) : ∀ (s : TradingSystem) (u : String) (usr : User),
    s.currentUser = some u → s.users.find u = some usr →
    ∃ r usr1, buyLoop n s = some r ∧ r.currentUser = some u ∧ r.users.find u = some usr1 := by
  induction n with
  | zero =>
    intro s u usr hu hf
    exact ⟨s, usr, rfl, hu, hf⟩
  | succ n ih =>
    intro s u usr hu hf
    cases ht : s.buyOrders.top with
    | none => exact ⟨s, usr, by simp [buyLoop, ht], hu, hf⟩
    | some o =>
      rw [buyLoop_succ n s o ht]
      split
      · rw [fillBuy_eq s o _ u usr hu hf]
        simp only [Option.some_bind]
        exact ih _ u _ hu (SMap.find_insert_self _ _ _)
      · exact ⟨s, usr, rfl, hu, hf⟩

/-- With an account bound the sell loop never faults, and the account stays bound. -/
theorem sellLoop_total (n : Nat) : ∀ (s : TradingSystem) (u : String) (usr : User),
    s.currentUser = some u → s.users.find u = some usr →
    ∃ r usr1, sellLoop n s = some r ∧ r.currentUser = some u ∧ r.users.find u = some usr1 := by
  induction n with
  | zero =>
    intro s u usr hu hf
    exact ⟨s, usr, rfl, hu, hf⟩
  | succ n ih =>
    intro s u usr hu hf
    cases ht : s.sellOrders.top with
    | none => exact ⟨s, usr, by simp [sellLoop, ht], hu, hf⟩
    | some o =>
      rw [sellLoop_succ n s o ht]
      split
      · rw [fillSell_eq s o _ u usr hu hf]
        simp only [Option.some_bind]
        exact ih _ u _ hu (SMap.find_insert_self _ _ _)
      · exact ⟨s, usr, rfl, hu, hf⟩

/-- The fuel of `buyPhase` is enough: when the loop returns, the queue is empty or its
top order does not match, which are the two ways the `while` of lines 222-234 ends. -/
theorem buyLoop_exit (n : Nat) : ∀ s r : TradingSystem, s.buyOrders.length ≤ n →
    buyLoop n s = some r →
    r.buyOrders = [] ∨
      ∃ o, r.buyOrders.top = some o ∧ buyMatches o (r.market.getPrice o.stock) = false := by
  induction n with
  | zero =>
    intro s r hn h
    simp only [buyLoop, Option.some.injEq] at h
    subst h
    exact Or.inl (List.length_eq_zero.1 (Nat.le_zero.1 hn))
  | succ n ih =>
    intro s r hn h
    cases ht : s.buyOrders.top with
    | none =>
      simp only [buyLoop, ht, Option.some.injEq] at h
      subst h
      exact Or.inl ((PQueue.top_eq_none_iff _).1 ht)
    | some o =>
      rw [buyLoop_succ n s o ht] at h
      split at h
      · obtain ⟨m, hm, hr⟩ := Option.bind_eq_some.1 h
        obtain ⟨_, _, _, _, f5, _⟩ := fillBuy_frame s m o _ hm
        have hl := PQueue.length_pop s.buyOrders o ht
        refine ih m r ?_ hr
        rw [f5]
        omega
      · rename_i hne
        simp only [Option.some.injEq] at h
        subst h
        exact Or.inr ⟨o, ht, by simpa using hne⟩

/-- The fuel of `sellPhase` is enough: when the loop returns, the queue is empty or its
top order does not match. -/
theorem sellLoop_exit (n : Nat) : ∀ s r : TradingSystem, s.sellOrders.length ≤ n →
    sellLoop n s = some r →
    r.sellOrders = [] ∨
      ∃ o, r.sellOrders.top = some o ∧ sellMatches o (r.market.getPrice o.stock) = false := by
  induction n with
  | zero =>
    intro s r hn h
    simp only [sellLoop, Option.some.injEq] at h
    subst h
    exact Or.inl (List.length_eq_zero.1 (Nat.le_zero.1 hn))
  | succ n ih =>
    intro s r hn h
    cases ht : s.sellOrders.top with
    | none =>
      simp only [sellLoop, ht, Option.some.injEq] at h
      subst h
      exact Or.inl ((PQueue.top_eq_none_iff _).1 ht)
    | some o =>
      rw [sellLoop_succ n s o ht] at h
      split at h
      · obtain ⟨m, hm, hr⟩ := Option.bind_eq_some.1 h
        obtain ⟨_, _, _, _, f5, _⟩ := fillSell_frame s m o _ hm
        have hl := PQueue.length_pop s.sellOrders o ht
        refine ih m r ?_ hr
        rw [f5]
        omega
      · rename_i hne
        simp only [Option.some.injEq] at h
        subst h
        exact Or.inr ⟨o, ht, by simpa using hne⟩

end TradingSystem

/-! ## The matching conditions -/

namespace TradingSystem

theorem buyMatches_iff (o : StockOrder) (p : ℚ) :
    buyMatches o p = true ↔
      o.orderType = "market" ∨ (o.orderType = "limit" ∧ o.price ≥ p) := by
  simp [buyMatches]

theorem sellMatches_iff (o : StockOrder) (p : ℚ) :
    sellMatches o p = true ↔
      o.orderType = "market" ∨ (o.orderType = "limit" ∧ o.price ≤ p) := by
  simp [sellMatches]

theorem executeOrders_eq (s : TradingSystem) (rnd : Nat → Nat) :
    executeOrders s rnd =
      (buyLoop s.buyOrders.length (refresh s rnd)).bind sellPhase := rfl

end TradingSystem

/-! ## Order of execution within one side -/

/-- The state `sessionStart` is the one `main` reaches by `register u pw`, `login u pw`. -/
theorem sessionStart_reachable :
    run (TradingSystem.init (Market.init ["AAPL", "GOOGL", "MSFT"]))
      [.register "u" "pw", .login "u" "pw"] = some sessionStart := by
  have h1 : ¬ ['G', 'O', 'O', 'G', 'L'] < ['A', 'A', 'P', 'L'] := by decide
  have h2 : ¬ ['M', 'S', 'F', 'T'] < ['A', 'A', 'P', 'L'] := by decide
  have h3 : ¬ ['M', 'S', 'F', 'T'] < ['G', 'O', 'O', 'G', 'L'] := by decide
  simp [run, step, sessionStart, TradingSystem.init, Market.init, SMap.insert, SMap.find,
    TradingSystem.addUser, TradingSystem.authenticateUser, User.create, User.checkPassword,
    h1, h2, h3]

/-- C1 (evaluated on the code): two market buys of AAPL are admitted with sequence
numbers 0 and 1; the matching cycle that follows examines the order numbered 1 first
and appends the buy transactions in the order 1, 0: the later submission is matched
first, and the sequence numbers in the ledger decrease. -/
theorem later_buy_order_fills_first :
    (run sessionStart [.buy "AAPL" 1 100 "market", .buy "AAPL" 2 100 "market"]).map
        (fun q => (q.buyOrders.map (fun o => o.timestamp),
          q.buyOrders.top.map (fun o => o.timestamp))) = some ([0, 1], some 1) ∧
      (run sessionStart [.buy "AAPL" 1 100 "market", .buy "AAPL" 2 100 "market",
          .cycle (fun _ => 50)]).map (fun r => r.transactionHistory) =
        some [⟨"AAPL", 2, 100, "buy", 1⟩, ⟨"AAPL", 1, 100, "buy", 0⟩] := by
  constructor <;>
  norm_num [run, step, sessionStart, SMap.insert, SMap.find, TradingSystem.addBuyOrder,
    Portfolio.init, Portfolio.canBuy, PQueue.push, TradingSystem.executeOrders,
    TradingSystem.refresh, TradingSystem.buyPhase, TradingSystem.sellPhase,
    TradingSystem.buyLoop, TradingSystem.sellLoop, PQueue.top, PQueue.pop, StockOrder.lt,
    TradingSystem.buyMatches, TradingSystem.fillBuy, Market.getPrice, Market.updatePrices,
    Market.perturb, Portfolio.updateHoldings, Portfolio.adjustBalance]

/-! ## The buy side of a cycle -/

namespace TradingSystem

/-- C2: when the order at the head of the buy queue does not match at the refreshed
prices, the cycle goes straight to the sell loop: it is the sell phase applied to the
refreshed state, so whatever else is queued on the buy side is not examined; the buy
queue is the same afterwards and every transaction the cycle appends is a "sell"; with
an account bound the cycle does return a state. -/
theorem ineligible_head_blocks_buy_queue (s : TradingSystem) (rnd : Nat → Nat)
    (o : StockOrder) (ht : s.buyOrders.top = some o)
    (hne : buyMatches o ((refresh s rnd).market.getPrice o.stock) = false) :
    executeOrders s rnd = sellPhase (refresh s rnd) ∧
    (∀ r, executeOrders s rnd = some r →
      r.buyOrders = s.buyOrders ∧
      ∃ new, r.transactionHistory = s.transactionHistory ++ new ∧
        ∀ t ∈ new, t.type = "sell") ∧
    (∀ u usr, s.currentUser = some u → s.users.find u = some usr →
      ∃ r, executeOrders s rnd = some r) := by
  have hlen : s.buyOrders.length = (s.buyOrders.length - 1) + 1 := by
    have := List.length_pos_of_mem (PQueue.top_mem _ _ ht)
    omega
  have hbuy : buyLoop s.buyOrders.length (refresh s rnd) = some (refresh s rnd) := by
    rw [hlen, buyLoop_succ _ (refresh s rnd) o ht, hne]
    simp
  have hex : executeOrders s rnd = sellPhase (refresh s rnd) := by
    rw [executeOrders_eq, hbuy]
    rfl
  refine ⟨hex, ?_, ?_⟩
  · intro r hr
    rw [hex] at hr
    obtain ⟨g1, _, _, _, new, g5, g6⟩ := sellLoop_frame _ _ r hr
    exact ⟨g1, new, g5, g6⟩
  · intro u usr hu hf
    rw [hex]
    obtain ⟨r, _, hr, _, _⟩ := sellLoop_total (refresh s rnd).sellOrders.length
      (refresh s rnd) u usr hu hf
    exact ⟨r, hr⟩

/-- C3: with an account bound, let `o` be the order at the head of the buy queue and `p`
the refreshed price of its instrument.  The cycle returns a state, and in it the first
entry appended to the ledger is the buy transaction of `o` at `p` if and only if `o` is a
"market" order, or a "limit" order whose limit price is at least `p`.  An order of kind
"stop" is not executed: the buy queue is left as it was. -/
theorem buy_head_executes_iff_eligible (s : TradingSystem) (rnd : Nat → Nat)
    (o : StockOrder) (u : String) (usr : User)
    (hu : s.currentUser = some u) (hf : s.users.find u = some usr)
    (ht : s.buyOrders.top = some o) :
    ∃ r, executeOrders s rnd = some r ∧
      ((o.orderType = "market" ∨
          (o.orderType = "limit" ∧ o.price ≥ (refresh s rnd).market.getPrice o.stock)) ↔
        r.transactionHistory[s.transactionHistory.length]? =
          some ⟨o.stock, o.quantity, (refresh s rnd).market.getPrice o.stock, "buy",
            o.timestamp⟩) ∧
      (o.orderType = "stop" →
        r.buyOrders = s.buyOrders ∧
        r.transactionHistory[s.transactionHistory.length]? ≠
          some ⟨o.stock, o.quantity, (refresh s rnd).market.getPrice o.stock, "buy",
            o.timestamp⟩) := by
  have hlen : s.buyOrders.length = (s.buyOrders.length - 1) + 1 := by
    have := List.length_pos_of_mem (PQueue.top_mem _ _ ht)
    omega
  obtain ⟨b, usrb, hb, hub, hfb⟩ :=
    buyLoop_total s.buyOrders.length (refresh s rnd) u usr hu hf
  obtain ⟨r, _, hr, _, _⟩ := sellLoop_total b.sellOrders.length b u usrb hub hfb
  have hex : executeOrders s rnd = some r := by
    rw [executeOrders_eq, hb]
    exact hr
  obtain ⟨g1, _, _, _, sells, g5, g6⟩ := sellLoop_frame _ _ r hr
  have hcases : (buyMatches o ((refresh s rnd).market.getPrice o.stock) = true ∧
        ∃ rest, r.transactionHistory = s.transactionHistory ++
          ⟨o.stock, o.quantity, (refresh s rnd).market.getPrice o.stock, "buy",
            o.timestamp⟩ :: rest) ∨
      (buyMatches o ((refresh s rnd).market.getPrice o.stock) = false ∧
        r.buyOrders = s.buyOrders ∧
        r.transactionHistory = s.transactionHistory ++ sells) := by
    cases hm : buyMatches o ((refresh s rnd).market.getPrice o.stock) with
    | true =>
      left
      refine ⟨rfl, ?_⟩
      rw [hlen, buyLoop_succ _ (refresh s rnd) o ht, hm] at hb
      simp only [if_true] at hb
      obtain ⟨m, hm1, hm2⟩ := Option.bind_eq_some.1 hb
      obtain ⟨_, _, _, _, _, f6⟩ := fillBuy_frame _ m o _ hm1
      obtain ⟨_, _, _, _, buys, b5, _⟩ := buyLoop_frame _ m b hm2
      refine ⟨buys ++ sells, ?_⟩
      rw [g5, b5, f6]
      simp [refresh]
    | false =>
      right
      refine ⟨rfl, ?_⟩
      rw [hlen, buyLoop_succ _ (refresh s rnd) o ht, hm] at hb
      simp only [Bool.false_eq_true, if_false, Option.some.injEq] at hb
      subst hb
      exact ⟨g1, g5⟩
  have hsell : ∀ t : Transaction, t.type = "buy" → sells[0]? ≠ some t := by
    intro t htb hget
    have hmem : t ∈ sells := by
      cases sells with
      | nil => simp at hget
      | cons a rest =>
        simp only [List.getElem?_cons_zero, Option.some.injEq] at hget
        subst hget
        simp
    have := g6 t hmem
    rw [htb] at this
    exact absurd this (by decide)
  refine ⟨r, hex, ?_, ?_⟩
  · rw [← buyMatches_iff]
    rcases hcases with ⟨hm, rest, hrest⟩ | ⟨hm, _, hrest⟩
    · rw [hm, hrest, List.getElem?_append_right (le_refl _)]
      simp
    · rw [hm, hrest]
      simp only [Bool.false_eq_true, false_iff]
      rw [List.getElem?_append_right (le_refl _)]
      simpa using hsell _ rfl
  · intro hstop
    rcases hcases with ⟨hm, _⟩ | ⟨_, hq, hrest⟩
    · rw [buyMatches_iff, hstop] at hm
      simp at hm
    · refine ⟨hq, ?_⟩
      rw [hrest, List.getElem?_append_right (le_refl _)]
      simpa using hsell _ rfl

end TradingSystem

theorem blockedBook_top :
    blockedBook.buyOrders.top = some ⟨"buy", "AAPL", 1, 50, 1, "limit"⟩ := by
  simp [blockedBook, sessionStart, PQueue.top, StockOrder.lt]

theorem blockedBook_price :
    (blockedBook.refresh (fun _ => 50)).market.getPrice "AAPL" = 100 := by
  norm_num [blockedBook, sessionStart, TradingSystem.refresh, Market.updatePrices,
    Market.perturb, Market.getPrice, SMap.find]

/-- Witness for C2: the limit order at the head blocks the eligible market order. -/
theorem ineligible_head_blocks_buy_queue_witness :
    blockedBook.buyOrders.top = some ⟨"buy", "AAPL", 1, 50, 1, "limit"⟩ ∧
    TradingSystem.buyMatches ⟨"buy", "AAPL", 1, 50, 1, "limit"⟩
      ((blockedBook.refresh (fun _ => 50)).market.getPrice "AAPL") = false ∧
    TradingSystem.buyMatches ⟨"buy", "AAPL", 1, 100, 0, "market"⟩
      ((blockedBook.refresh (fun _ => 50)).market.getPrice "AAPL") = true ∧
    blockedBook.executeOrders (fun _ => 50) =
      TradingSystem.sellPhase (blockedBook.refresh (fun _ => 50)) :=
  have h2 : TradingSystem.buyMatches ⟨"buy", "AAPL", 1, 50, 1, "limit"⟩
      ((blockedBook.refresh (fun _ => 50)).market.getPrice "AAPL") = false := by
    rw [blockedBook_price]
    norm_num [TradingSystem.buyMatches]
    decide
  ⟨blockedBook_top, h2, by simp [TradingSystem.buyMatches],
    (TradingSystem.ineligible_head_blocks_buy_queue blockedBook (fun _ => 50) _
      blockedBook_top h2).1⟩

/-- Witness for C3: in `blockedBook` the account "u" is bound and the head order is the
limit order numbered 1. -/
theorem buy_head_executes_iff_eligible_witness :
    ∃ r, blockedBook.executeOrders (fun _ => 50) = some r ∧
      (("limit" = "market" ∨
          ("limit" = "limit" ∧
            (50 : ℚ) ≥ (blockedBook.refresh (fun _ => 50)).market.getPrice "AAPL")) ↔
        r.transactionHistory[blockedBook.transactionHistory.length]? =
          some ⟨"AAPL", 1, (blockedBook.refresh (fun _ => 50)).market.getPrice "AAPL", "buy",
            1⟩) ∧
      ("limit" = "stop" →
        r.buyOrders = blockedBook.buyOrders ∧
        r.transactionHistory[blockedBook.transactionHistory.length]? ≠
          some ⟨"AAPL", 1, (blockedBook.refresh (fun _ => 50)).market.getPrice "AAPL", "buy",
            1⟩) :=
  TradingSystem.buy_head_executes_iff_eligible blockedBook (fun _ => 50)
    ⟨"buy", "AAPL", 1, 50, 1, "limit"⟩ "u" ⟨"u", "pw", Portfolio.init⟩ rfl
    (by simp [blockedBook, sessionStart, SMap.find]) blockedBook_top

/-! ## Settlement of one buy order -/

theorem Portfolio.shares_updateHoldings (p : Portfolio) (stock st : String) (q : Int) :
    (p.updateHoldings stock q).shares st =
      if st = stock then p.shares stock + q else p.shares st := by
  by_cases h : st = stock
  · subst h
    simp [Portfolio.shares, Portfolio.updateHoldings, SMap.find_insert_self]
  · simp [Portfolio.shares, Portfolio.updateHoldings, SMap.find_insert_ne _ _ _ _ h, h]

theorem Portfolio.shares_adjustBalance (p : Portfolio) (amount : ℚ) (st : String) :
    (p.adjustBalance amount).shares st = p.shares st := rfl

namespace TradingSystem

/-- C4: with an account `u` bound, let `o` be the head buy order and `p` the refreshed
price of its instrument, and let `o` match.  The first iteration of the buy loop turns
the refreshed state into `s1` and the cycle goes on from `s1`; in `s1` the order is no
longer queued, the ledger has gained the transaction (stock, quantity, `p`, "buy",
sequence number), the account holds `quantity` more shares of the instrument (other
instruments as before) and its balance is lower by exactly `p * quantity`: the fill
price is `p`, whatever the order's own limit price. -/
theorem eligible_buy_fills_at_market_price (s : TradingSystem) (rnd : Nat → Nat)
    (o : StockOrder) (u : String) (usr : User)
    (hu : s.currentUser = some u) (hf : s.users.find u = some usr)
    (ht : s.buyOrders.top = some o)
    (hm : buyMatches o ((refresh s rnd).market.getPrice o.stock) = true) :
    ∃ s1 usr1,
      fillBuy (refresh s rnd) o ((refresh s rnd).market.getPrice o.stock) = some s1 ∧
      executeOrders s rnd = (buyLoop (s.buyOrders.length - 1) s1).bind sellPhase ∧
      s1.buyOrders = s.buyOrders.erase o ∧
      s1.transactionHistory = s.transactionHistory ++
        [⟨o.stock, o.quantity, (refresh s rnd).market.getPrice o.stock, "buy", o.timestamp⟩] ∧
      s1.currentUser = some u ∧ s1.users.find u = some usr1 ∧
      usr1.portfolio.shares o.stock = usr.portfolio.shares o.stock + o.quantity ∧
      (∀ st, st ≠ o.stock → usr1.portfolio.shares st = usr.portfolio.shares st) ∧
      usr1.portfolio.balance =
        usr.portfolio.balance - (refresh s rnd).market.getPrice o.stock * o.quantity := by
  have hlen : s.buyOrders.length = (s.buyOrders.length - 1) + 1 := by
    have := List.length_pos_of_mem (PQueue.top_mem _ _ ht)
    omega
  refine ⟨_, _, fillBuy_eq (refresh s rnd) o _ u usr hu hf, ?_, ?_, rfl, hu,
    SMap.find_insert_self _ _ _, ?_, ?_, ?_⟩
  · rw [executeOrders_eq]
    nth_rewrite 1 [hlen]
    rw [buyLoop_succ _ (refresh s rnd) o ht, hm, if_pos rfl,
      fillBuy_eq (refresh s rnd) o _ u usr hu hf]
    rfl
  · exact PQueue.pop_eq_erase s.buyOrders o ht
  · simp [Portfolio.adjustBalance, Portfolio.shares_updateHoldings]
    simp [Portfolio.shares, Portfolio.updateHoldings, SMap.find_insert_self]
  · intro st hst
    simp [Portfolio.adjustBalance, Portfolio.shares, Portfolio.updateHoldings,
      SMap.find_insert_ne _ _ _ _ hst]
  · simp only [Portfolio.adjustBalance, Portfolio.updateHoldings]
    ring

end TradingSystem

theorem limitBuyBook_price :
    (limitBuyBook.refresh (fun _ => 50)).market.getPrice "AAPL" = 100 := by
  norm_num [limitBuyBook, sessionStart, TradingSystem.refresh, Market.updatePrices,
    Market.perturb, Market.getPrice, SMap.find]

/-- Witness for C4: the limit order at 120 is filled at the market price 100; the
balance goes from 10000 to 9700 and the account holds 3 shares. -/
theorem eligible_buy_fills_at_market_price_witness :
    ∃ s1 usr1,
      TradingSystem.fillBuy (limitBuyBook.refresh (fun _ => 50))
        ⟨"buy", "AAPL", 3, 120, 0, "limit"⟩ 100 = some s1 ∧
      s1.buyOrders = [] ∧
      s1.transactionHistory = [⟨"AAPL", 3, 100, "buy", 0⟩] ∧
      s1.users.find "u" = some usr1 ∧
      usr1.portfolio.shares "AAPL" = 3 ∧
      usr1.portfolio.balance = 9700 := by
  have hm : TradingSystem.buyMatches ⟨"buy", "AAPL", 3, 120, 0, "limit"⟩
      ((limitBuyBook.refresh (fun _ => 50)).market.getPrice "AAPL") = true := by
    rw [limitBuyBook_price]
    norm_num [TradingSystem.buyMatches]
  obtain ⟨s1, usr1, h1, _, h3, h4, _, h6, h7, _, h9⟩ :=
    TradingSystem.eligible_buy_fills_at_market_price limitBuyBook (fun _ => 50)
      ⟨"buy", "AAPL", 3, 120, 0, "limit"⟩ "u" ⟨"u", "pw", Portfolio.init⟩ rfl
      (by simp [limitBuyBook, sessionStart, SMap.find])
      (by simp [limitBuyBook, sessionStart, PQueue.top]) hm
  rw [limitBuyBook_price] at h1 h4 h9
  refine ⟨s1, usr1, h1, ?_, ?_, h6, ?_, ?_⟩
  · rw [h3]
    simp [limitBuyBook]
  · rw [h4]
    simp [limitBuyBook, sessionStart]
  · rw [h7]
    simp [Portfolio.shares, Portfolio.init, SMap.find]
  · rw [h9]
    norm_num [Portfolio.init]

/-! ## The sell side of a cycle -/

namespace TradingSystem

theorem buyPhase_of_empty (s : TradingSystem) (h : s.buyOrders = []) :
    buyPhase s = some s := buyLoop_empty _ s h

/-- C5: with an account `u` bound, let the sell queue hold the single limit order `o`
(quantity q, limit price L) and let `p` be the refreshed price of its instrument.  The
buy side of the cycle returns a state `b` (the refreshed state itself when no buy order
is queued) in which `o` is still the only sell order.  If `p < L` the cycle ends in `b`:
the order stays queued and the sell side changes neither account nor ledger.  If
`L ≤ p` the cycle ends in a state with an empty sell queue whose ledger is that of `b`
followed by (stock, q, `p`, "sell", sequence number), and where the account holds q
shares fewer and `p * q` more cash than in `b`: the fill price is `p`, not L. -/
theorem limit_sell_gate (s : TradingSystem) (rnd : Nat → Nat) (o : StockOrder)
    (u : String) (usr0 : User)
    (hu : s.currentUser = some u) (hf : s.users.find u = some usr0)
    (hq : s.sellOrders = [o]) (hk : o.orderType = "limit") :
    ∃ b usr, buyPhase (refresh s rnd) = some b ∧
      b.currentUser = some u ∧ b.users.find u = some usr ∧ b.sellOrders = [o] ∧
      (s.buyOrders = [] → b = refresh s rnd) ∧
      ((refresh s rnd).market.getPrice o.stock < o.price → executeOrders s rnd = some b) ∧
      (o.price ≤ (refresh s rnd).market.getPrice o.stock →
        ∃ r usr1, executeOrders s rnd = some r ∧
          r.sellOrders = [] ∧ r.buyOrders = b.buyOrders ∧
          r.transactionHistory = b.transactionHistory ++
            [⟨o.stock, o.quantity, (refresh s rnd).market.getPrice o.stock, "sell",
              o.timestamp⟩] ∧
          r.users.find u = some usr1 ∧
          usr1.portfolio.shares o.stock = usr.portfolio.shares o.stock - o.quantity ∧
          usr1.portfolio.balance =
            usr.portfolio.balance + (refresh s rnd).market.getPrice o.stock * o.quantity) := by
  obtain ⟨b, usr, hb, hub, hfb⟩ :=
    buyLoop_total (refresh s rnd).buyOrders.length (refresh s rnd) u usr0 hu hf
  obtain ⟨f1, f2, _, _, _⟩ := buyLoop_frame _ _ b hb
  have hbq : b.sellOrders = [o] := by
    rw [f1]
    exact hq
  have htop : b.sellOrders.top = some o := by
    rw [hbq]
    simp [PQueue.top]
  have hex : executeOrders s rnd = sellLoop 1 b := by
    show (buyPhase (refresh s rnd)).bind sellPhase = _
    unfold buyPhase
    rw [hb]
    show sellLoop b.sellOrders.length b = _
    rw [hbq]
    rfl
  refine ⟨b, usr, hb, hub, hfb, hbq, ?_, ?_, ?_⟩
  · intro he
    have := buyPhase_of_empty (refresh s rnd) he
    unfold buyPhase at this
    rw [this] at hb
    exact (Option.some.inj hb).symm
  · intro hlt
    rw [hex, sellLoop_succ 0 b o htop, f2]
    have : sellMatches o ((refresh s rnd).market.getPrice o.stock) = false := by
      cases hc : sellMatches o ((refresh s rnd).market.getPrice o.stock) with
      | false => rfl
      | true =>
        rw [sellMatches_iff, hk] at hc
        rcases hc with hc | ⟨_, hc⟩
        · exact absurd hc (by decide)
        · exact absurd hlt (not_lt.2 hc)
    rw [this]
    simp
  · intro hle
    have hmt : sellMatches o ((refresh s rnd).market.getPrice o.stock) = true :=
      (sellMatches_iff _ _).2 (Or.inr ⟨hk, hle⟩)
    have hres : executeOrders s rnd = some { b with
        users := b.users.insert u { usr with portfolio :=
          ((usr.portfolio.updateHoldings o.stock (-o.quantity)).adjustBalance
            ((refresh s rnd).market.getPrice o.stock * o.quantity)) },
        transactionHistory := b.transactionHistory ++
          [⟨o.stock, o.quantity, (refresh s rnd).market.getPrice o.stock, "sell",
            o.timestamp⟩],
        sellOrders := b.sellOrders.pop } := by
      have hp : b.market.getPrice o.stock = (refresh s rnd).market.getPrice o.stock := by
        rw [f2]
      rw [hex, sellLoop_succ 0 b o htop, hp, hmt, if_pos rfl,
        fillSell_eq b o _ u usr hub hfb]
      rfl
    refine ⟨_, _, hres, ?_, ?_, ?_, SMap.find_insert_self _ _ _, ?_, ?_⟩
    · show b.sellOrders.pop = []
      rw [hbq]
      simp [PQueue.pop, PQueue.top]
    · rfl
    · rfl
    · simp only [Portfolio.adjustBalance, Portfolio.shares_updateHoldings]
      simp [Portfolio.shares, Portfolio.updateHoldings, SMap.find_insert_self]
      ring
    · simp only [Portfolio.adjustBalance, Portfolio.updateHoldings]

end TradingSystem

theorem limitSellBook_price (price : ℚ) :
    ((limitSellBook price).refresh (fun _ => 50)).market.getPrice "MSFT" = price := by
  have h1 : ("MSFT" = "AAPL") = False := by decide
  have h2 : ("MSFT" = "GOOGL") = False := by decide
  norm_num [limitSellBook, TradingSystem.refresh, Market.updatePrices,
    Market.perturb, Market.getPrice, SMap.find, h1, h2]

/-- Witness for C5: 5 shares of MSFT offered at limit 200.  At price 150 the cycle leaves
the order queued and the ledger empty; at price 210 it is filled at 210. -/
theorem limit_sell_gate_witness :
    (∃ b, (limitSellBook 150).executeOrders (fun _ => 50) = some b ∧
      b.sellOrders = [⟨"sell", "MSFT", 5, 200, 0, "limit"⟩] ∧
      b = (limitSellBook 150).refresh (fun _ => 50)) ∧
    (∃ r usr1, (limitSellBook 210).executeOrders (fun _ => 50) = some r ∧
      r.sellOrders = [] ∧
      r.transactionHistory = [⟨"MSFT", 5, 210, "sell", 0⟩] ∧
      r.users.find "u" = some usr1 ∧
      usr1.portfolio.shares "MSFT" = 0 ∧
      usr1.portfolio.balance = 11050) := by
  constructor
  · obtain ⟨b, usr, _, _, _, h4, h5, h6, _⟩ :=
      TradingSystem.limit_sell_gate (limitSellBook 150) (fun _ => 50)
        ⟨"sell", "MSFT", 5, 200, 0, "limit"⟩ "u" ⟨"u", "pw", ⟨[("MSFT", 5)], 10000⟩⟩
        rfl (by simp [limitSellBook, SMap.find]) rfl rfl
    refine ⟨b, h6 ?_, h4, h5 rfl⟩
    rw [limitSellBook_price]
    norm_num
  · obtain ⟨b, usr, _, _, h3, _, h5, _, h7⟩ :=
      TradingSystem.limit_sell_gate (limitSellBook 210) (fun _ => 50)
        ⟨"sell", "MSFT", 5, 200, 0, "limit"⟩ "u" ⟨"u", "pw", ⟨[("MSFT", 5)], 10000⟩⟩
        rfl (by simp [limitSellBook, SMap.find]) rfl rfl
    have hb := h5 rfl
    subst hb
    have husr : usr = ⟨"u", "pw", ⟨[("MSFT", 5)], 10000⟩⟩ := by
      have : ((limitSellBook 210).refresh (fun _ => 50)).users.find "u" =
          some ⟨"u", "pw", ⟨[("MSFT", 5)], 10000⟩⟩ := by
        simp [limitSellBook, TradingSystem.refresh, SMap.find]
      rw [this] at h3
      exact (Option.some.inj h3).symm
    subst husr
    rw [limitSellBook_price] at h7
    obtain ⟨r, usr1, g1, g2, _, g4, g5, g6, g7⟩ := h7 (by norm_num)
    refine ⟨r, usr1, g1, g2, ?_, g5, ?_, ?_⟩
    · rw [g4]
      simp [limitSellBook, TradingSystem.refresh]
    · rw [g6]
      simp [Portfolio.shares, SMap.find]
    · rw [g7]
      norm_num

/-! ## Settlement conservation -/

theorem spent_append_buy (l : List Transaction) (st : String) (q : Int) (p : ℚ) (n : Int) :
    spent (l ++ [⟨st, q, p, "buy", n⟩]) = spent l + p * q := by
  simp [spent, List.filter_append, List.filter_cons]

theorem spent_append_sell (l : List Transaction) (st : String) (q : Int) (p : ℚ) (n : Int) :
    spent (l ++ [⟨st, q, p, "sell", n⟩]) = spent l := by
  have h : ("sell" == "buy") = false := by decide
  simp [spent, List.filter_append, List.filter_cons, h]

theorem earned_append_buy (l : List Transaction) (st : String) (q : Int) (p : ℚ) (n : Int) :
    earned (l ++ [⟨st, q, p, "buy", n⟩]) = earned l := by
  have h : ("buy" == "sell") = false := by decide
  simp [earned, List.filter_append, List.filter_cons, h]

theorem earned_append_sell (l : List Transaction) (st : String) (q : Int) (p : ℚ) (n : Int) :
    earned (l ++ [⟨st, q, p, "sell", n⟩]) = earned l + p * q := by
  simp [earned, List.filter_append, List.filter_cons]

theorem sharesBought_append_buy (l : List Transaction) (st x : String) (q : Int) (p : ℚ)
    (n : Int) :
    sharesBought (l ++ [⟨st, q, p, "buy", n⟩]) x =
      if x = st then sharesBought l x + q else sharesBought l x := by
  by_cases h : x = st
  · subst h
    simp [sharesBought, List.filter_append, List.filter_cons]
  · have h1 : ¬ st = x := fun e => h e.symm
    simp [sharesBought, List.filter_append, List.filter_cons, h, h1]

theorem sharesBought_append_sell (l : List Transaction) (st x : String) (q : Int) (p : ℚ)
    (n : Int) :
    sharesBought (l ++ [⟨st, q, p, "sell", n⟩]) x = sharesBought l x := by
  have h : ("sell" == "buy") = false := by decide
  simp [sharesBought, List.filter_append, List.filter_cons, h]

theorem sharesSold_append_buy (l : List Transaction) (st x : String) (q : Int) (p : ℚ)
    (n : Int) :
    sharesSold (l ++ [⟨st, q, p, "buy", n⟩]) x = sharesSold l x := by
  have h : ("buy" == "sell") = false := by decide
  simp [sharesSold, List.filter_append, List.filter_cons, h]

theorem sharesSold_append_sell (l : List Transaction) (st x : String) (q : Int) (p : ℚ)
    (n : Int) :
    sharesSold (l ++ [⟨st, q, p, "sell", n⟩]) x =
      if x = st then sharesSold l x + q else sharesSold l x := by
  by_cases h : x = st
  · subst h
    simp [sharesSold, List.filter_append, List.filter_cons]
  · have h1 : ¬ st = x := fun e => h e.symm
    simp [sharesSold, List.filter_append, List.filter_cons, h, h1]

namespace TradingSystem

theorem conserved_fillBuy (s : TradingSystem) (u : String) (o : StockOrder) (p : ℚ)
    (h : Conserved s u) : ∃ s1, fillBuy s o p = some s1 ∧ Conserved s1 u := by
  obtain ⟨hu, usr, hf, hbal, hsh⟩ := h
  refine ⟨_, fillBuy_eq s o p u usr hu hf, hu, _, SMap.find_insert_self _ _ _, ?_, ?_⟩
  · simp only [Portfolio.adjustBalance, Portfolio.updateHoldings, spent_append_buy,
      earned_append_buy, hbal]
    ring
  · intro st
    rw [Portfolio.shares_adjustBalance, Portfolio.shares_updateHoldings, sharesBought_append_buy, sharesSold_append_buy]
    by_cases hst : st = o.stock
    · subst hst
      simp only [if_true]
      rw [hsh]
      ring
    · simp only [hst, if_false]
      exact hsh st

theorem conserved_fillSell (s : TradingSystem) (u : String) (o : StockOrder) (p : ℚ)
    (h : Conserved s u) : ∃ s1, fillSell s o p = some s1 ∧ Conserved s1 u := by
  obtain ⟨hu, usr, hf, hbal, hsh⟩ := h
  refine ⟨_, fillSell_eq s o p u usr hu hf, hu, _, SMap.find_insert_self _ _ _, ?_, ?_⟩
  · simp only [Portfolio.adjustBalance, Portfolio.updateHoldings, spent_append_sell,
      earned_append_sell, hbal]
    ring
  · intro st
    rw [Portfolio.shares_adjustBalance, Portfolio.shares_updateHoldings, sharesBought_append_sell, sharesSold_append_sell]
    by_cases hst : st = o.stock
    · subst hst
      simp only [if_true]
      rw [hsh]
      ring
    · simp only [hst, if_false]
      exact hsh st

theorem conserved_buyLoop (n : Nat) : ∀ (s : TradingSystem) (u : String),
    Conserved s u → ∃ r, buyLoop n s = some r ∧ Conserved r u := by
  induction n with
  | zero =>
    intro s u h
    exact ⟨s, rfl, h⟩
  | succ n ih =>
    intro s u h
    cases ht : s.buyOrders.top with
    | none => exact ⟨s, by simp [buyLoop, ht], h⟩
    | some o =>
      rw [buyLoop_succ n s o ht]
      split
      · obtain ⟨s1, h1, h2⟩ := conserved_fillBuy s u o (s.market.getPrice o.stock) h
        rw [h1]
        exact ih s1 u h2
      · exact ⟨s, rfl, h⟩

theorem conserved_sellLoop (n : Nat) : ∀ (s : TradingSystem) (u : String),
    Conserved s u → ∃ r, sellLoop n s = some r ∧ Conserved r u := by
  induction n with
  | zero =>
    intro s u h
    exact ⟨s, rfl, h⟩
  | succ n ih =>
    intro s u h
    cases ht : s.sellOrders.top with
    | none => exact ⟨s, by simp [sellLoop, ht], h⟩
    | some o =>
      rw [sellLoop_succ n s o ht]
      split
      · obtain ⟨s1, h1, h2⟩ := conserved_fillSell s u o (s.market.getPrice o.stock) h
        rw [h1]
        exact ih s1 u h2
      · exact ⟨s, rfl, h⟩

theorem conserved_executeOrders (s : TradingSystem) (u : String) (rnd : Nat → Nat)
    (h : Conserved s u) : ∃ r, executeOrders s rnd = some r ∧ Conserved r u := by
  have h0 : Conserved (refresh s rnd) u := h
  obtain ⟨b, hb, hcb⟩ := conserved_buyLoop (refresh s rnd).buyOrders.length _ u h0
  obtain ⟨r, hr, hcr⟩ := conserved_sellLoop b.sellOrders.length b u hcb
  refine ⟨r, ?_, hcr⟩
  show (buyLoop (refresh s rnd).buyOrders.length (refresh s rnd)).bind sellPhase = some r
  rw [hb]
  exact hr

theorem conserved_addBuyOrder (s : TradingSystem) (u : String) (stock : String)
    (quantity : Int) (price : ℚ) (orderType : String) (h : Conserved s u) :
    ∃ r n, addBuyOrder s stock quantity price orderType = some (r, n) ∧ Conserved r u := by
  obtain ⟨hu, usr, hf, hbal, hsh⟩ := h
  unfold addBuyOrder
  simp only [hu, hf]
  split
  · exact ⟨s, _, rfl, hu, usr, hf, hbal, hsh⟩
  · exact ⟨_, _, rfl, rfl, usr, hf, hbal, hsh⟩

theorem conserved_addSellOrder (s : TradingSystem) (u : String) (stock : String)
    (quantity : Int) (price : ℚ) (orderType : String) (h : Conserved s u) :
    ∃ r n, addSellOrder s stock quantity price orderType = some (r, n) ∧ Conserved r u := by
  obtain ⟨hu, usr, hf, hbal, hsh⟩ := h
  unfold addSellOrder
  simp only [hu, hf]
  split
  · exact ⟨s, _, rfl, hu, usr, hf, hbal, hsh⟩
  · exact ⟨_, _, rfl, rfl, usr, hf, hbal, hsh⟩

end TradingSystem

theorem conserved_step (s : TradingSystem) (u : String) (c : Command)
    (hc : c.isTrade = true) (h : Conserved s u) :
    ∃ r, step s c = some r ∧ Conserved r u := by
  cases c with
  | register a b => simp [Command.isTrade] at hc
  | login a b => simp [Command.isTrade] at hc
  | buy stock quantity price orderType =>
    obtain ⟨r, n, h1, h2⟩ :=
      TradingSystem.conserved_addBuyOrder s u stock quantity price orderType h
    exact ⟨r, by simp [step, h1], h2⟩
  | sell stock quantity price orderType =>
    obtain ⟨r, n, h1, h2⟩ :=
      TradingSystem.conserved_addSellOrder s u stock quantity price orderType h
    exact ⟨r, by simp [step, h1], h2⟩
  | cycle rnd => exact TradingSystem.conserved_executeOrders s u rnd h

theorem conserved_run (cmds : List Command) : ∀ (s : TradingSystem) (u : String),
    (∀ c ∈ cmds, c.isTrade = true) → Conserved s u →
    ∃ r, run s cmds = some r ∧ Conserved r u := by
  induction cmds with
  | nil =>
    intro s u _ h
    exact ⟨s, rfl, h⟩
  | cons c cs ih =>
    intro s u hc h
    obtain ⟨s1, h1, h2⟩ := conserved_step s u c (hc c (List.mem_cons_self _ _)) h
    obtain ⟨r, h3, h4⟩ := ih s1 u (fun d hd => hc d (List.mem_cons_of_mem _ hd)) h2
    exact ⟨r, by simp [run, h1, h3], h4⟩

/-- C6: start from any state in which the account `u` is bound and in its initial state
(balance 10000, no holdings) and the ledger is empty, and perform any sequence of order
submissions and matching cycles (any refreshed prices).  The sequence runs to a state
`r` in which `u` is still bound, its balance is 10000 minus the sum of price × quantity
over the ledger's "buy" transactions plus that sum over its "sell" transactions, and for
every instrument its holdings are the bought minus the sold quantities of the ledger's
transactions on that instrument. -/
theorem settlement_conservation (s : TradingSystem) (u : String) (usr0 : User)
    (cmds : List Command)
    (hu : s.currentUser = some u) (hf : s.users.find u = some usr0)
    (hp : usr0.portfolio = Portfolio.init) (hl : s.transactionHistory = [])
    (hc : ∀ c ∈ cmds, c.isTrade = true) :
    ∃ r usr, run s cmds = some r ∧ r.currentUser = some u ∧ r.users.find u = some usr ∧
      usr.portfolio.balance =
        10000 - spent r.transactionHistory + earned r.transactionHistory ∧
      ∀ st, usr.portfolio.shares st =
        sharesBought r.transactionHistory st - sharesSold r.transactionHistory st := by
  have h0 : Conserved s u := by
    refine ⟨hu, usr0, hf, ?_, ?_⟩
    · rw [hp, hl]
      simp [Portfolio.init, spent, earned]
    · intro st
      rw [hp, hl]
      simp [Portfolio.init, Portfolio.shares, SMap.find, sharesBought, sharesSold]
  obtain ⟨r, hr, hur, usr, hfr, hbal, hsh⟩ := conserved_run cmds s u hc h0
  exact ⟨r, usr, hr, hur, hfr, hbal, hsh⟩

/-- Witness for C6: a buy of 10 AAPL, a cycle, a sale of 4 AAPL and another cycle, from
the start of a session. -/
theorem settlement_conservation_witness :
    ∃ r usr, run sessionStart [.buy "AAPL" 10 100 "market", .cycle (fun _ => 50),
        .sell "AAPL" 4 0 "market", .cycle (fun _ => 60)] = some r ∧
      r.users.find "u" = some usr ∧
      usr.portfolio.balance =
        10000 - spent r.transactionHistory + earned r.transactionHistory ∧
      usr.portfolio.shares "AAPL" =
        sharesBought r.transactionHistory "AAPL" - sharesSold r.transactionHistory "AAPL" := by
  obtain ⟨r, usr, h1, _, h3, h4, h5⟩ :=
    settlement_conservation sessionStart "u" ⟨"u", "pw", Portfolio.init⟩
      [.buy "AAPL" 10 100 "market", .cycle (fun _ => 50), .sell "AAPL" 4 0 "market",
        .cycle (fun _ => 60)]
      rfl (by simp [sessionStart, SMap.find]) rfl rfl
      (by
        intro c hc
        simp only [List.mem_cons, List.mem_singleton, List.not_mem_nil, or_false] at hc
        rcases hc with hc | hc | hc | hc <;> subst hc <;> rfl)
  exact ⟨r, usr, h1, h3, h4, h5 "AAPL"⟩

/-! ## Admission -/

namespace TradingSystem

theorem addBuyOrder_unbound (s : TradingSystem) (stock : String) (quantity : Int) (price : ℚ)
    (orderType : String) (h : s.currentUser = none) :
    addBuyOrder s stock quantity price orderType = some (s, Notice.pleaseLogIn) := by
  simp [addBuyOrder, h]

theorem addBuyOrder_dangling (s : TradingSystem) (stock : String) (quantity : Int)
    (price : ℚ) (orderType : String) (u : String)
    (hu : s.currentUser = some u) (hf : s.users.find u = none) :
    addBuyOrder s stock quantity price orderType = none := by
  simp [addBuyOrder, hu, hf]

theorem addBuyOrder_reject (s : TradingSystem) (stock : String) (quantity : Int) (price : ℚ)
    (orderType : String) (u : String) (usr : User)
    (hu : s.currentUser = some u) (hf : s.users.find u = some usr)
    (h : usr.portfolio.canBuy (price * quantity) = false) :
    addBuyOrder s stock quantity price orderType = some (s, Notice.insufficientFunds) := by
  simp [addBuyOrder, hu, hf, h]

theorem addBuyOrder_accept (s : TradingSystem) (stock : String) (quantity : Int) (price : ℚ)
    (orderType : String) (u : String) (usr : User)
    (hu : s.currentUser = some u) (hf : s.users.find u = some usr)
    (h : usr.portfolio.canBuy (price * quantity) = true) :
    addBuyOrder s stock quantity price orderType =
      some ({ s with
              buyOrders :=
                s.buyOrders.push ⟨"buy", stock, quantity, price, s.timestamp, orderType⟩,
              timestamp := s.timestamp + 1 }, Notice.added) := by
  simp [addBuyOrder, hu, hf, h]

theorem addSellOrder_unbound (s : TradingSystem) (stock : String) (quantity : Int)
    (price : ℚ) (orderType : String) (h : s.currentUser = none) :
    addSellOrder s stock quantity price orderType = some (s, Notice.pleaseLogIn) := by
  simp [addSellOrder, h]

theorem addSellOrder_dangling (s : TradingSystem) (stock : String) (quantity : Int)
    (price : ℚ) (orderType : String) (u : String)
    (hu : s.currentUser = some u) (hf : s.users.find u = none) :
    addSellOrder s stock quantity price orderType = none := by
  simp [addSellOrder, hu, hf]

theorem addSellOrder_reject (s : TradingSystem) (stock : String) (quantity : Int)
    (price : ℚ) (orderType : String) (u : String) (usr : User)
    (hu : s.currentUser = some u) (hf : s.users.find u = some usr)
    (h : usr.portfolio.canSell stock quantity = false) :
    addSellOrder s stock quantity price orderType = some (s, Notice.insufficientShares) := by
  simp [addSellOrder, hu, hf, h]

theorem addSellOrder_accept (s : TradingSystem) (stock : String) (quantity : Int)
    (price : ℚ) (orderType : String) (u : String) (usr : User)
    (hu : s.currentUser = some u) (hf : s.users.find u = some usr)
    (h : usr.portfolio.canSell stock quantity = true) :
    addSellOrder s stock quantity price orderType =
      some ({ s with
              sellOrders :=
                s.sellOrders.push ⟨"sell", stock, quantity, price, s.timestamp, orderType⟩,
              timestamp := s.timestamp + 1 }, Notice.added) := by
  simp [addSellOrder, hu, hf, h]

/-- C7: with an account bound, `addBuyOrder` returns a state `r`; the order, carrying the
current value of the sequence counter, is pushed onto the buy queue if and only if the
balance is at least quantity × price.  When it is, `r` is the old state with the order
pushed and the counter incremented by one; when it is not, `r` is the old state.  In both
cases the accounts (balances and holdings) are those of the old state. -/
theorem buy_admission (s : TradingSystem) (stock : String) (quantity : Int) (price : ℚ)
    (orderType : String) (u : String) (usr : User)
    (hu : s.currentUser = some u) (hf : s.users.find u = some usr) :
    ∃ r n, addBuyOrder s stock quantity price orderType = some (r, n) ∧
      (r.buyOrders = s.buyOrders.push ⟨"buy", stock, quantity, price, s.timestamp, orderType⟩ ↔
        usr.portfolio.balance ≥ quantity * price) ∧
      (usr.portfolio.balance ≥ quantity * price →
        n = Notice.added ∧
        r = { s with
              buyOrders :=
                s.buyOrders.push ⟨"buy", stock, quantity, price, s.timestamp, orderType⟩,
              timestamp := s.timestamp + 1 }) ∧
      (¬ usr.portfolio.balance ≥ quantity * price → n = Notice.insufficientFunds ∧ r = s) ∧
      r.users = s.users := by
  by_cases hc : usr.portfolio.balance ≥ quantity * price
  · have hcan : usr.portfolio.canBuy (price * quantity) = true := by
      simp only [Portfolio.canBuy, decide_eq_true_eq]
      rw [mul_comm]
      exact hc
    refine ⟨_, _, addBuyOrder_accept s stock quantity price orderType u usr hu hf hcan,
      ?_, ?_, ?_, rfl⟩
    · exact ⟨fun _ => hc, fun _ => rfl⟩
    · intro _
      exact ⟨rfl, rfl⟩
    · intro h
      exact absurd hc h
  · have hcan : usr.portfolio.canBuy (price * quantity) = false := by
      simp only [Portfolio.canBuy, decide_eq_false_iff_not]
      rw [mul_comm]
      exact hc
    refine ⟨s, Notice.insufficientFunds,
      addBuyOrder_reject s stock quantity price orderType u usr hu hf hcan, ?_, ?_, ?_, rfl⟩
    · constructor
      · intro h
        have := congrArg List.length h
        simp [PQueue.push] at this
      · intro h
        exact absurd h hc
    · intro h
      exact absurd h hc
    · intro _
      exact ⟨rfl, rfl⟩

/-- C8: with an account bound and a positive quantity, `addSellOrder` returns a state `r`;
the order is pushed onto the sell queue if and only if the account holds at least
`quantity` shares of the instrument, an instrument without a holdings entry counting as 0
shares.  When fewer shares are held, the submission is reported as insufficient shares and
`r` is the old state: the order never enters the queue. -/
theorem sell_admission (s : TradingSystem) (stock : String) (quantity : Int) (price : ℚ)
    (orderType : String) (u : String) (usr : User)
    (hu : s.currentUser = some u) (hf : s.users.find u = some usr) (hq : 0 < quantity) :
    ∃ r n, addSellOrder s stock quantity price orderType = some (r, n) ∧
      (r.sellOrders =
          s.sellOrders.push ⟨"sell", stock, quantity, price, s.timestamp, orderType⟩ ↔
        usr.portfolio.shares stock ≥ quantity) ∧
      (usr.portfolio.shares stock ≥ quantity →
        n = Notice.added ∧
        r = { s with
              sellOrders :=
                s.sellOrders.push ⟨"sell", stock, quantity, price, s.timestamp, orderType⟩,
              timestamp := s.timestamp + 1 }) ∧
      (usr.portfolio.shares stock < quantity → n = Notice.insufficientShares ∧ r = s) := by
  have hcan : usr.portfolio.canSell stock quantity =
      decide (usr.portfolio.shares stock ≥ quantity) := by
    unfold Portfolio.canSell Portfolio.shares
    cases hfind : usr.portfolio.holdings.find stock with
    | none =>
      simp only [Option.getD_none]
      exact (decide_eq_false (not_le.2 hq)).symm
    | some k => simp
  by_cases hc : usr.portfolio.shares stock ≥ quantity
  · have hcan1 : usr.portfolio.canSell stock quantity = true := by
      rw [hcan]
      exact decide_eq_true hc
    refine ⟨_, _, addSellOrder_accept s stock quantity price orderType u usr hu hf hcan1,
      ?_, ?_, ?_⟩
    · exact ⟨fun _ => hc, fun _ => rfl⟩
    · intro _
      exact ⟨rfl, rfl⟩
    · intro h
      exact absurd hc (not_le.2 h)
  · have hcan1 : usr.portfolio.canSell stock quantity = false := by
      rw [hcan]
      exact decide_eq_false hc
    refine ⟨s, Notice.insufficientShares,
      addSellOrder_reject s stock quantity price orderType u usr hu hf hcan1, ?_, ?_, ?_⟩
    · constructor
      · intro h
        have := congrArg List.length h
        simp [PQueue.push] at this
      · intro h
        exact absurd h hc
    · intro h
      exact absurd h hc
    · intro _
      exact ⟨rfl, rfl⟩

/-- C9: a submission that is not reported as added returns the state it was given, whole:
queues, counter, accounts, ledger and prices.  The three rejections do occur: without a
bound account both submissions are answered "please log in", a buy order costing more
than the balance is answered "insufficient funds", and a sell order that `canSell`
refuses is answered "insufficient shares"; each returns the unchanged state. -/
theorem rejection_is_atomic (s : TradingSystem) (stock : String) (quantity : Int)
    (price : ℚ) (orderType : String) :
    (∀ r n, addBuyOrder s stock quantity price orderType = some (r, n) →
      n ≠ Notice.added → r = s) ∧
    (∀ r n, addSellOrder s stock quantity price orderType = some (r, n) →
      n ≠ Notice.added → r = s) ∧
    (s.currentUser = none →
      addBuyOrder s stock quantity price orderType = some (s, Notice.pleaseLogIn) ∧
      addSellOrder s stock quantity price orderType = some (s, Notice.pleaseLogIn)) ∧
    (∀ u usr, s.currentUser = some u → s.users.find u = some usr →
      usr.portfolio.balance < price * quantity →
      addBuyOrder s stock quantity price orderType = some (s, Notice.insufficientFunds)) ∧
    (∀ u usr, s.currentUser = some u → s.users.find u = some usr →
      usr.portfolio.canSell stock quantity = false →
      addSellOrder s stock quantity price orderType =
        some (s, Notice.insufficientShares)) := by
  refine ⟨?_, ?_, ?_, ?_, ?_⟩
  · intro r n h hn
    cases hcu : s.currentUser with
    | none =>
      rw [addBuyOrder_unbound s stock quantity price orderType hcu] at h
      cases h
      rfl
    | some u =>
      cases hfu : s.users.find u with
      | none =>
        rw [addBuyOrder_dangling s stock quantity price orderType u hcu hfu] at h
        cases h
      | some usr =>
        cases hcan : usr.portfolio.canBuy (price * quantity) with
        | false =>
          rw [addBuyOrder_reject s stock quantity price orderType u usr hcu hfu hcan] at h
          cases h
          rfl
        | true =>
          rw [addBuyOrder_accept s stock quantity price orderType u usr hcu hfu hcan] at h
          cases h
          exact absurd rfl hn
  · intro r n h hn
    cases hcu : s.currentUser with
    | none =>
      rw [addSellOrder_unbound s stock quantity price orderType hcu] at h
      cases h
      rfl
    | some u =>
      cases hfu : s.users.find u with
      | none =>
        rw [addSellOrder_dangling s stock quantity price orderType u hcu hfu] at h
        cases h
      | some usr =>
        cases hcan : usr.portfolio.canSell stock quantity with
        | false =>
          rw [addSellOrder_reject s stock quantity price orderType u usr hcu hfu hcan] at h
          cases h
          rfl
        | true =>
          rw [addSellOrder_accept s stock quantity price orderType u usr hcu hfu hcan] at h
          cases h
          exact absurd rfl hn
  · intro h
    exact ⟨addBuyOrder_unbound s stock quantity price orderType h,
      addSellOrder_unbound s stock quantity price orderType h⟩
  · intro u usr hu hf hlt
    have hcan : usr.portfolio.canBuy (price * quantity) = false := by
      simp only [Portfolio.canBuy, decide_eq_false_iff_not]
      exact not_le.2 hlt
    exact addBuyOrder_reject s stock quantity price orderType u usr hu hf hcan
  · intro u usr hu hf hcan
    exact addSellOrder_reject s stock quantity price orderType u usr hu hf hcan

end TradingSystem

/-- Witness for C7: from the start of a session (balance 10000) a buy of 10 shares at
100 is admitted with sequence number 0, and a buy of 101 shares at 100 is refused. -/
theorem buy_admission_witness :
    (∃ r n, sessionStart.addBuyOrder "AAPL" 10 100 "limit" = some (r, n) ∧
      n = Notice.added ∧
      r.buyOrders = [⟨"buy", "AAPL", 10, 100, 0, "limit"⟩] ∧ r.timestamp = 1 ∧
      r.users = sessionStart.users) ∧
    (∃ r n, sessionStart.addBuyOrder "AAPL" 101 100 "limit" = some (r, n) ∧
      n = Notice.insufficientFunds ∧ r = sessionStart) := by
  constructor
  · obtain ⟨r, n, h1, _, h3, _, h5⟩ :=
      TradingSystem.buy_admission sessionStart "AAPL" 10 100 "limit" "u"
        ⟨"u", "pw", Portfolio.init⟩ rfl (by simp [sessionStart, SMap.find])
    obtain ⟨hn, hr⟩ := h3 (by norm_num [Portfolio.init])
    refine ⟨r, n, h1, hn, ?_, ?_, h5⟩
    · rw [hr]
      simp [sessionStart, PQueue.push]
    · rw [hr]
      simp [sessionStart]
  · obtain ⟨r, n, h1, _, _, h4, _⟩ :=
      TradingSystem.buy_admission sessionStart "AAPL" 101 100 "limit" "u"
        ⟨"u", "pw", Portfolio.init⟩ rfl (by simp [sessionStart, SMap.find])
    obtain ⟨hn, hr⟩ := h4 (by norm_num [Portfolio.init])
    exact ⟨r, n, h1, hn, hr⟩

/-- Witness for C8: an account holding 5 shares of MSFT and nothing else may queue a sale
of 5 MSFT, but neither of 6 MSFT nor of 1 AAPL. -/
theorem sell_admission_witness :
    (∃ r n, (limitSellBook 150).addSellOrder "MSFT" 5 0 "market" = some (r, n) ∧
      n = Notice.added ∧ r.sellOrders.length = 2) ∧
    (∃ r n, (limitSellBook 150).addSellOrder "MSFT" 6 0 "market" = some (r, n) ∧
      n = Notice.insufficientShares ∧ r = limitSellBook 150) ∧
    (∃ r n, (limitSellBook 150).addSellOrder "AAPL" 1 0 "market" = some (r, n) ∧
      n = Notice.insufficientShares ∧ r = limitSellBook 150) := by
  refine ⟨?_, ?_, ?_⟩
  · obtain ⟨r, n, h1, _, h3, _⟩ :=
      TradingSystem.sell_admission (limitSellBook 150) "MSFT" 5 0 "market" "u"
        ⟨"u", "pw", ⟨[("MSFT", 5)], 10000⟩⟩ rfl (by simp [limitSellBook, SMap.find])
        (by decide)
    obtain ⟨hn, hr⟩ := h3 (by simp [Portfolio.shares, SMap.find])
    refine ⟨r, n, h1, hn, ?_⟩
    rw [hr]
    simp [limitSellBook, PQueue.push]
  · obtain ⟨r, n, h1, _, _, h4⟩ :=
      TradingSystem.sell_admission (limitSellBook 150) "MSFT" 6 0 "market" "u"
        ⟨"u", "pw", ⟨[("MSFT", 5)], 10000⟩⟩ rfl (by simp [limitSellBook, SMap.find])
        (by decide)
    obtain ⟨hn, hr⟩ := h4 (by simp [Portfolio.shares, SMap.find])
    exact ⟨r, n, h1, hn, hr⟩
  · obtain ⟨r, n, h1, _, _, h4⟩ :=
      TradingSystem.sell_admission (limitSellBook 150) "AAPL" 1 0 "market" "u"
        ⟨"u", "pw", ⟨[("MSFT", 5)], 10000⟩⟩ rfl (by simp [limitSellBook, SMap.find])
        (by decide)
    have hne : ("AAPL" = "MSFT") = False := by decide
    obtain ⟨hn, hr⟩ := h4 (by simp [Portfolio.shares, SMap.find, hne])
    exact ⟨r, n, h1, hn, hr⟩

/-- Witness for C9: before any login both submissions return the initial system
unchanged, and an unaffordable buy order returns the logged-in state unchanged. -/
theorem rejection_is_atomic_witness :
    ((TradingSystem.init ⟨[], []⟩).addBuyOrder "AAPL" 1 100 "market" =
        some (TradingSystem.init ⟨[], []⟩, Notice.pleaseLogIn) ∧
      (TradingSystem.init ⟨[], []⟩).addSellOrder "AAPL" 1 100 "market" =
        some (TradingSystem.init ⟨[], []⟩, Notice.pleaseLogIn)) ∧
    sessionStart.addBuyOrder "AAPL" 101 100 "market" =
      some (sessionStart, Notice.insufficientFunds) :=
  ⟨(TradingSystem.rejection_is_atomic (TradingSystem.init ⟨[], []⟩) "AAPL" 1 100
      "market").2.2.1 rfl,
    (TradingSystem.rejection_is_atomic sessionStart "AAPL" 101 100 "market").2.2.2.1 "u"
      ⟨"u", "pw", Portfolio.init⟩ rfl (by simp [sessionStart, SMap.find])
      (by norm_num [Portfolio.init])⟩

/-! ## No re-validation at execution time -/

/-- C10 fails on the code: a market buy of 200 AAPL quoted at 1 is admitted (200 ≤ 10000).
At the cycle the price is 100, so the cost 20000 exceeds the balance and `canBuy` is
false for it; the order is filled all the same: it leaves the queue, its transaction is
in the ledger, the account holds 200 shares and the balance is -10000. -/
theorem overdrawn_buy_is_filled :
    (run sessionStart [.buy "AAPL" 200 1 "market"]).map
        (fun q => (q.buyOrders,
          q.account.map (fun a => a.portfolio.canBuy (q.market.getPrice "AAPL" * 200)))) =
      some ([⟨"buy", "AAPL", 200, 1, 0, "market"⟩], some false) ∧
    (run sessionStart [.buy "AAPL" 200 1 "market", .cycle (fun _ => 50)]).map
        (fun r => (r.buyOrders, r.transactionHistory, r.account.map (fun a => a.portfolio))) =
      some ([], [⟨"AAPL", 200, 100, "buy", 0⟩], some ⟨[("AAPL", 200)], -10000⟩) := by
  constructor <;>
  norm_num [run, step, sessionStart, SMap.insert, SMap.find, TradingSystem.addBuyOrder,
    TradingSystem.account, Portfolio.init, Portfolio.canBuy, PQueue.push,
    TradingSystem.executeOrders, TradingSystem.refresh, TradingSystem.buyPhase,
    TradingSystem.sellPhase, TradingSystem.buyLoop, TradingSystem.sellLoop, PQueue.top,
    PQueue.pop, StockOrder.lt, TradingSystem.buyMatches, TradingSystem.fillBuy,
    Market.getPrice, Market.updatePrices, Market.perturb, Portfolio.updateHoldings,
    Portfolio.adjustBalance]

namespace TradingSystem

/-- C10 as amended: the drain loops do not re-check the account.  With an account `u`
bound, an order at the head of the buy queue that matches the current price `p` is filled
by the next iteration of the buy loop whatever the balance: it leaves the queue, its
transaction is appended, the account gets `quantity` shares more and `p * quantity` less
cash, so that a cost above the balance leaves a negative balance.  In the same way a
matching head of the sell queue is filled whatever the holdings: the account gets
`quantity` shares fewer and `p * quantity` more cash, so that selling more than is held
leaves a negative share count. -/
theorem fill_ignores_prerequisite (s : TradingSystem) (n : Nat) (u : String) (usr : User)
    (hu : s.currentUser = some u) (hf : s.users.find u = some usr) :
    (∀ o, s.buyOrders.top = some o → buyMatches o (s.market.getPrice o.stock) = true →
      ∃ s1 usr1, fillBuy s o (s.market.getPrice o.stock) = some s1 ∧
        buyLoop (n + 1) s = buyLoop n s1 ∧
        s1.buyOrders = s.buyOrders.erase o ∧
        s1.transactionHistory = s.transactionHistory ++
          [⟨o.stock, o.quantity, s.market.getPrice o.stock, "buy", o.timestamp⟩] ∧
        s1.users.find u = some usr1 ∧
        usr1.portfolio.shares o.stock = usr.portfolio.shares o.stock + o.quantity ∧
        usr1.portfolio.balance =
          usr.portfolio.balance - s.market.getPrice o.stock * o.quantity ∧
        (usr.portfolio.canBuy (s.market.getPrice o.stock * o.quantity) = false →
          usr1.portfolio.balance < 0)) ∧
    (∀ o, s.sellOrders.top = some o → sellMatches o (s.market.getPrice o.stock) = true →
      ∃ s1 usr1, fillSell s o (s.market.getPrice o.stock) = some s1 ∧
        sellLoop (n + 1) s = sellLoop n s1 ∧
        s1.sellOrders = s.sellOrders.erase o ∧
        s1.transactionHistory = s.transactionHistory ++
          [⟨o.stock, o.quantity, s.market.getPrice o.stock, "sell", o.timestamp⟩] ∧
        s1.users.find u = some usr1 ∧
        usr1.portfolio.shares o.stock = usr.portfolio.shares o.stock - o.quantity ∧
        usr1.portfolio.balance =
          usr.portfolio.balance + s.market.getPrice o.stock * o.quantity ∧
        (usr.portfolio.shares o.stock < o.quantity → usr1.portfolio.shares o.stock < 0)) := by
  constructor
  · intro o ht hm
    have hfill := fillBuy_eq s o (s.market.getPrice o.stock) u usr hu hf
    have hbal : ((usr.portfolio.updateHoldings o.stock o.quantity).adjustBalance
        (-s.market.getPrice o.stock * o.quantity)).balance =
        usr.portfolio.balance - s.market.getPrice o.stock * o.quantity := by
      simp only [Portfolio.adjustBalance, Portfolio.updateHoldings]
      ring
    refine ⟨_, _, hfill, ?_, PQueue.pop_eq_erase _ _ ht, rfl, SMap.find_insert_self _ _ _,
      ?_, hbal, ?_⟩
    · rw [buyLoop_succ n s o ht, hm, if_pos rfl, hfill]
      rfl
    · rw [Portfolio.shares_adjustBalance, Portfolio.shares_updateHoldings, if_pos rfl]
    · intro hcan
      simp only [Portfolio.canBuy, decide_eq_false_iff_not, not_le] at hcan
      show ((usr.portfolio.updateHoldings o.stock o.quantity).adjustBalance
        (-s.market.getPrice o.stock * o.quantity)).balance < 0
      rw [hbal]
      linarith
  · intro o ht hm
    have hfill := fillSell_eq s o (s.market.getPrice o.stock) u usr hu hf
    have hsh : ((usr.portfolio.updateHoldings o.stock (-o.quantity)).adjustBalance
        (s.market.getPrice o.stock * o.quantity)).shares o.stock =
        usr.portfolio.shares o.stock - o.quantity := by
      rw [Portfolio.shares_adjustBalance, Portfolio.shares_updateHoldings, if_pos rfl]
      ring
    refine ⟨_, _, hfill, ?_, PQueue.pop_eq_erase _ _ ht, rfl, SMap.find_insert_self _ _ _,
      hsh, rfl, ?_⟩
    · rw [sellLoop_succ n s o ht, hm, if_pos rfl, hfill]
      rfl
    · intro hlt
      show ((usr.portfolio.updateHoldings o.stock (-o.quantity)).adjustBalance
        (s.market.getPrice o.stock * o.quantity)).shares o.stock < 0
      rw [hsh]
      omega

end TradingSystem

/-- Witness for C10 as amended: the order of `overdraftBook` costs 20000 against a balance
of 10000 and is filled, leaving a negative balance. -/
theorem fill_ignores_prerequisite_witness :
    ∃ s1 usr1,
      TradingSystem.fillBuy overdraftBook ⟨"buy", "AAPL", 200, 1, 0, "market"⟩
        (overdraftBook.market.getPrice "AAPL") = some s1 ∧
      TradingSystem.buyLoop 1 overdraftBook = TradingSystem.buyLoop 0 s1 ∧
      s1.users.find "u" = some usr1 ∧ usr1.portfolio.balance < 0 := by
  obtain ⟨s1, usr1, h1, h2, _, _, h5, _, _, h8⟩ :=
    (TradingSystem.fill_ignores_prerequisite overdraftBook 0 "u" ⟨"u", "pw", Portfolio.init⟩
      rfl (by simp [overdraftBook, sessionStart, SMap.find])).1
      ⟨"buy", "AAPL", 200, 1, 0, "market"⟩
      (by simp [overdraftBook, sessionStart, PQueue.top])
      (by simp [TradingSystem.buyMatches])
  refine ⟨s1, usr1, h1, h2, h5, h8 ?_⟩
  norm_num [overdraftBook, sessionStart, Market.getPrice, SMap.find, Portfolio.canBuy,
    Portfolio.init]

/-! ## Share counts -/

/-- C11 fails on the code: from the initial system an account is registered and logged
in, buys 5 AAPL, which are filled, and then submits two sell orders of 5 AAPL; both pass
`canSell` (5 ≥ 5, nothing is reserved) and are queued.  The next cycle fills both, at the
positive price 100, and leaves the account with -5 shares of AAPL. -/
theorem double_sale_leaves_negative_holdings :
    (run (TradingSystem.init (Market.init ["AAPL", "GOOGL", "MSFT"]))
      [.register "u" "pw", .login "u" "pw", .buy "AAPL" 5 100 "market", .cycle (fun _ => 50),
        .sell "AAPL" 5 100 "market", .sell "AAPL" 5 100 "market"]).map
      (fun q => (q.account.map (fun a => a.portfolio.shares "AAPL"),
        q.sellOrders.map (fun o => (o.quantity, o.timestamp)))) =
      some (some 5, [(5, 1), (5, 2)]) ∧
    (run (TradingSystem.init (Market.init ["AAPL", "GOOGL", "MSFT"]))
      [.register "u" "pw", .login "u" "pw", .buy "AAPL" 5 100 "market", .cycle (fun _ => 50),
        .sell "AAPL" 5 100 "market", .sell "AAPL" 5 100 "market", .cycle (fun _ => 50)]).map
      (fun r => (r.account.map (fun a => a.portfolio.shares "AAPL"),
        r.transactionHistory.map (fun t => (t.type, t.quantity, t.timestamp)))) =
      some (some (-5), [("buy", 5, 0), ("sell", 5, 2), ("sell", 5, 1)]) := by
  have h1 : ¬ ['G', 'O', 'O', 'G', 'L'] < ['A', 'A', 'P', 'L'] := by decide
  have h2 : ¬ ['M', 'S', 'F', 'T'] < ['A', 'A', 'P', 'L'] := by decide
  have h3 : ¬ ['M', 'S', 'F', 'T'] < ['G', 'O', 'O', 'G', 'L'] := by decide
  constructor <;>
  norm_num [run, step, TradingSystem.init, Market.init, TradingSystem.addUser,
    TradingSystem.authenticateUser, User.create, User.checkPassword, h1, h2, h3,
    SMap.insert, SMap.find, TradingSystem.addBuyOrder,
    TradingSystem.addSellOrder, TradingSystem.account, Portfolio.init, Portfolio.canBuy,
    Portfolio.canSell, Portfolio.shares, PQueue.push, TradingSystem.executeOrders,
    TradingSystem.refresh, TradingSystem.buyPhase, TradingSystem.sellPhase,
    TradingSystem.buyLoop, TradingSystem.sellLoop, PQueue.top, PQueue.pop, StockOrder.lt,
    TradingSystem.buyMatches, TradingSystem.sellMatches, TradingSystem.fillBuy,
    TradingSystem.fillSell, Market.getPrice, Market.updatePrices, Market.perturb,
    Portfolio.updateHoldings, Portfolio.adjustBalance]

/-! ## The market-buy scenario -/

namespace TradingSystem

theorem sellPhase_of_empty (s : TradingSystem) (h : s.sellOrders = []) :
    sellPhase s = some s := sellLoop_empty _ s h

/-- The buy phase on a queue holding one matching order: it is filled and the queue is
empty afterwards. -/
theorem buyPhase_single (t : TradingSystem) (o : StockOrder) (u : String) (usr : User)
    (hu : t.currentUser = some u) (hf : t.users.find u = some usr)
    (hq : t.buyOrders = [o]) (hm : buyMatches o (t.market.getPrice o.stock) = true) :
    buyPhase t = some { t with
      users := t.users.insert u { usr with portfolio :=
        ((usr.portfolio.updateHoldings o.stock o.quantity).adjustBalance
          (-t.market.getPrice o.stock * o.quantity)) },
      transactionHistory := t.transactionHistory ++
        [⟨o.stock, o.quantity, t.market.getPrice o.stock, "buy", o.timestamp⟩],
      buyOrders := [] } := by
  have htop : t.buyOrders.top = some o := by
    rw [hq]
    simp [PQueue.top]
  have hpop : t.buyOrders.pop = [] := by
    rw [hq]
    simp [PQueue.pop, PQueue.top]
  unfold buyPhase
  rw [hq]
  show buyLoop 1 t = _
  rw [buyLoop_succ 0 t o htop, hm, if_pos rfl, fillBuy_eq t o _ u usr hu hf, hpop]
  rfl

end TradingSystem

/-- C12 fails on the code when the quoted price is above 1000: a market buy of 10 AAPL
quoted at 2000 costs 20000 on submission, more than the balance 10000, so it is refused;
after the cycle the account holds no AAPL and its balance is 10000. -/
theorem market_buy_quoted_too_high_is_refused :
    (sessionStart.addBuyOrder "AAPL" 10 2000 "market").map Prod.snd =
      some Notice.insufficientFunds ∧
    (run sessionStart [.buy "AAPL" 10 2000 "market", .cycle (fun _ => 50)]).map
      (fun r => (r.account.map (fun a => (a.portfolio.shares "AAPL", a.portfolio.balance)),
        r.transactionHistory)) = some (some (0, 10000), []) := by
  constructor <;>
  norm_num [run, step, sessionStart, SMap.insert, SMap.find, TradingSystem.addBuyOrder,
    TradingSystem.account, Portfolio.init, Portfolio.canBuy, Portfolio.shares, PQueue.push,
    TradingSystem.executeOrders, TradingSystem.refresh, TradingSystem.buyPhase,
    TradingSystem.sellPhase, TradingSystem.buyLoop, TradingSystem.sellLoop, PQueue.top,
    PQueue.pop, StockOrder.lt, TradingSystem.buyMatches, TradingSystem.fillBuy,
    Market.getPrice, Market.updatePrices, Market.perturb, Portfolio.updateHoldings,
    Portfolio.adjustBalance]

/-- C12 as amended: let the bound account `u` be in its initial state (balance 10000, no
holdings) and both queues be empty.  A market buy of 10 shares of "AAPL" quoted at a
price `L` with `10 * L ≤ 10000`, followed by one matching cycle, ends in a state where
the account holds 10 shares of "AAPL" and has the balance `10000 - 10 * p`, `p` being
the AAPL price after the refresh of that cycle.  Quoted at a price with
`10 * L > 10000` the order is refused and the cycle only refreshes the prices. -/
theorem market_buy_scenario (s : TradingSystem) (u : String) (usr : User) (L : ℚ)
    (rnd : Nat → Nat)
    (hu : s.currentUser = some u) (hf : s.users.find u = some usr)
    (hp : usr.portfolio = Portfolio.init)
    (hb : s.buyOrders = []) (hs : s.sellOrders = []) :
    (10 * L ≤ 10000 →
      ∃ r usr1, run s [.buy "AAPL" 10 L "market", .cycle rnd] = some r ∧
        r.users.find u = some usr1 ∧
        usr1.portfolio.shares "AAPL" = 10 ∧
        usr1.portfolio.balance = 10000 - 10 * (s.refresh rnd).market.getPrice "AAPL" ∧
        r.buyOrders = [] ∧
        r.transactionHistory = s.transactionHistory ++
          [⟨"AAPL", 10, (s.refresh rnd).market.getPrice "AAPL", "buy", s.timestamp⟩]) ∧
    (10000 < 10 * L →
      run s [.buy "AAPL" 10 L "market", .cycle rnd] = some (s.refresh rnd)) := by
  constructor
  · intro hL
    have hcan : usr.portfolio.canBuy (L * ((10 : Int) : ℚ)) = true := by
      rw [hp]
      simp only [Portfolio.canBuy, Portfolio.init, decide_eq_true_eq]
      push_cast
      linarith
    have hadd := TradingSystem.addBuyOrder_accept s "AAPL" 10 L "market" u usr hu hf hcan
    have hbuy := TradingSystem.buyPhase_single
      (TradingSystem.refresh { s with
          buyOrders := s.buyOrders.push ⟨"buy", "AAPL", 10, L, s.timestamp, "market"⟩,
          timestamp := s.timestamp + 1 } rnd)
      ⟨"buy", "AAPL", 10, L, s.timestamp, "market"⟩ u usr hu hf
      (by simp [TradingSystem.refresh, hb, PQueue.push])
      (by simp [TradingSystem.buyMatches])
    have hrun : run s [.buy "AAPL" 10 L "market", .cycle rnd] = some
        { s with
          market := s.market.updatePrices rnd,
          users := s.users.insert u { usr with portfolio :=
            ((usr.portfolio.updateHoldings "AAPL" 10).adjustBalance
              (-(s.refresh rnd).market.getPrice "AAPL" * ((10 : Int) : ℚ))) },
          transactionHistory := s.transactionHistory ++
            [⟨"AAPL", 10, (s.refresh rnd).market.getPrice "AAPL", "buy", s.timestamp⟩],
          buyOrders := [],
          timestamp := s.timestamp + 1 } := by
      simp only [run, step, hadd, Option.map_some', Option.some_bind,
        TradingSystem.executeOrders, hbuy]
      rw [TradingSystem.sellPhase_of_empty]
      · rfl
      · exact hs
    refine ⟨_, _, hrun, SMap.find_insert_self _ _ _, ?_, ?_, rfl, rfl⟩
    · rw [Portfolio.shares_adjustBalance, Portfolio.shares_updateHoldings, if_pos rfl, hp]
      simp [Portfolio.shares, Portfolio.init, SMap.find]
    · rw [hp]
      simp only [Portfolio.adjustBalance, Portfolio.updateHoldings, Portfolio.init,
        TradingSystem.refresh]
      push_cast
      ring
  · intro hL
    have hcan : usr.portfolio.canBuy (L * ((10 : Int) : ℚ)) = false := by
      rw [hp]
      simp only [Portfolio.canBuy, Portfolio.init, decide_eq_false_iff_not, not_le]
      push_cast
      linarith
    have hadd := TradingSystem.addBuyOrder_reject s "AAPL" 10 L "market" u usr hu hf hcan
    simp only [run, step, hadd, Option.map_some', Option.some_bind,
      TradingSystem.executeOrders]
    rw [TradingSystem.buyPhase_of_empty _ (by simpa [TradingSystem.refresh] using hb)]
    simp only [Option.some_bind]
    rw [TradingSystem.sellPhase_of_empty _ (by simpa [TradingSystem.refresh] using hs)]
    rfl

theorem sessionStart_price :
    (sessionStart.refresh (fun _ => 50)).market.getPrice "AAPL" = 100 := by
  norm_num [sessionStart, TradingSystem.refresh, Market.updatePrices, Market.perturb,
    Market.getPrice, SMap.find]

/-- Witness for C12 as amended: quoted at 100 the order costs 1000 on submission, is
admitted and filled at the refreshed price 100; the balance is 9000. -/
theorem market_buy_scenario_witness :
    ∃ r usr1, run sessionStart [.buy "AAPL" 10 100 "market", .cycle (fun _ => 50)] = some r ∧
      r.users.find "u" = some usr1 ∧
      usr1.portfolio.shares "AAPL" = 10 ∧
      usr1.portfolio.balance = 9000 := by
  obtain ⟨r, usr1, h1, h2, h3, h4, _, _⟩ :=
    (market_buy_scenario sessionStart "u" ⟨"u", "pw", Portfolio.init⟩ 100 (fun _ => 50)
      rfl (by simp [sessionStart, SMap.find]) rfl rfl rfl).1 (by norm_num)
  refine ⟨r, usr1, h1, h2, h3, ?_⟩
  rw [h4, sessionStart_price]
  norm_num

/-! ## Invariants of the reachable states -/

theorem run_append (a b : List Command) : ∀ s : TradingSystem,
    run s (a ++ b) = (run s a).bind (fun s1 => run s1 b) := by
  induction a with
  | nil =>
    intro s
    rfl
  | cons c cs ih =>
    intro s
    simp only [List.cons_append, run]
    cases step s c with
    | none => rfl
    | some s1 => exact ih s1

theorem reachable_init (market : Market) : Reachable (TradingSystem.init market) :=
  ⟨market, [], rfl⟩

theorem reachable_step (s r : TradingSystem) (c : Command) (h : Reachable s)
    (hs : step s c = some r) : Reachable r := by
  obtain ⟨market, cmds, hrun⟩ := h
  refine ⟨market, cmds ++ [c], ?_⟩
  rw [run_append, hrun]
  simp [run, hs]

theorem reachable_run (cmds : List Command) : ∀ s r : TradingSystem, Reachable s →
    run s cmds = some r → Reachable r := by
  induction cmds with
  | nil =>
    intro s r h hr
    simp only [run, Option.some.injEq] at hr
    subst hr
    exact h
  | cons c cs ih =>
    intro s r h hr
    simp only [run] at hr
    obtain ⟨s1, h1, h2⟩ := Option.bind_eq_some.1 hr
    exact ih s1 r (reachable_step s s1 c h h1) h2

theorem numbered_of_perm (s r : TradingSystem)
    (hp : (sequenceNumbers r).Perm (sequenceNumbers s)) (ht : r.timestamp = s.timestamp)
    (h : Numbered s) : Numbered r := by
  obtain ⟨h1, h2, h3⟩ := h
  refine ⟨hp.nodup_iff.2 h1, ?_, ?_⟩
  · intro n hn
    rw [ht]
    exact h2 n (hp.mem_iff.1 hn)
  · rw [ht, h3, hp.length_eq]

theorem numbered_of_perm_cons (s r : TradingSystem)
    (hp : (sequenceNumbers r).Perm (s.timestamp :: sequenceNumbers s))
    (ht : r.timestamp = s.timestamp + 1) (h : Numbered s) : Numbered r := by
  obtain ⟨h1, h2, h3⟩ := h
  have hnew : s.timestamp ∉ sequenceNumbers s := fun hm => lt_irrefl _ (h2 _ hm).2
  refine ⟨hp.nodup_iff.2 (List.nodup_cons.2 ⟨hnew, h1⟩), ?_, ?_⟩
  · intro n hn
    rw [ht]
    rcases List.mem_cons.1 (hp.mem_iff.1 hn) with hn | hn
    · subst hn
      have : (0 : Int) ≤ s.timestamp := by
        rw [h3]
        exact Int.natCast_nonneg _
      omega
    · have := h2 n hn
      omega
  · rw [ht, h3, hp.length_eq]
    simp

namespace TradingSystem

theorem sequenceNumbers_fillBuy (s r : TradingSystem) (o : StockOrder) (p : ℚ)
    (ht : s.buyOrders.top = some o) (h : fillBuy s o p = some r) :
    (sequenceNumbers r).Perm (sequenceNumbers s) := by
  obtain ⟨f1, _, _, _, f5, f6⟩ := fillBuy_frame s r o p h
  have hq : s.buyOrders.Perm (o :: s.buyOrders.erase o) :=
    List.perm_cons_erase (PQueue.top_mem _ _ ht)
  have hm := hq.map (fun o : StockOrder => o.timestamp)
  unfold sequenceNumbers
  rw [f1, f5, f6, PQueue.pop_eq_erase _ _ ht]
  refine List.Perm.trans ?_ ((hm.append_right _).append_right _).symm
  have hs := List.perm_append_singleton o.timestamp
    ((s.buyOrders.erase o).map (fun o => o.timestamp) ++
      (s.sellOrders.map (fun o => o.timestamp) ++
        s.transactionHistory.map (fun t => t.timestamp)))
  simpa [List.append_assoc] using hs

theorem sequenceNumbers_fillSell (s r : TradingSystem) (o : StockOrder) (p : ℚ)
    (ht : s.sellOrders.top = some o) (h : fillSell s o p = some r) :
    (sequenceNumbers r).Perm (sequenceNumbers s) := by
  obtain ⟨f1, _, _, _, f5, f6⟩ := fillSell_frame s r o p h
  have hq : s.sellOrders.Perm (o :: s.sellOrders.erase o) :=
    List.perm_cons_erase (PQueue.top_mem _ _ ht)
  have hm := hq.map (fun o : StockOrder => o.timestamp)
  unfold sequenceNumbers
  rw [f1, f5, f6, PQueue.pop_eq_erase _ _ ht]
  refine List.Perm.trans ?_
    (((hm.append_left (s.buyOrders.map fun o => o.timestamp)).append_right _)).symm
  simp only [List.map_append, List.map_cons, List.map_nil, List.append_assoc]
  refine List.Perm.append_left _ ?_
  have hs := List.perm_append_singleton o.timestamp
    ((s.sellOrders.erase o).map (fun o => o.timestamp) ++
      s.transactionHistory.map (fun t => t.timestamp))
  simpa [List.append_assoc] using hs

theorem sequenceNumbers_buyLoop (n : Nat) : ∀ s r : TradingSystem, buyLoop n s = some r →
    (sequenceNumbers r).Perm (sequenceNumbers s) := by
  induction n with
  | zero =>
    intro s r h
    simp only [buyLoop, Option.some.injEq] at h
    subst h
    exact List.Perm.refl _
  | succ n ih =>
    intro s r h
    cases ht : s.buyOrders.top with
    | none =>
      simp only [buyLoop, ht, Option.some.injEq] at h
      subst h
      exact List.Perm.refl _
    | some o =>
      rw [buyLoop_succ n s o ht] at h
      split at h
      · obtain ⟨m, hm, hr⟩ := Option.bind_eq_some.1 h
        exact (ih m r hr).trans (sequenceNumbers_fillBuy s m o _ ht hm)
      · simp only [Option.some.injEq] at h
        subst h
        exact List.Perm.refl _

theorem sequenceNumbers_sellLoop (n : Nat) : ∀ s r : TradingSystem, sellLoop n s = some r →
    (sequenceNumbers r).Perm (sequenceNumbers s) := by
  induction n with
  | zero =>
    intro s r h
    simp only [sellLoop, Option.some.injEq] at h
    subst h
    exact List.Perm.refl _
  | succ n ih =>
    intro s r h
    cases ht : s.sellOrders.top with
    | none =>
      simp only [sellLoop, ht, Option.some.injEq] at h
      subst h
      exact List.Perm.refl _
    | some o =>
      rw [sellLoop_succ n s o ht] at h
      split at h
      · obtain ⟨m, hm, hr⟩ := Option.bind_eq_some.1 h
        exact (ih m r hr).trans (sequenceNumbers_fillSell s m o _ ht hm)
      · simp only [Option.some.injEq] at h
        subst h
        exact List.Perm.refl _

end TradingSystem

namespace TradingSystem

theorem wellFormed_init (market : Market) : WellFormed (TradingSystem.init market) := by
  refine ⟨?_, ?_, ?_, ?_, ?_⟩
  · intro u hu
    cases hu
  · intro _
    exact ⟨rfl, rfl⟩
  · simp [sequenceNumbers, TradingSystem.init]
  · intro n hn
    simp [sequenceNumbers, TradingSystem.init] at hn
  · simp [sequenceNumbers, TradingSystem.init]

theorem wellFormed_addUser (s : TradingSystem) (username password : String)
    (h : WellFormed s) : WellFormed (s.addUser username password) := by
  unfold addUser
  cases hfind : s.users.find username with
  | some x => exact h
  | none =>
    obtain ⟨h1, h2, h3⟩ := h
    refine ⟨?_, h2, h3⟩
    intro u hu
    obtain ⟨usr, hf⟩ := h1 u hu
    have hne : u ≠ username := by
      intro e
      subst e
      rw [hfind] at hf
      cases hf
    exact ⟨usr, by
      show (s.users.insert username _).find u = some usr
      rw [SMap.find_insert_ne _ _ _ _ hne]
      exact hf⟩

theorem wellFormed_authenticateUser (s : TradingSystem) (username password : String)
    (h : WellFormed s) : WellFormed (s.authenticateUser username password).1 := by
  unfold authenticateUser
  cases hfind : s.users.find username with
  | none => exact h
  | some usr =>
    simp only
    split
    · obtain ⟨_, _, h3⟩ := h
      refine ⟨?_, ?_, h3⟩
      · intro u hu
        simp only [Option.some.injEq] at hu
        subst hu
        exact ⟨usr, hfind⟩
      · intro hn
        cases hn
    · exact h

theorem wellFormed_addBuyOrder (s : TradingSystem) (stock : String) (quantity : Int)
    (price : ℚ) (orderType : String) (h : WellFormed s) :
    ∃ r n, addBuyOrder s stock quantity price orderType = some (r, n) ∧ WellFormed r := by
  cases hcu : s.currentUser with
  | none => exact ⟨s, _, addBuyOrder_unbound s stock quantity price orderType hcu, h⟩
  | some u =>
    obtain ⟨usr, hf⟩ := h.1 u hcu
    cases hcan : usr.portfolio.canBuy (price * quantity) with
    | false =>
      exact ⟨s, _, addBuyOrder_reject s stock quantity price orderType u usr hcu hf hcan, h⟩
    | true =>
      refine ⟨_, _, addBuyOrder_accept s stock quantity price orderType u usr hcu hf hcan,
        h.1, ?_, ?_⟩
      · intro hn
        rw [hcu] at hn
        cases hn
      · refine numbered_of_perm_cons s _ ?_ rfl h.2.2
        simp [sequenceNumbers, PQueue.push, List.append_assoc]

theorem wellFormed_addSellOrder (s : TradingSystem) (stock : String) (quantity : Int)
    (price : ℚ) (orderType : String) (h : WellFormed s) :
    ∃ r n, addSellOrder s stock quantity price orderType = some (r, n) ∧ WellFormed r := by
  cases hcu : s.currentUser with
  | none => exact ⟨s, _, addSellOrder_unbound s stock quantity price orderType hcu, h⟩
  | some u =>
    obtain ⟨usr, hf⟩ := h.1 u hcu
    cases hcan : usr.portfolio.canSell stock quantity with
    | false =>
      exact ⟨s, _, addSellOrder_reject s stock quantity price orderType u usr hcu hf hcan, h⟩
    | true =>
      refine ⟨_, _, addSellOrder_accept s stock quantity price orderType u usr hcu hf hcan,
        h.1, ?_, ?_⟩
      · intro hn
        rw [hcu] at hn
        cases hn
      · refine numbered_of_perm_cons s _ ?_ rfl h.2.2
        have hm : ((s.buyOrders.map (fun o => o.timestamp) ++
              s.sellOrders.map (fun o => o.timestamp)) ++
              s.timestamp :: s.transactionHistory.map (fun t => t.timestamp)).Perm
            (s.timestamp :: ((s.buyOrders.map (fun o => o.timestamp) ++
              s.sellOrders.map (fun o => o.timestamp)) ++
              s.transactionHistory.map (fun t => t.timestamp))) := List.perm_middle
        simpa [sequenceNumbers, PQueue.push, List.append_assoc] using hm

/-- A cycle run while no account is bound only refreshes the prices, provided nothing
is queued. -/
theorem executeOrders_of_empty (s : TradingSystem) (rnd : Nat → Nat)
    (hb : s.buyOrders = []) (hs : s.sellOrders = []) :
    executeOrders s rnd = some (refresh s rnd) := by
  unfold executeOrders
  rw [buyPhase_of_empty (refresh s rnd) hb]
  exact sellLoop_empty _ (refresh s rnd) hs

theorem wellFormed_executeOrders (s : TradingSystem) (rnd : Nat → Nat) (h : WellFormed s) :
    ∃ r, executeOrders s rnd = some r ∧ WellFormed r := by
  cases hcu : s.currentUser with
  | none =>
    obtain ⟨hb, hs⟩ := h.2.1 hcu
    exact ⟨_, executeOrders_of_empty s rnd hb hs, h⟩
  | some u =>
    obtain ⟨usr, hf⟩ := h.1 u hcu
    obtain ⟨b, usrb, hb, hub, hfb⟩ :=
      buyLoop_total (refresh s rnd).buyOrders.length (refresh s rnd) u usr hcu hf
    obtain ⟨r, usrr, hr, hur, hfr⟩ := sellLoop_total b.sellOrders.length b u usrb hub hfb
    have hex : executeOrders s rnd = some r := by
      show (buyLoop (refresh s rnd).buyOrders.length (refresh s rnd)).bind sellPhase = some r
      rw [hb]
      exact hr
    obtain ⟨_, _, _, b4, _⟩ := buyLoop_frame _ _ b hb
    obtain ⟨_, _, _, r4, _⟩ := sellLoop_frame _ _ r hr
    refine ⟨r, hex, ?_, ?_, ?_⟩
    · intro v hv
      rw [hur] at hv
      simp only [Option.some.injEq] at hv
      subst hv
      exact ⟨usrr, hfr⟩
    · intro hn
      rw [hur] at hn
      cases hn
    · have hp := (sequenceNumbers_sellLoop _ b r hr).trans
        (sequenceNumbers_buyLoop _ (refresh s rnd) b hb)
      exact numbered_of_perm s r hp (r4.trans b4) h.2.2

end TradingSystem

/-- From a well-formed state every command returns, in a well-formed state. -/
theorem wellFormed_step (s : TradingSystem) (c : Command) (h : WellFormed s) :
    ∃ r, step s c = some r ∧ WellFormed r := by
  cases c with
  | register a b => exact ⟨_, rfl, TradingSystem.wellFormed_addUser s a b h⟩
  | login a b => exact ⟨_, rfl, TradingSystem.wellFormed_authenticateUser s a b h⟩
  | buy stock quantity price orderType =>
    obtain ⟨r, n, h1, h2⟩ :=
      TradingSystem.wellFormed_addBuyOrder s stock quantity price orderType h
    exact ⟨r, by simp [step, h1], h2⟩
  | sell stock quantity price orderType =>
    obtain ⟨r, n, h1, h2⟩ :=
      TradingSystem.wellFormed_addSellOrder s stock quantity price orderType h
    exact ⟨r, by simp [step, h1], h2⟩
  | cycle rnd => exact TradingSystem.wellFormed_executeOrders s rnd h

theorem wellFormed_run (cmds : List Command) : ∀ s : TradingSystem, WellFormed s →
    ∃ r, run s cmds = some r ∧ WellFormed r := by
  induction cmds with
  | nil =>
    intro s h
    exact ⟨s, rfl, h⟩
  | cons c cs ih =>
    intro s h
    obtain ⟨s1, h1, h2⟩ := wellFormed_step s c h
    obtain ⟨r, h3, h4⟩ := ih s1 h2
    exact ⟨r, by simp [run, h1, h3], h4⟩

/-- Every reachable state is well formed. -/
theorem wellFormed_of_reachable (s : TradingSystem) (h : Reachable s) : WellFormed s := by
  obtain ⟨market, cmds, hrun⟩ := h
  obtain ⟨r, hr, hw⟩ := wellFormed_run cmds _ (TradingSystem.wellFormed_init market)
  rw [hrun] at hr
  cases hr
  exact hw

/-! ## Orders that never become eligible -/

namespace TradingSystem

theorem addUser_queues (s : TradingSystem) (username password : String) :
    (s.addUser username password).buyOrders = s.buyOrders ∧
    (s.addUser username password).sellOrders = s.sellOrders ∧
    (s.addUser username password).transactionHistory = s.transactionHistory ∧
    (s.addUser username password).market = s.market ∧
    (s.addUser username password).timestamp = s.timestamp ∧
    (s.addUser username password).currentUser = s.currentUser := by
  unfold addUser
  split <;> exact ⟨rfl, rfl, rfl, rfl, rfl, rfl⟩

theorem authenticateUser_queues (s : TradingSystem) (username password : String) :
    (s.authenticateUser username password).1.buyOrders = s.buyOrders ∧
    (s.authenticateUser username password).1.sellOrders = s.sellOrders ∧
    (s.authenticateUser username password).1.transactionHistory = s.transactionHistory ∧
    (s.authenticateUser username password).1.market = s.market ∧
    (s.authenticateUser username password).1.timestamp = s.timestamp ∧
    (s.authenticateUser username password).1.users = s.users := by
  unfold authenticateUser
  split
  · split <;> exact ⟨rfl, rfl, rfl, rfl, rfl, rfl⟩
  · exact ⟨rfl, rfl, rfl, rfl, rfl, rfl⟩

/-- The outcomes of `addBuyOrder`: the unchanged state, or the state with the order
pushed and the counter incremented. -/
theorem addBuyOrder_cases (s r : TradingSystem) (n : Notice) (stock : String)
    (quantity : Int) (price : ℚ) (orderType : String)
    (h : addBuyOrder s stock quantity price orderType = some (r, n)) :
    (n ≠ Notice.added ∧ r = s) ∨
    (n = Notice.added ∧
      r = { s with
            buyOrders :=
              s.buyOrders.push ⟨"buy", stock, quantity, price, s.timestamp, orderType⟩,
            timestamp := s.timestamp + 1 }) := by
  cases hcu : s.currentUser with
  | none =>
    rw [addBuyOrder_unbound s stock quantity price orderType hcu] at h
    cases h
    exact Or.inl ⟨by decide, rfl⟩
  | some u =>
    cases hfu : s.users.find u with
    | none =>
      rw [addBuyOrder_dangling s stock quantity price orderType u hcu hfu] at h
      cases h
    | some usr =>
      cases hcan : usr.portfolio.canBuy (price * quantity) with
      | false =>
        rw [addBuyOrder_reject s stock quantity price orderType u usr hcu hfu hcan] at h
        cases h
        exact Or.inl ⟨by decide, rfl⟩
      | true =>
        rw [addBuyOrder_accept s stock quantity price orderType u usr hcu hfu hcan] at h
        cases h
        exact Or.inr ⟨rfl, by rw [hcu]⟩

/-- The outcomes of `addSellOrder`: the unchanged state, or the state with the order
pushed and the counter incremented. -/
theorem addSellOrder_cases (s r : TradingSystem) (n : Notice) (stock : String)
    (quantity : Int) (price : ℚ) (orderType : String)
    (h : addSellOrder s stock quantity price orderType = some (r, n)) :
    (n ≠ Notice.added ∧ r = s) ∨
    (n = Notice.added ∧
      r = { s with
            sellOrders :=
              s.sellOrders.push ⟨"sell", stock, quantity, price, s.timestamp, orderType⟩,
            timestamp := s.timestamp + 1 }) := by
  cases hcu : s.currentUser with
  | none =>
    rw [addSellOrder_unbound s stock quantity price orderType hcu] at h
    cases h
    exact Or.inl ⟨by decide, rfl⟩
  | some u =>
    cases hfu : s.users.find u with
    | none =>
      rw [addSellOrder_dangling s stock quantity price orderType u hcu hfu] at h
      cases h
    | some usr =>
      cases hcan : usr.portfolio.canSell stock quantity with
      | false =>
        rw [addSellOrder_reject s stock quantity price orderType u usr hcu hfu hcan] at h
        cases h
        exact Or.inl ⟨by decide, rfl⟩
      | true =>
        rw [addSellOrder_accept s stock quantity price orderType u usr hcu hfu hcan] at h
        cases h
        exact Or.inr ⟨rfl, by rw [hcu]⟩

/-- An order that does not match stays in the buy queue through the buy loop. -/
theorem mem_buyLoop (o : StockOrder) (n : Nat) : ∀ s r : TradingSystem,
    buyLoop n s = some r → o ∈ s.buyOrders →
    buyMatches o (s.market.getPrice o.stock) = false → o ∈ r.buyOrders := by
  induction n with
  | zero =>
    intro s r h hm _
    simp only [buyLoop, Option.some.injEq] at h
    subst h
    exact hm
  | succ n ih =>
    intro s r h hm hno
    cases ht : s.buyOrders.top with
    | none =>
      simp only [buyLoop, ht, Option.some.injEq] at h
      subst h
      exact hm
    | some t =>
      rw [buyLoop_succ n s t ht] at h
      split at h
      · rename_i hyes
        obtain ⟨m, hfill, hr⟩ := Option.bind_eq_some.1 h
        obtain ⟨_, f2, _, _, f5, _⟩ := fillBuy_frame s m t _ hfill
        have hne : o ≠ t := by
          intro e
          subst e
          rw [hno] at hyes
          cases hyes
        refine ih m r hr ?_ ?_
        · rw [f5, PQueue.pop_eq_erase _ _ ht]
          exact (List.mem_erase_of_ne hne).2 hm
        · rw [f2]
          exact hno
      · simp only [Option.some.injEq] at h
        subst h
        exact hm

/-- An order that does not match stays in the sell queue through the sell loop. -/
theorem mem_sellLoop (o : StockOrder) (n : Nat) : ∀ s r : TradingSystem,
    sellLoop n s = some r → o ∈ s.sellOrders →
    sellMatches o (s.market.getPrice o.stock) = false → o ∈ r.sellOrders := by
  induction n with
  | zero =>
    intro s r h hm _
    simp only [sellLoop, Option.some.injEq] at h
    subst h
    exact hm
  | succ n ih =>
    intro s r h hm hno
    cases ht : s.sellOrders.top with
    | none =>
      simp only [sellLoop, ht, Option.some.injEq] at h
      subst h
      exact hm
    | some t =>
      rw [sellLoop_succ n s t ht] at h
      split at h
      · rename_i hyes
        obtain ⟨m, hfill, hr⟩ := Option.bind_eq_some.1 h
        obtain ⟨_, f2, _, _, f5, _⟩ := fillSell_frame s m t _ hfill
        have hne : o ≠ t := by
          intro e
          subst e
          rw [hno] at hyes
          cases hyes
        refine ih m r hr ?_ ?_
        · rw [f5, PQueue.pop_eq_erase _ _ ht]
          exact (List.mem_erase_of_ne hne).2 hm
        · rw [f2]
          exact hno
      · simp only [Option.some.injEq] at h
        subst h
        exact hm

theorem executeOrders_split (s r : TradingSystem) (rnd : Nat → Nat)
    (h : executeOrders s rnd = some r) :
    ∃ b, buyLoop (refresh s rnd).buyOrders.length (refresh s rnd) = some b ∧
      sellLoop b.sellOrders.length b = some r :=
  Option.bind_eq_some.1 h

end TradingSystem

theorem mem_buyOrders_step (o : StockOrder) (s r : TradingSystem) (c : Command)
    (h : step s c = some r) (hm : o ∈ s.buyOrders)
    (hno : ∀ rnd, c = .cycle rnd →
      TradingSystem.buyMatches o ((s.refresh rnd).market.getPrice o.stock) = false) :
    o ∈ r.buyOrders := by
  cases c with
  | register a b =>
    simp only [step, Option.some.injEq] at h
    subst h
    rw [(TradingSystem.addUser_queues s a b).1]
    exact hm
  | login a b =>
    simp only [step, Option.some.injEq] at h
    subst h
    rw [(TradingSystem.authenticateUser_queues s a b).1]
    exact hm
  | buy stock quantity price orderType =>
    simp only [step, Option.map_eq_some'] at h
    obtain ⟨⟨r1, n⟩, h1, h2⟩ := h
    simp only at h2
    subst h2
    rcases TradingSystem.addBuyOrder_cases s r1 n stock quantity price orderType h1 with
      ⟨_, e⟩ | ⟨_, e⟩
    · rw [e]
      exact hm
    · rw [e]
      exact List.mem_append_left _ hm
  | sell stock quantity price orderType =>
    simp only [step, Option.map_eq_some'] at h
    obtain ⟨⟨r1, n⟩, h1, h2⟩ := h
    simp only at h2
    subst h2
    rcases TradingSystem.addSellOrder_cases s r1 n stock quantity price orderType h1 with
      ⟨_, e⟩ | ⟨_, e⟩
    · rw [e]
      exact hm
    · rw [e]
      exact hm
  | cycle rnd =>
    obtain ⟨b, hb, hr⟩ := TradingSystem.executeOrders_split s r rnd h
    obtain ⟨g1, _⟩ := TradingSystem.sellLoop_frame _ b r hr
    rw [g1]
    exact TradingSystem.mem_buyLoop o _ (s.refresh rnd) b hb hm (hno rnd rfl)

theorem mem_sellOrders_step (o : StockOrder) (s r : TradingSystem) (c : Command)
    (h : step s c = some r) (hm : o ∈ s.sellOrders)
    (hno : ∀ rnd, c = .cycle rnd →
      TradingSystem.sellMatches o ((s.refresh rnd).market.getPrice o.stock) = false) :
    o ∈ r.sellOrders := by
  cases c with
  | register a b =>
    simp only [step, Option.some.injEq] at h
    subst h
    rw [(TradingSystem.addUser_queues s a b).2.1]
    exact hm
  | login a b =>
    simp only [step, Option.some.injEq] at h
    subst h
    rw [(TradingSystem.authenticateUser_queues s a b).2.1]
    exact hm
  | buy stock quantity price orderType =>
    simp only [step, Option.map_eq_some'] at h
    obtain ⟨⟨r1, n⟩, h1, h2⟩ := h
    simp only at h2
    subst h2
    rcases TradingSystem.addBuyOrder_cases s r1 n stock quantity price orderType h1 with
      ⟨_, e⟩ | ⟨_, e⟩
    · rw [e]
      exact hm
    · rw [e]
      exact hm
  | sell stock quantity price orderType =>
    simp only [step, Option.map_eq_some'] at h
    obtain ⟨⟨r1, n⟩, h1, h2⟩ := h
    simp only at h2
    subst h2
    rcases TradingSystem.addSellOrder_cases s r1 n stock quantity price orderType h1 with
      ⟨_, e⟩ | ⟨_, e⟩
    · rw [e]
      exact hm
    · rw [e]
      exact List.mem_append_left _ hm
  | cycle rnd =>
    obtain ⟨b, hb, hr⟩ := TradingSystem.executeOrders_split s r rnd h
    obtain ⟨f1, f2, _⟩ := TradingSystem.buyLoop_frame _ (s.refresh rnd) b hb
    have hmb : o ∈ b.sellOrders := by
      rw [f1]
      exact hm
    refine TradingSystem.mem_sellLoop o _ b r hr hmb ?_
    rw [f2]
    exact hno rnd rfl

theorem ledger_ne_of_pending_buy (s : TradingSystem) (o : StockOrder) (h : WellFormed s)
    (hm : o ∈ s.buyOrders) : ∀ t ∈ s.transactionHistory, t.timestamp ≠ o.timestamp := by
  intro t ht e
  have hnd := h.2.2.1
  unfold sequenceNumbers at hnd
  have hdis := (List.nodup_append.1 hnd).2.2
  have h1 : o.timestamp ∈ s.buyOrders.map (fun o => o.timestamp) ++
      s.sellOrders.map (fun o => o.timestamp) :=
    List.mem_append_left _ (List.mem_map_of_mem _ hm)
  have h2 : o.timestamp ∈ s.transactionHistory.map (fun t => t.timestamp) := by
    rw [← e]
    exact List.mem_map_of_mem _ ht
  exact hdis h1 h2

theorem ledger_ne_of_pending_sell (s : TradingSystem) (o : StockOrder) (h : WellFormed s)
    (hm : o ∈ s.sellOrders) : ∀ t ∈ s.transactionHistory, t.timestamp ≠ o.timestamp := by
  intro t ht e
  have hnd := h.2.2.1
  unfold sequenceNumbers at hnd
  have hdis := (List.nodup_append.1 hnd).2.2
  have h1 : o.timestamp ∈ s.buyOrders.map (fun o => o.timestamp) ++
      s.sellOrders.map (fun o => o.timestamp) :=
    List.mem_append_right _ (List.mem_map_of_mem _ hm)
  have h2 : o.timestamp ∈ s.transactionHistory.map (fun t => t.timestamp) := by
    rw [← e]
    exact List.mem_map_of_mem _ ht
  exact hdis h1 h2

theorem pending_buy_run (o : StockOrder) (cmds : List Command) : ∀ s : TradingSystem,
    WellFormed s → o ∈ s.buyOrders → neverMatches TradingSystem.buyMatches o s cmds →
    ∃ r, run s cmds = some r ∧ WellFormed r ∧ o ∈ r.buyOrders := by
  induction cmds with
  | nil =>
    intro s hw hm _
    exact ⟨s, rfl, hw, hm⟩
  | cons c cs ih =>
    intro s hw hm hno
    obtain ⟨s1, h1, hw1⟩ := wellFormed_step s c hw
    simp only [neverMatches, h1] at hno
    obtain ⟨hc, hrest⟩ := hno
    have hm1 : o ∈ s1.buyOrders := by
      refine mem_buyOrders_step o s s1 c h1 hm ?_
      intro rnd e
      subst e
      exact hc
    obtain ⟨r, h3, h4, h5⟩ := ih s1 hw1 hm1 hrest
    exact ⟨r, by simp [run, h1, h3], h4, h5⟩

theorem pending_sell_run (o : StockOrder) (cmds : List Command) : ∀ s : TradingSystem,
    WellFormed s → o ∈ s.sellOrders → neverMatches TradingSystem.sellMatches o s cmds →
    ∃ r, run s cmds = some r ∧ WellFormed r ∧ o ∈ r.sellOrders := by
  induction cmds with
  | nil =>
    intro s hw hm _
    exact ⟨s, rfl, hw, hm⟩
  | cons c cs ih =>
    intro s hw hm hno
    obtain ⟨s1, h1, hw1⟩ := wellFormed_step s c hw
    simp only [neverMatches, h1] at hno
    obtain ⟨hc, hrest⟩ := hno
    have hm1 : o ∈ s1.sellOrders := by
      refine mem_sellOrders_step o s s1 c h1 hm ?_
      intro rnd e
      subst e
      exact hc
    obtain ⟨r, h3, h4, h5⟩ := ih s1 hw1 hm1 hrest
    exact ⟨r, by simp [run, h1, h3], h4, h5⟩

/-- C13: let `o` be an order pending in a reachable state `s`, and let commands be
performed from `s` (submissions, registrations, logins and cycles) such that at the
refreshed prices of every cycle among them `o` does not match.  The commands run to a
state in which `o` is still in its queue and no ledger transaction carries its sequence
number; this holds for a buy order with the buy condition and for a sell order with the
sell condition.  When `o` is the only queued order, a cycle in which it does not match
returns the state it was given with only the prices refreshed. -/
theorem never_eligible_order_stays_queued (s : TradingSystem) (o : StockOrder)
    (cmds : List Command) (hr : Reachable s) :
    (o ∈ s.buyOrders → neverMatches TradingSystem.buyMatches o s cmds →
      ∃ r, run s cmds = some r ∧ o ∈ r.buyOrders ∧
        ∀ t ∈ r.transactionHistory, t.timestamp ≠ o.timestamp) ∧
    (o ∈ s.sellOrders → neverMatches TradingSystem.sellMatches o s cmds →
      ∃ r, run s cmds = some r ∧ o ∈ r.sellOrders ∧
        ∀ t ∈ r.transactionHistory, t.timestamp ≠ o.timestamp) ∧
    (∀ rnd, s.buyOrders = [o] → s.sellOrders = [] →
      TradingSystem.buyMatches o ((s.refresh rnd).market.getPrice o.stock) = false →
      s.executeOrders rnd = some { s with market := s.market.updatePrices rnd }) ∧
    (∀ rnd, s.buyOrders = [] → s.sellOrders = [o] →
      TradingSystem.sellMatches o ((s.refresh rnd).market.getPrice o.stock) = false →
      s.executeOrders rnd = some { s with market := s.market.updatePrices rnd }) := by
  have hw := wellFormed_of_reachable s hr
  refine ⟨?_, ?_, ?_, ?_⟩
  · intro hm hno
    obtain ⟨r, h1, h2, h3⟩ := pending_buy_run o cmds s hw hm hno
    exact ⟨r, h1, h3, ledger_ne_of_pending_buy r o h2 h3⟩
  · intro hm hno
    obtain ⟨r, h1, h2, h3⟩ := pending_sell_run o cmds s hw hm hno
    exact ⟨r, h1, h3, ledger_ne_of_pending_sell r o h2 h3⟩
  · intro rnd hb hs hno
    have htop : (s.refresh rnd).buyOrders.top = some o := by
      show s.buyOrders.top = some o
      rw [hb]
      simp [PQueue.top]
    show (TradingSystem.buyLoop (s.refresh rnd).buyOrders.length (s.refresh rnd)).bind
      TradingSystem.sellPhase = _
    have hlen : (s.refresh rnd).buyOrders.length = 0 + 1 := by
      show s.buyOrders.length = 1
      rw [hb]
      rfl
    rw [hlen, TradingSystem.buyLoop_succ 0 (s.refresh rnd) o htop, hno]
    exact TradingSystem.sellLoop_empty _ (s.refresh rnd) hs
  · intro rnd hb hs hno
    have htop : (s.refresh rnd).sellOrders.top = some o := by
      show s.sellOrders.top = some o
      rw [hs]
      simp [PQueue.top]
    show (TradingSystem.buyPhase (s.refresh rnd)).bind TradingSystem.sellPhase = _
    rw [TradingSystem.buyPhase_of_empty (s.refresh rnd) hb]
    show TradingSystem.sellLoop (s.refresh rnd).sellOrders.length (s.refresh rnd) = _
    have hlen : (s.refresh rnd).sellOrders.length = 0 + 1 := by
      show s.sellOrders.length = 1
      rw [hs]
      rfl
    rw [hlen, TradingSystem.sellLoop_succ 0 (s.refresh rnd) o htop, hno]
    rfl

theorem sessionStart_is_reachable : Reachable sessionStart :=
  ⟨Market.init ["AAPL", "GOOGL", "MSFT"], [.register "u" "pw", .login "u" "pw"],
    sessionStart_reachable⟩

theorem lowBidBook_is_reachable : Reachable lowBidBook := by
  refine reachable_step sessionStart lowBidBook (.buy "AAPL" 1 50 "limit")
    sessionStart_is_reachable ?_
  norm_num [step, sessionStart, lowBidBook, SMap.find, TradingSystem.addBuyOrder,
    Portfolio.init, Portfolio.canBuy, PQueue.push]

theorem lowBidBook_refresh :
    lowBidBook.refresh (fun _ => 50) = lowBidBook := by
  norm_num [lowBidBook, sessionStart, TradingSystem.refresh, Market.updatePrices,
    Market.perturb]

theorem lowBidBook_blocked :
    TradingSystem.buyMatches ⟨"buy", "AAPL", 1, 50, 0, "limit"⟩
      (lowBidBook.market.getPrice "AAPL") = false := by
  norm_num [TradingSystem.buyMatches, lowBidBook, sessionStart, Market.getPrice, SMap.find]
  decide

theorem lowBidBook_cycle :
    lowBidBook.executeOrders (fun _ => 50) = some lowBidBook := by
  have h := TradingSystem.executeOrders_eq lowBidBook (fun _ => 50)
  rw [lowBidBook_refresh] at h
  rw [h]
  have htop : lowBidBook.buyOrders.top = some ⟨"buy", "AAPL", 1, 50, 0, "limit"⟩ := by
    simp [lowBidBook, PQueue.top]
  have hlen : lowBidBook.buyOrders.length = 0 + 1 := rfl
  rw [hlen, TradingSystem.buyLoop_succ 0 lowBidBook _ htop, lowBidBook_blocked]
  rfl

/-- Witness for C13: the limit buy at 50 of `lowBidBook` does not match at price 100 in
either of two cycles; it is still queued afterwards. -/
theorem never_eligible_order_stays_queued_witness :
    ∃ r, run lowBidBook [.cycle (fun _ => 50), .cycle (fun _ => 50)] = some r ∧
      (⟨"buy", "AAPL", 1, 50, 0, "limit"⟩ : StockOrder) ∈ r.buyOrders ∧
      ∀ t ∈ r.transactionHistory, t.timestamp ≠ 0 :=
  (never_eligible_order_stays_queued lowBidBook ⟨"buy", "AAPL", 1, 50, 0, "limit"⟩
    [.cycle (fun _ => 50), .cycle (fun _ => 50)] lowBidBook_is_reachable).1
    (by simp [lowBidBook])
    (by
      simp only [neverMatches, step, lowBidBook_cycle, lowBidBook_refresh]
      exact ⟨lowBidBook_blocked, lowBidBook_blocked, trivial⟩)

/-! ## Instruments the market does not track -/

theorem pending_sell_lt_counter (s : TradingSystem) (h : WellFormed s) :
    ∀ x ∈ s.sellOrders, x.timestamp < s.timestamp := by
  intro x hx
  refine (h.2.2.2.1 x.timestamp ?_).2
  unfold sequenceNumbers
  exact List.mem_append_left _ (List.mem_append_right _ (List.mem_map_of_mem _ hx))

namespace TradingSystem

/-- The buy loop appends the records of the orders it executes, in the order in which it
takes them from the queue. -/
theorem buyLoop_executed (n : Nat) : ∀ s r : TradingSystem, buyLoop n s = some r →
    ∃ executed : List StockOrder,
      r.transactionHistory = s.transactionHistory ++ executed.map (buyRecord s.market) ∧
      s.buyOrders.Perm (executed ++ r.buyOrders) ∧
      executed.Pairwise (fun a b => b.timestamp ≤ a.timestamp) ∧
      ∀ o ∈ executed, buyMatches o (s.market.getPrice o.stock) = true := by
  induction n with
  | zero =>
    intro s r h
    simp only [buyLoop, Option.some.injEq] at h
    subst h
    exact ⟨[], by simp, by simp, List.Pairwise.nil, by simp⟩
  | succ n ih =>
    intro s r h
    cases ht : s.buyOrders.top with
    | none =>
      simp only [buyLoop, ht, Option.some.injEq] at h
      subst h
      exact ⟨[], by simp, by simp, List.Pairwise.nil, by simp⟩
    | some t =>
      rw [buyLoop_succ n s t ht] at h
      split at h
      · rename_i hyes
        obtain ⟨m, hfill, hr⟩ := Option.bind_eq_some.1 h
        obtain ⟨_, f2, _, _, f5, f6⟩ := fillBuy_frame s m t _ hfill
        obtain ⟨ex, e1, e2, e3, e4⟩ := ih m r hr
        rw [f5, PQueue.pop_eq_erase _ _ ht] at e2
        refine ⟨t :: ex, ?_, ?_, ?_, ?_⟩
        · rw [e1, f6, f2]
          simp [buyRecord]
        · exact (List.perm_cons_erase (PQueue.top_mem _ _ ht)).trans (e2.cons t)
        · refine List.Pairwise.cons ?_ e3
          intro x hx
          have hxq : x ∈ s.buyOrders.erase t := e2.symm.subset (List.mem_append_left _ hx)
          exact PQueue.top_max _ _ ht x (List.mem_of_mem_erase hxq)
        · intro o ho
          rcases List.mem_cons.1 ho with ho | ho
          · subst ho
            exact hyes
          · have := e4 o ho
            rw [f2] at this
            exact this
      · simp only [Option.some.injEq] at h
        subst h
        exact ⟨[], by simp, by simp, List.Pairwise.nil, by simp⟩

/-- The sell loop appends the records of the orders it executes, in the order in which
it takes them from the queue. -/
theorem sellLoop_executed (n : Nat) : ∀ s r : TradingSystem, sellLoop n s = some r →
    ∃ executed : List StockOrder,
      r.transactionHistory = s.transactionHistory ++ executed.map (sellRecord s.market) ∧
      s.sellOrders.Perm (executed ++ r.sellOrders) ∧
      executed.Pairwise (fun a b => b.timestamp ≤ a.timestamp) ∧
      ∀ o ∈ executed, sellMatches o (s.market.getPrice o.stock) = true := by
  induction n with
  | zero =>
    intro s r h
    simp only [sellLoop, Option.some.injEq] at h
    subst h
    exact ⟨[], by simp, by simp, List.Pairwise.nil, by simp⟩
  | succ n ih =>
    intro s r h
    cases ht : s.sellOrders.top with
    | none =>
      simp only [sellLoop, ht, Option.some.injEq] at h
      subst h
      exact ⟨[], by simp, by simp, List.Pairwise.nil, by simp⟩
    | some t =>
      rw [sellLoop_succ n s t ht] at h
      split at h
      · rename_i hyes
        obtain ⟨m, hfill, hr⟩ := Option.bind_eq_some.1 h
        obtain ⟨_, f2, _, _, f5, f6⟩ := fillSell_frame s m t _ hfill
        obtain ⟨ex, e1, e2, e3, e4⟩ := ih m r hr
        rw [f5, PQueue.pop_eq_erase _ _ ht] at e2
        refine ⟨t :: ex, ?_, ?_, ?_, ?_⟩
        · rw [e1, f6, f2]
          simp [sellRecord]
        · exact (List.perm_cons_erase (PQueue.top_mem _ _ ht)).trans (e2.cons t)
        · refine List.Pairwise.cons ?_ e3
          intro x hx
          have hxq : x ∈ s.sellOrders.erase t := e2.symm.subset (List.mem_append_left _ hx)
          exact PQueue.top_max _ _ ht x (List.mem_of_mem_erase hxq)
        · intro o ho
          rcases List.mem_cons.1 ho with ho | ho
          · subst ho
            exact hyes
          · have := e4 o ho
            rw [f2] at this
            exact this
      · simp only [Option.some.injEq] at h
        subst h
        exact ⟨[], by simp, by simp, List.Pairwise.nil, by simp⟩

/-- C15: a cycle that returns state `r` has executed a list `bought` of buy orders and
then a list `sold` of sell orders, each list in the order of execution (every order was
the head of what was left of its queue, so the sequence numbers within a list do not
increase); the orders left in the queues together with the executed ones are the orders
queued before.  The ledger of `r` is the ledger before the cycle, followed by the buy
records of `bought`, followed by the sell records of `sold`, all at the refreshed
prices; nothing that was in the ledger is changed or removed.  With an account bound the
cycle does return.  `addUser`, `authenticateUser`, `addBuyOrder` and `addSellOrder`
leave the ledger as it is. -/
theorem ledger_is_append_only (s : TradingSystem) (rnd : Nat → Nat) :
    (∀ r, executeOrders s rnd = some r →
      ∃ bought sold : List StockOrder,
        r.transactionHistory = s.transactionHistory ++
          bought.map (buyRecord (s.refresh rnd).market) ++
          sold.map (sellRecord (s.refresh rnd).market) ∧
        s.buyOrders.Perm (bought ++ r.buyOrders) ∧
        s.sellOrders.Perm (sold ++ r.sellOrders) ∧
        bought.Pairwise (fun a b => b.timestamp ≤ a.timestamp) ∧
        sold.Pairwise (fun a b => b.timestamp ≤ a.timestamp)) ∧
    (∀ u usr, s.currentUser = some u → s.users.find u = some usr →
      ∃ r, executeOrders s rnd = some r) ∧
    (∀ username password,
      (s.addUser username password).transactionHistory = s.transactionHistory) ∧
    (∀ username password,
      (s.authenticateUser username password).1.transactionHistory = s.transactionHistory) ∧
    (∀ stock quantity price orderType r n,
      s.addBuyOrder stock quantity price orderType = some (r, n) →
      r.transactionHistory = s.transactionHistory) ∧
    (∀ stock quantity price orderType r n,
      s.addSellOrder stock quantity price orderType = some (r, n) →
      r.transactionHistory = s.transactionHistory) := by
  refine ⟨?_, ?_, ?_, ?_, ?_, ?_⟩
  · intro r h
    obtain ⟨b, hb, hr⟩ := executeOrders_split s r rnd h
    obtain ⟨bought, b1, b2, b3, _⟩ := buyLoop_executed _ _ b hb
    obtain ⟨sold, s1, s2, s3, _⟩ := sellLoop_executed _ _ r hr
    obtain ⟨f1, f2, _⟩ := buyLoop_frame _ _ b hb
    obtain ⟨g1, _⟩ := sellLoop_frame _ _ r hr
    refine ⟨bought, sold, ?_, ?_, ?_, b3, s3⟩
    · rw [s1, b1, f2]
      rfl
    · rw [g1]
      exact b2
    · rw [f1] at s2
      exact s2
  · intro u usr hu hf
    obtain ⟨b, usrb, hb, hub, hfb⟩ :=
      buyLoop_total (refresh s rnd).buyOrders.length (refresh s rnd) u usr hu hf
    obtain ⟨r, _, hr, _, _⟩ := sellLoop_total b.sellOrders.length b u usrb hub hfb
    refine ⟨r, ?_⟩
    show (buyLoop (refresh s rnd).buyOrders.length (refresh s rnd)).bind sellPhase = some r
    rw [hb]
    exact hr
  · intro a b
    exact (addUser_queues s a b).2.2.1
  · intro a b
    exact (authenticateUser_queues s a b).2.2.1
  · intro stock quantity price orderType r n h
    rcases addBuyOrder_cases s r n stock quantity price orderType h with ⟨_, e⟩ | ⟨_, e⟩ <;>
      rw [e]
  · intro stock quantity price orderType r n h
    rcases addSellOrder_cases s r n stock quantity price orderType h with ⟨_, e⟩ | ⟨_, e⟩ <;>
      rw [e]

end TradingSystem

theorem mixedBook_cycle :
    (mixedBook.executeOrders (fun _ => 50)).map
      (fun r => (r.buyOrders, r.sellOrders, r.transactionHistory)) =
    some ([], [], [⟨"AAPL", 10, 100, "buy", 0⟩, ⟨"GOOGL", 2, 100, "buy", 2⟩,
      ⟨"AAPL", 1, 100, "buy", 1⟩, ⟨"MSFT", 5, 100, "sell", 3⟩]) := by
  have e1 : ("GOOGL" = "AAPL") = False := by decide
  have e2 : ("MSFT" = "AAPL") = False := by decide
  have e3 : ("MSFT" = "GOOGL") = False := by decide
  have e4 : ("AAPL" = "GOOGL") = False := by decide
  have h1 : ¬ ['G', 'O', 'O', 'G', 'L'] < ['A', 'A', 'P', 'L'] := by decide
  have h2 : ['G', 'O', 'O', 'G', 'L'] < ['M', 'S', 'F', 'T'] := by decide
  norm_num [mixedBook, SMap.insert, SMap.find, TradingSystem.executeOrders,
    TradingSystem.refresh, TradingSystem.buyPhase, TradingSystem.sellPhase,
    TradingSystem.buyLoop, TradingSystem.sellLoop, PQueue.top, PQueue.pop, StockOrder.lt,
    TradingSystem.buyMatches, TradingSystem.sellMatches, TradingSystem.fillBuy,
    TradingSystem.fillSell, Market.getPrice, Market.updatePrices, Market.perturb,
    Portfolio.updateHoldings, Portfolio.adjustBalance, e1, e2, e3, e4, h1, h2]

/-- Witness for C15: in `mixedBook` the cycle executes the two buy orders, the later one
first, and then the sell order; the ledger keeps its old entry and gains the three
records in that order. -/
theorem ledger_is_append_only_witness :
    ∃ (r : TradingSystem) (bought sold : List StockOrder),
      mixedBook.executeOrders (fun _ => 50) = some r ∧
      r.transactionHistory = mixedBook.transactionHistory ++
        bought.map (buyRecord (mixedBook.refresh (fun _ => 50)).market) ++
        sold.map (sellRecord (mixedBook.refresh (fun _ => 50)).market) ∧
      bought.length = 2 ∧ sold.length = 1 ∧
      r.transactionHistory = [⟨"AAPL", 10, 100, "buy", 0⟩, ⟨"GOOGL", 2, 100, "buy", 2⟩,
        ⟨"AAPL", 1, 100, "buy", 1⟩, ⟨"MSFT", 5, 100, "sell", 3⟩] := by
  obtain ⟨r, hr⟩ := (TradingSystem.ledger_is_append_only mixedBook (fun _ => 50)).2.1 "u"
    ⟨"u", "pw", ⟨[("AAPL", 10), ("MSFT", 5)], 9000⟩⟩ rfl (by simp [mixedBook, SMap.find])
  obtain ⟨bought, sold, h1, h2, h3, _, _⟩ :=
    (TradingSystem.ledger_is_append_only mixedBook (fun _ => 50)).1 r hr
  have hev := mixedBook_cycle
  rw [hr] at hev
  simp only [Option.map_some', Option.some.injEq, Prod.mk.injEq] at hev
  obtain ⟨hb, hs, hl⟩ := hev
  refine ⟨r, bought, sold, hr, h1, ?_, ?_, hl⟩
  · have := h2.length_eq
    rw [hb] at this
    simpa [mixedBook] using this.symm
  · have := h3.length_eq
    rw [hs] at this
    simpa [mixedBook] using this.symm

/-! ## Registry round trip -/

theorem skipSpaces_of_not_space (c : Char) (cs : List Char) (h : isSpace c = false) :
    skipSpaces (c :: cs) = c :: cs := by
  simp [skipSpaces, h]

theorem readWord_append (w rest : List Char) (hw : ∀ c ∈ w, isSpace c = false)
    (hrest : rest = [] ∨ ∃ c r, rest = c :: r ∧ isSpace c = true) :
    readWord (w ++ rest) = (w, rest) := by
  induction w with
  | nil =>
    rcases hrest with h | ⟨c, r, h, hc⟩
    · subst h
      rfl
    · subst h
      simp [readWord, hc]
  | cons a w ih =>
    have ha : isSpace a = false := hw a (List.mem_cons_self _ _)
    have hw1 : ∀ c ∈ w, isSpace c = false := fun c hc => hw c (List.mem_cons_of_mem _ hc)
    simp [readWord, ha, ih hw1]

/-- Extracting from a text that starts with a non-empty whitespace-free word followed by
whitespace (or the end) yields that word. -/
theorem extractWord_append (w rest : List Char) (hne : w ≠ [])
    (hw : ∀ c ∈ w, isSpace c = false)
    (hrest : rest = [] ∨ ∃ c r, rest = c :: r ∧ isSpace c = true) :
    extractWord (w ++ rest) = some (String.mk w, rest) := by
  cases w with
  | nil => exact absurd rfl hne
  | cons a w1 =>
    have ha : isSpace a = false := hw a (List.mem_cons_self _ _)
    have hskip : skipSpaces (a :: w1 ++ rest) = a :: (w1 ++ rest) := by
      simp [skipSpaces, ha]
    have hread := readWord_append (a :: w1) rest hw hrest
    simp only [List.cons_append] at hread
    simp only [extractWord, hskip, hread]

theorem extractWord_skip (c : Char) (cs : List Char) (h : isSpace c = true) :
    extractWord (c :: cs) = extractWord cs := by
  simp [extractWord, skipSpaces, h]

theorem importLoop_skip (c : Char) (cs : List Char) (h : isSpace c = true) (n : Nat)
    (s : TradingSystem) : importLoop n (c :: cs) s = importLoop n cs s := by
  cases n with
  | zero => rfl
  | succ n => simp only [importLoop, extractWord_skip c cs h]

theorem boolDigit_not_space (b : Bool) : isSpace (boolDigit b) = false := by
  cases b <;> decide

theorem importLoop_exportLines : ∀ (users : SMap User) (n : Nat) (s : TradingSystem),
    (∀ e ∈ users, e.1.data ≠ [] ∧ ∀ c ∈ e.1.data, isSpace c = false) →
    users.length ≤ n →
    importLoop n (exportLines users) s = registerAll users s := by
  intro users
  induction users with
  | nil =>
    intro n s _ _
    cases n with
    | zero => rfl
    | succ n => simp [importLoop, exportLines, extractWord, skipSpaces, registerAll]
  | cons e rest ih =>
    intro n s hnames hn
    obtain ⟨name, u⟩ := e
    obtain ⟨hne, hws⟩ := hnames (name, u) (List.mem_cons_self _ _)
    cases n with
    | zero => simp at hn
    | succ n =>
      have h1 : extractWord (exportLines ((name, u) :: rest)) =
          some (name, ' ' :: boolDigit (u.checkPassword "") :: '\n' :: exportLines rest) := by
        have := extractWord_append name.data
          (' ' :: boolDigit (u.checkPassword "") :: '\n' :: exportLines rest) hne hws
          (Or.inr ⟨' ', _, rfl, by decide⟩)
        exact this
      have h2 : extractWord
          (' ' :: boolDigit (u.checkPassword "") :: '\n' :: exportLines rest) =
          some (String.mk [boolDigit (u.checkPassword "")], '\n' :: exportLines rest) := by
        rw [extractWord_skip ' ' _ (by decide)]
        have := extractWord_append [boolDigit (u.checkPassword "")]
          ('\n' :: exportLines rest) (by simp)
          (by
            intro c hc
            simp only [List.mem_singleton] at hc
            subst hc
            exact boolDigit_not_space _)
          (Or.inr ⟨'\n', _, rfl, by decide⟩)
        exact this
      simp only [importLoop, h1, h2]
      rw [importLoop_skip '\n' _ (by decide)]
      exact ih n _ (fun e he => hnames e (List.mem_cons_of_mem _ he))
        (Nat.le_of_succ_le_succ hn)

theorem exportLines_length (users : SMap User) : users.length ≤ (exportLines users).length := by
  induction users with
  | nil => simp
  | cons e rest ih =>
    obtain ⟨name, u⟩ := e
    simp only [exportLines, List.length_append, List.length_cons]
    omega

theorem SMap.find_isSome_iff {α : Type} (m : SMap α) (k : String) :
    (m.find k).isSome = true ↔ k ∈ m.map Prod.fst := by
  induction m with
  | nil => simp [SMap.find]
  | cons e rest ih =>
    obtain ⟨k1, v1⟩ := e
    by_cases h : k = k1
    · simp [SMap.find, h]
    · simp [SMap.find, h, ih]

theorem TradingSystem.addUser_find_isSome (s : TradingSystem) (username password k : String) :
    ((s.addUser username password).users.find k).isSome = true ↔
      (s.users.find k).isSome = true ∨ k = username := by
  unfold TradingSystem.addUser
  cases hfind : s.users.find username with
  | some x =>
    constructor
    · intro h
      exact Or.inl h
    · intro h
      rcases h with h | h
      · exact h
      · subst h
        simp [hfind]
  | none =>
    by_cases hk : k = username
    · subst hk
      simp [SMap.find_insert_self]
    · simp [SMap.find_insert_ne _ _ _ _ hk, hk]

theorem registerAll_find_isSome : ∀ (users : SMap User) (s : TradingSystem) (k : String),
    ((registerAll users s).users.find k).isSome = true ↔
      (s.users.find k).isSome = true ∨ k ∈ users.map Prod.fst := by
  intro users
  induction users with
  | nil =>
    intro s k
    simp [registerAll]
  | cons e rest ih =>
    intro s k
    obtain ⟨name, u⟩ := e
    simp only [registerAll, ih, TradingSystem.addUser_find_isSome, List.map_cons,
      List.mem_cons]
    tauto

/-- C16: let every username of the registry of `s` be non-empty and free of whitespace,
and let `t` be a system with an empty registry.  After `t` has imported the text that
`s` exports, a name is registered in it if and only if it is registered in `s`. -/
theorem registry_round_trip (s t : TradingSystem)
    (hnames : ∀ e ∈ s.users, e.1.data ≠ [] ∧ ∀ c ∈ e.1.data, isSpace c = false)
    (ht : t.users = []) (name : String) :
    ((t.importUserData s.exportUserData).users.find name).isSome = true ↔
      (s.users.find name).isSome = true := by
  unfold TradingSystem.importUserData TradingSystem.exportUserData
  rw [importLoop_exportLines s.users _ t hnames (exportLines_length s.users),
    registerAll_find_isSome, ht, SMap.find_isSome_iff s.users name]
  simp [SMap.find]

/-- Witness for C16: the registry with "ann" and "bob" is exported as two lines and read
back into a fresh system; "bob" is registered there. -/
theorem registry_round_trip_witness :
    twoUsers.exportUserData = "ann 1\nbob 0\n".data ∧
    (((TradingSystem.init ⟨[], []⟩).importUserData twoUsers.exportUserData).users.find
      "bob").isSome = true :=
  ⟨by simp [TradingSystem.exportUserData, exportLines, twoUsers, boolDigit,
      User.checkPassword],
    (registry_round_trip twoUsers (TradingSystem.init ⟨[], []⟩)
      (by
        intro e he
        simp only [twoUsers, List.mem_cons, List.mem_singleton, List.not_mem_nil,
          or_false] at he
        rcases he with he | he <;> subst he <;> decide)
      rfl "bob").2 (by
        have h : ("bob" = "ann") = False := by decide
        simp [twoUsers, SMap.find, h])⟩

/-! ## Registration -/

theorem SMap.length_insert_of_find_none {α : Type} (m : SMap α) (k : String) (v : α)
    (h : m.find k = none) : (m.insert k v).length = m.length + 1 := by
  induction m with
  | nil => simp [SMap.insert]
  | cons e rest ih =>
    obtain ⟨k1, v1⟩ := e
    by_cases h1 : k = k1
    · simp [SMap.find, h1] at h
    · have hrest : SMap.find rest k = none := by
        simpa [SMap.find, h1] using h
      by_cases h2 : k.data < k1.data
      · simp [SMap.insert, h1, h2]
      · simp [SMap.insert, h1, h2, ih hrest]

namespace TradingSystem

/-- C17: `addUser` with a username that is already registered returns the state it was
given, so the stored credential, balance and holdings of that user are untouched.  With
a username that is not registered it adds one entry: the new name maps to a user with
the given credential, balance 10000 and no holdings, every other name maps to what it
mapped to before, the registry has one entry more, and nothing else in the state
changes. -/
theorem duplicate_registration_rejected (s : TradingSystem) (username password : String) :
    (∀ usr, s.users.find username = some usr → s.addUser username password = s) ∧
    (s.users.find username = none →
      (s.addUser username password).users.find username =
        some ⟨username, password, ⟨[], 10000⟩⟩ ∧
      (∀ other, other ≠ username →
        (s.addUser username password).users.find other = s.users.find other) ∧
      (s.addUser username password).users.length = s.users.length + 1 ∧
      s.addUser username password =
        { s with users := (s.addUser username password).users }) := by
  constructor
  · intro usr h
    simp [addUser, h]
  · intro h
    have he : s.addUser username password =
        { s with users := s.users.insert username (User.create username password) } := by
      simp [addUser, h]
    rw [he]
    refine ⟨?_, ?_, ?_, rfl⟩
    · exact SMap.find_insert_self _ _ _
    · intro other ho
      exact SMap.find_insert_ne _ _ _ _ ho
    · exact SMap.length_insert_of_find_none _ _ _ h

end TradingSystem

/-- Witness for C17: registering "u" again at the start of a session changes nothing;
registering "v" adds an account in its initial state. -/
theorem duplicate_registration_rejected_witness :
    sessionStart.addUser "u" "other" = sessionStart ∧
    (sessionStart.addUser "v" "pw2").users.find "v" = some ⟨"v", "pw2", ⟨[], 10000⟩⟩ :=
  ⟨(TradingSystem.duplicate_registration_rejected sessionStart "u" "other").1
      ⟨"u", "pw", Portfolio.init⟩ (by simp [sessionStart, SMap.find]),
    ((TradingSystem.duplicate_registration_rejected sessionStart "v" "pw2").2
      (by
        have h : ("v" = "u") = False := by decide
        simp [sessionStart, SMap.find, h])).1⟩

/-! ## Sequence numbers -/

theorem timestamp_step (s r : TradingSystem) (c : Command) (h : step s c = some r) :
    r.timestamp = s.timestamp + (admittedBy s c : Int) := by
  cases c with
  | register a b =>
    simp only [step, Option.some.injEq] at h
    subst h
    simp [admittedBy, (TradingSystem.addUser_queues s a b).2.2.2.2.1]
  | login a b =>
    simp only [step, Option.some.injEq] at h
    subst h
    simp [admittedBy, (TradingSystem.authenticateUser_queues s a b).2.2.2.2.1]
  | buy stock quantity price orderType =>
    simp only [step, Option.map_eq_some'] at h
    obtain ⟨⟨r1, n⟩, h1, h2⟩ := h
    simp only at h2
    subst h2
    rcases TradingSystem.addBuyOrder_cases s r1 n stock quantity price orderType h1 with
      ⟨hn, e⟩ | ⟨hn, e⟩
    · subst e
      cases n <;> simp [admittedBy, h1] at hn ⊢
    · subst hn
      rw [e]
      simp [admittedBy, h1]
  | sell stock quantity price orderType =>
    simp only [step, Option.map_eq_some'] at h
    obtain ⟨⟨r1, n⟩, h1, h2⟩ := h
    simp only at h2
    subst h2
    rcases TradingSystem.addSellOrder_cases s r1 n stock quantity price orderType h1 with
      ⟨hn, e⟩ | ⟨hn, e⟩
    · subst e
      cases n <;> simp [admittedBy, h1] at hn ⊢
    · subst hn
      rw [e]
      simp [admittedBy, h1]
  | cycle rnd =>
    obtain ⟨b, hb, hr⟩ := TradingSystem.executeOrders_split s r rnd h
    obtain ⟨_, _, _, f4, _⟩ := TradingSystem.buyLoop_frame _ _ b hb
    obtain ⟨_, _, _, g4, _⟩ := TradingSystem.sellLoop_frame _ _ r hr
    rw [g4, f4]
    simp [admittedBy, TradingSystem.refresh]

theorem timestamp_run (cmds : List Command) : ∀ s r : TradingSystem, run s cmds = some r →
    r.timestamp = s.timestamp + (admissions s cmds : Int) := by
  induction cmds with
  | nil =>
    intro s r h
    simp only [run, Option.some.injEq] at h
    subst h
    simp [admissions]
  | cons c cs ih =>
    intro s r h
    simp only [run] at h
    obtain ⟨s1, h1, h2⟩ := Option.bind_eq_some.1 h
    rw [ih s1 r h2, timestamp_step s s1 c h1]
    simp only [admissions, h1]
    push_cast
    ring

/-- C18: every command sequence runs from the initial system to a state `s`.  In `s`
the sequence numbers of the pending buy orders, the pending sell orders and the ledger
transactions are pairwise distinct, non-negative and below the counter, and the counter
equals the number of orders admitted during the run.  An order admitted next, on either
side, carries the counter's value, which is above every number present, and the counter
goes up by one. -/
theorem sequence_numbers_unique_and_increasing (market : Market) (cmds : List Command) :
    ∃ s, run (TradingSystem.init market) cmds = some s ∧
      (sequenceNumbers s).Nodup ∧
      (∀ n ∈ sequenceNumbers s, 0 ≤ n ∧ n < s.timestamp) ∧
      s.timestamp = (admissions (TradingSystem.init market) cmds : Int) ∧
      (∀ stock quantity price orderType r,
        s.addBuyOrder stock quantity price orderType = some (r, Notice.added) →
        r.buyOrders =
          s.buyOrders.push ⟨"buy", stock, quantity, price, s.timestamp, orderType⟩ ∧
        r.sellOrders = s.sellOrders ∧
        r.timestamp = s.timestamp + 1) ∧
      (∀ stock quantity price orderType r,
        s.addSellOrder stock quantity price orderType = some (r, Notice.added) →
        r.sellOrders =
          s.sellOrders.push ⟨"sell", stock, quantity, price, s.timestamp, orderType⟩ ∧
        r.buyOrders = s.buyOrders ∧
        r.timestamp = s.timestamp + 1) := by
  obtain ⟨s, hrun, hw⟩ := wellFormed_run cmds _ (TradingSystem.wellFormed_init market)
  refine ⟨s, hrun, hw.2.2.1, hw.2.2.2.1, ?_, ?_, ?_⟩
  · rw [timestamp_run cmds _ s hrun]
    simp [TradingSystem.init]
  · intro stock quantity price orderType r h
    rcases TradingSystem.addBuyOrder_cases s r _ stock quantity price orderType h with
      ⟨hn, _⟩ | ⟨_, e⟩
    · exact absurd rfl hn
    · rw [e]
      exact ⟨rfl, rfl, rfl⟩
  · intro stock quantity price orderType r h
    rcases TradingSystem.addSellOrder_cases s r _ stock quantity price orderType h with
      ⟨hn, _⟩ | ⟨_, e⟩
    · exact absurd rfl hn
    · rw [e]
      exact ⟨rfl, rfl, rfl⟩

/-- Witness for C18: a run with a registration, a login and three submissions. -/
theorem sequence_numbers_unique_and_increasing_witness :
    ∃ s, run (TradingSystem.init (Market.init ["AAPL", "GOOGL", "MSFT"]))
        [.register "u" "pw", .login "u" "pw", .buy "AAPL" 1 100 "market",
          .sell "AAPL" 1 100 "market", .buy "MSFT" 2 100 "limit"] = some s ∧
      (sequenceNumbers s).Nodup ∧
      s.timestamp = (admissions (TradingSystem.init (Market.init ["AAPL", "GOOGL", "MSFT"]))
        [.register "u" "pw", .login "u" "pw", .buy "AAPL" 1 100 "market",
          .sell "AAPL" 1 100 "market", .buy "MSFT" 2 100 "limit"] : Int) := by
  obtain ⟨s, h1, h2, _, h4, _⟩ :=
    sequence_numbers_unique_and_increasing (Market.init ["AAPL", "GOOGL", "MSFT"])
      [.register "u" "pw", .login "u" "pw", .buy "AAPL" 1 100 "market",
        .sell "AAPL" 1 100 "market", .buy "MSFT" 2 100 "limit"]
  exact ⟨s, h1, h2, h4⟩

/-! ## The bound account -/

/-- C19: in a reachable state, if the buy queue or the sell queue is not empty then
`currentUser` is set and points to a registered user.  Hence a matching cycle started in
a reachable state never dereferences a missing account: it returns a state.  A cycle
started while no account is bound returns the state it was given with only the prices
refreshed. -/
theorem queued_orders_imply_bound_account (s : TradingSystem) (hr : Reachable s) :
    ((s.buyOrders ≠ [] ∨ s.sellOrders ≠ []) →
      ∃ u usr, s.currentUser = some u ∧ s.users.find u = some usr) ∧
    (∀ rnd, ∃ r, s.executeOrders rnd = some r) ∧
    (∀ rnd, s.currentUser = none →
      s.executeOrders rnd = some { s with market := s.market.updatePrices rnd }) := by
  have hw := wellFormed_of_reachable s hr
  refine ⟨?_, ?_, ?_⟩
  · intro hq
    cases hcu : s.currentUser with
    | none =>
      obtain ⟨hb, hs⟩ := hw.2.1 hcu
      rcases hq with hq | hq
      · exact absurd hb hq
      · exact absurd hs hq
    | some u =>
      obtain ⟨usr, hf⟩ := hw.1 u hcu
      exact ⟨u, usr, rfl, hf⟩
  · intro rnd
    obtain ⟨r, h, _⟩ := TradingSystem.wellFormed_executeOrders s rnd hw
    exact ⟨r, h⟩
  · intro rnd hcu
    obtain ⟨hb, hs⟩ := hw.2.1 hcu
    exact TradingSystem.executeOrders_of_empty s rnd hb hs

/-- Witness for C19: `lowBidBook` is reachable and has a queued buy order. -/
theorem queued_orders_imply_bound_account_witness :
    lowBidBook.buyOrders ≠ [] ∧
    ∃ u usr, lowBidBook.currentUser = some u ∧ lowBidBook.users.find u = some usr :=
  ⟨by simp [lowBidBook],
    (queued_orders_imply_bound_account lowBidBook lowBidBook_is_reachable).1
      (Or.inl (by simp [lowBidBook]))⟩

/-! ## Whose portfolio a fill changes -/

namespace TradingSystem

theorem fillBuy_others (s r : TradingSystem) (o : StockOrder) (p : ℚ)
    (h : fillBuy s o p = some r) (v : String) (hv : s.currentUser ≠ some v) :
    r.users.find v = s.users.find v := by
  obtain ⟨u, usr, hu, hf⟩ := fillBuy_bound s r o p h
  rw [fillBuy_eq s o p u usr hu hf] at h
  cases h
  have hne : v ≠ u := by
    intro e
    subst e
    exact hv hu
  exact SMap.find_insert_ne _ _ _ _ hne

theorem fillSell_others (s r : TradingSystem) (o : StockOrder) (p : ℚ)
    (h : fillSell s o p = some r) (v : String) (hv : s.currentUser ≠ some v) :
    r.users.find v = s.users.find v := by
  obtain ⟨u, usr, hu, hf⟩ := fillSell_bound s r o p h
  rw [fillSell_eq s o p u usr hu hf] at h
  cases h
  have hne : v ≠ u := by
    intro e
    subst e
    exact hv hu
  exact SMap.find_insert_ne _ _ _ _ hne

theorem buyLoop_others (n : Nat) : ∀ (s r : TradingSystem), buyLoop n s = some r →
    ∀ v, s.currentUser ≠ some v → r.users.find v = s.users.find v := by
  induction n with
  | zero =>
    intro s r h v _
    simp only [buyLoop, Option.some.injEq] at h
    subst h
    rfl
  | succ n ih =>
    intro s r h v hv
    cases ht : s.buyOrders.top with
    | none =>
      simp only [buyLoop, ht, Option.some.injEq] at h
      subst h
      rfl
    | some o =>
      rw [buyLoop_succ n s o ht] at h
      split at h
      · obtain ⟨m, hm, hr⟩ := Option.bind_eq_some.1 h
        obtain ⟨_, _, f3, _⟩ := fillBuy_frame s m o _ hm
        rw [ih m r hr v (by rw [f3]; exact hv)]
        exact fillBuy_others s m o _ hm v hv
      · simp only [Option.some.injEq] at h
        subst h
        rfl

theorem sellLoop_others (n : Nat) : ∀ (s r : TradingSystem), sellLoop n s = some r →
    ∀ v, s.currentUser ≠ some v → r.users.find v = s.users.find v := by
  induction n with
  | zero =>
    intro s r h v _
    simp only [sellLoop, Option.some.injEq] at h
    subst h
    rfl
  | succ n ih =>
    intro s r h v hv
    cases ht : s.sellOrders.top with
    | none =>
      simp only [sellLoop, ht, Option.some.injEq] at h
      subst h
      rfl
    | some o =>
      rw [sellLoop_succ n s o ht] at h
      split at h
      · obtain ⟨m, hm, hr⟩ := Option.bind_eq_some.1 h
        obtain ⟨_, _, f3, _⟩ := fillSell_frame s m o _ hm
        rw [ih m r hr v (by rw [f3]; exact hv)]
        exact fillSell_others s m o _ hm v hv
      · simp only [Option.some.injEq] at h
        subst h
        rfl

end TradingSystem

/-- C20: a cycle changes no registry entry other than the one `currentUser` points to.
In particular, let account `a` be bound with nothing queued, let it submit a buy order
that is admitted, and let account `b` then log in.  If the order matches at the
refreshed prices of the next cycle, that cycle fills it against `b`: the entry of `a` is
what it was, while `b` holds `quantity` more shares and has `p * quantity` less cash, `p`
being the refreshed price. -/
theorem fills_settle_against_bound_account (s : TradingSystem) (a b pw : String)
    (ua ub : User) (stock : String) (quantity : Int) (price : ℚ) (orderType : String)
    (rnd : Nat → Nat)
    (hcu : s.currentUser = some a) (hfa : s.users.find a = some ua)
    (hfb : s.users.find b = some ub) (hab : a ≠ b) (hpw : ub.checkPassword pw = true)
    (hb : s.buyOrders = []) (hs : s.sellOrders = [])
    (hcan : ua.portfolio.canBuy (price * quantity) = true)
    (hm : TradingSystem.buyMatches ⟨"buy", stock, quantity, price, s.timestamp, orderType⟩
      ((s.refresh rnd).market.getPrice stock) = true) :
    (∀ t r rnd1, TradingSystem.executeOrders t rnd1 = some r →
      ∀ v, t.currentUser ≠ some v → r.users.find v = t.users.find v) ∧
    (∃ r ub1, run s [.buy stock quantity price orderType, .login b pw, .cycle rnd] = some r ∧
      r.currentUser = some b ∧
      r.users.find a = some ua ∧
      r.users.find b = some ub1 ∧
      ub1.portfolio.shares stock = ub.portfolio.shares stock + quantity ∧
      ub1.portfolio.balance =
        ub.portfolio.balance - (s.refresh rnd).market.getPrice stock * quantity ∧
      r.transactionHistory = s.transactionHistory ++
        [⟨stock, quantity, (s.refresh rnd).market.getPrice stock, "buy", s.timestamp⟩]) := by
  constructor
  · intro t r rnd1 h v hv
    obtain ⟨m, hm1, hr⟩ := TradingSystem.executeOrders_split t r rnd1 h
    obtain ⟨_, _, f3, _⟩ := TradingSystem.buyLoop_frame _ _ m hm1
    rw [TradingSystem.sellLoop_others _ m r hr v (by rw [f3]; exact hv)]
    exact TradingSystem.buyLoop_others _ _ m hm1 v hv
  · have hadd := TradingSystem.addBuyOrder_accept s stock quantity price orderType a ua
      hcu hfa hcan
    have hlogin : (TradingSystem.authenticateUser { s with
          buyOrders :=
            s.buyOrders.push ⟨"buy", stock, quantity, price, s.timestamp, orderType⟩,
          timestamp := s.timestamp + 1 } b pw).1 =
        { s with
          buyOrders :=
            s.buyOrders.push ⟨"buy", stock, quantity, price, s.timestamp, orderType⟩,
          timestamp := s.timestamp + 1,
          currentUser := some b } := by
      simp [TradingSystem.authenticateUser, hfb, hpw]
    have hbuy := TradingSystem.buyPhase_single
      (TradingSystem.refresh { s with
          buyOrders :=
            s.buyOrders.push ⟨"buy", stock, quantity, price, s.timestamp, orderType⟩,
          timestamp := s.timestamp + 1,
          currentUser := some b } rnd)
      ⟨"buy", stock, quantity, price, s.timestamp, orderType⟩ b ub rfl hfb
      (by simp [TradingSystem.refresh, hb, PQueue.push]) hm
    have hrun : run s [.buy stock quantity price orderType, .login b pw, .cycle rnd] = some
        { s with
          market := s.market.updatePrices rnd,
          users := s.users.insert b { ub with portfolio :=
            ((ub.portfolio.updateHoldings stock quantity).adjustBalance
              (-(s.refresh rnd).market.getPrice stock * (quantity : ℚ))) },
          currentUser := some b,
          transactionHistory := s.transactionHistory ++
            [⟨stock, quantity, (s.refresh rnd).market.getPrice stock, "buy", s.timestamp⟩],
          buyOrders := [],
          timestamp := s.timestamp + 1 } := by
      simp only [run, step, hadd, Option.map_some', Option.some_bind, hlogin,
        TradingSystem.executeOrders, hbuy]
      rw [TradingSystem.sellPhase_of_empty]
      · rfl
      · exact hs
    refine ⟨_, _, hrun, rfl, ?_, SMap.find_insert_self _ _ _, ?_, ?_, rfl⟩
    · show (s.users.insert b _).find a = some ua
      rw [SMap.find_insert_ne _ _ _ _ hab]
      exact hfa
    · rw [Portfolio.shares_adjustBalance, Portfolio.shares_updateHoldings, if_pos rfl]
    · simp only [Portfolio.adjustBalance, Portfolio.updateHoldings]
      ring

theorem annAndBob_price :
    (annAndBob.refresh (fun _ => 50)).market.getPrice "AAPL" = 100 := by
  norm_num [annAndBob, sessionStart, TradingSystem.refresh, Market.updatePrices,
    Market.perturb, Market.getPrice, SMap.find]

/-- Witness for C20: "ann" submits a market buy of 4 AAPL, "bob" logs in, and the cycle
fills the order at 100 against "bob": "ann" keeps 10000, "bob" has 9600 and 4 shares. -/
theorem fills_settle_against_bound_account_witness :
    ∃ r ub1, run annAndBob [.buy "AAPL" 4 100 "market", .login "bob" "b1",
        .cycle (fun _ => 50)] = some r ∧
      r.users.find "ann" = some ⟨"ann", "a1", Portfolio.init⟩ ∧
      r.users.find "bob" = some ub1 ∧
      ub1.portfolio.shares "AAPL" = 4 ∧
      ub1.portfolio.balance = 9600 := by
  have hne : ("bob" = "ann") = False := by decide
  obtain ⟨r, ub1, h1, _, h3, h4, h5, h6, _⟩ :=
    (fills_settle_against_bound_account annAndBob "ann" "bob" "b1"
      ⟨"ann", "a1", Portfolio.init⟩ ⟨"bob", "b1", Portfolio.init⟩ "AAPL" 4 100 "market"
      (fun _ => 50) rfl (by simp [annAndBob, SMap.find])
      (by simp [annAndBob, SMap.find, hne]) (by decide)
      (by simp [User.checkPassword]) rfl rfl
      (by norm_num [Portfolio.canBuy, Portfolio.init])
      (by simp [TradingSystem.buyMatches])).2
  refine ⟨r, ub1, h1, h3, h4, ?_, ?_⟩
  · rw [h5]
    simp [Portfolio.shares, Portfolio.init, SMap.find]
  · rw [h6, annAndBob_price]
    norm_num [Portfolio.init]

/-! ## Share counts within the `int` range -/

theorem wrapInt_of_inRange (n : Int) (h1 : -2147483648 ≤ n) (h2 : n ≤ 2147483647) :
    wrapInt n = n := by
  unfold wrapInt
  rw [Int.emod_eq_of_lt (by omega) (by omega)]
  omega

theorem Portfolio.updateHoldings32_eq (p : Portfolio) (stock : String) (quantity : Int)
    (h1 : -2147483648 ≤ p.shares stock + quantity)
    (h2 : p.shares stock + quantity ≤ 2147483647) :
    p.updateHoldings32 stock quantity = p.updateHoldings stock quantity := by
  unfold Portfolio.updateHoldings32 Portfolio.updateHoldings
  unfold Portfolio.shares at h1 h2
  rw [wrapInt_of_inRange _ h1 h2]

theorem pendingQuantity_cons (o : StockOrder) (q : PQueue) (st : String) :
    pendingQuantity (o :: q) st =
      (if o.stock = st then o.quantity else 0) + pendingQuantity q st := by
  by_cases h : o.stock = st
  · simp [pendingQuantity, List.filter_cons, h]
  · simp [pendingQuantity, List.filter_cons, h]

theorem pendingQuantity_push (q : PQueue) (o : StockOrder) (st : String) :
    pendingQuantity (q.push o) st =
      pendingQuantity q st + (if o.stock = st then o.quantity else 0) := by
  by_cases h : o.stock = st
  · simp [pendingQuantity, PQueue.push, List.filter_append, List.filter_cons, h]
  · simp [pendingQuantity, PQueue.push, List.filter_append, List.filter_cons, h]

theorem pendingQuantity_perm (q1 q2 : PQueue) (st : String) (h : q1.Perm q2) :
    pendingQuantity q1 st = pendingQuantity q2 st := by
  unfold pendingQuantity
  exact ((h.filter _).map _).sum_eq

theorem pendingQuantity_erase (q : PQueue) (o : StockOrder) (st : String) (h : o ∈ q) :
    pendingQuantity (q.erase o) st =
      pendingQuantity q st - (if o.stock = st then o.quantity else 0) := by
  rw [pendingQuantity_perm q (o :: q.erase o) st (List.perm_cons_erase h),
    pendingQuantity_cons]
  omega

theorem pendingQuantity_nonneg (q : PQueue) (st : String)
    (h : ∀ o ∈ q, 0 < o.quantity) : 0 ≤ pendingQuantity q st := by
  induction q with
  | nil => simp [pendingQuantity]
  | cons o rest ih =>
    rw [pendingQuantity_cons]
    have h1 := h o (List.mem_cons_self _ _)
    have h2 := ih (fun x hx => h x (List.mem_cons_of_mem _ hx))
    split <;> omega

theorem quantity_le_pendingQuantity (q : PQueue) (o : StockOrder) (hm : o ∈ q)
    (h : ∀ x ∈ q, 0 < x.quantity) : o.quantity ≤ pendingQuantity q o.stock := by
  have h1 := pendingQuantity_erase q o o.stock hm
  have h2 := pendingQuantity_nonneg (q.erase o) o.stock
    (fun x hx => h x (List.mem_of_mem_erase hx))
  simp only [if_true] at h1
  omega

theorem TradingSystem.account_eq (s : TradingSystem) (u : String)
    (hu : s.currentUser = some u) : s.account = s.users.find u := by
  simp [TradingSystem.account, hu]

namespace TradingSystem

/-- A buy fill keeps the invariant `Sound`, and the share count it writes is within the
`int` range. -/
theorem fillBuy_sound (s r : TradingSystem) (o : StockOrder) (p : ℚ)
    (ht : s.buyOrders.top = some o) (h : fillBuy s o p = some r) (hs : Sound s) :
    Sound r := by
  obtain ⟨u, usr, hu, hf⟩ := fillBuy_bound s r o p h
  rw [fillBuy_eq s o p u usr hu hf] at h
  cases h
  obtain ⟨s1, s2, s3, s4, s5, s6⟩ := hs
  have hmem := PQueue.top_mem _ _ ht
  have hq : 0 < o.quantity := s3 o hmem
  have hacc : s.account = some usr := by
    rw [account_eq s u hu]
    exact hf
  refine ⟨?_, ?_, ?_, ?_, s5, ?_⟩
  · intro st
    show 0 ≤ sharesBought (s.transactionHistory ++ _) st
    rw [sharesBought_append_buy]
    have := s1 st
    split <;> omega
  · intro name usr1 hfind st
    show _ ∧ _ ≤ sharesBought (s.transactionHistory ++ _) st
    rw [sharesBought_append_buy]
    by_cases hname : name = u
    · subst hname
      have hfind1 : (s.users.insert name _).find name = some usr1 := hfind
      rw [SMap.find_insert_self] at hfind1
      cases hfind1
      rw [Portfolio.shares_adjustBalance, Portfolio.shares_updateHoldings]
      have := s2 name usr hf st
      split
      · rename_i e
        subst e
        omega
      · omega
    · have hfind1 : (s.users.insert u _).find name = some usr1 := hfind
      rw [SMap.find_insert_ne _ _ _ _ hname] at hfind1
      have := s2 name usr1 hfind1 st
      split <;> omega
  · intro x hx
    have hx1 : x ∈ s.buyOrders.pop := hx
    rw [PQueue.pop_eq_erase _ _ ht] at hx1
    exact s3 x (List.mem_of_mem_erase hx1)
  · intro st
    show pendingQuantity s.buyOrders.pop st + sharesBought (s.transactionHistory ++ _) st ≤ _
    rw [PQueue.pop_eq_erase _ _ ht, pendingQuantity_erase _ _ _ hmem,
      sharesBought_append_buy]
    have := s4 st
    by_cases e : st = o.stock
    · subst e
      simp only [if_true]
      omega
    · have e1 : ¬ o.stock = st := fun x => e x.symm
      simp only [e, e1, if_false]
      omega
  · intro usr1 hacc1 st
    simp only [TradingSystem.account, hu] at hacc1
    rw [SMap.find_insert_self] at hacc1
    cases hacc1
    rw [Portfolio.shares_adjustBalance, Portfolio.shares_updateHoldings]
    have := s6 usr hacc st
    show pendingQuantity s.sellOrders st ≤ _
    split
    · rename_i e
      subst e
      omega
    · omega

/-- A sell fill keeps the invariant `Sound`. -/
theorem fillSell_sound (s r : TradingSystem) (o : StockOrder) (p : ℚ)
    (ht : s.sellOrders.top = some o) (h : fillSell s o p = some r) (hs : Sound s) :
    Sound r := by
  obtain ⟨u, usr, hu, hf⟩ := fillSell_bound s r o p h
  rw [fillSell_eq s o p u usr hu hf] at h
  cases h
  obtain ⟨s1, s2, s3, s4, s5, s6⟩ := hs
  have hmem := PQueue.top_mem _ _ ht
  have hq : 0 < o.quantity := s5 o hmem
  have hacc : s.account = some usr := by
    rw [account_eq s u hu]
    exact hf
  have herase := pendingQuantity_erase s.sellOrders o o.stock hmem
  simp only [if_true] at herase
  have hrest : 0 ≤ pendingQuantity (s.sellOrders.erase o) o.stock :=
    pendingQuantity_nonneg _ _ (fun x hx => s5 x (List.mem_of_mem_erase hx))
  have hcov := s6 usr hacc o.stock
  refine ⟨?_, ?_, s3, ?_, ?_, ?_⟩
  · intro st
    show 0 ≤ sharesBought (s.transactionHistory ++ _) st
    rw [sharesBought_append_sell]
    exact s1 st
  · intro name usr1 hfind st
    show _ ∧ _ ≤ sharesBought (s.transactionHistory ++ _) st
    rw [sharesBought_append_sell]
    by_cases hname : name = u
    · subst hname
      have hfind1 : (s.users.insert name _).find name = some usr1 := hfind
      rw [SMap.find_insert_self] at hfind1
      cases hfind1
      rw [Portfolio.shares_adjustBalance, Portfolio.shares_updateHoldings]
      have := s2 name usr hf st
      split
      · rename_i e
        subst e
        omega
      · omega
    · have hfind1 : (s.users.insert u _).find name = some usr1 := hfind
      rw [SMap.find_insert_ne _ _ _ _ hname] at hfind1
      exact s2 name usr1 hfind1 st
  · intro st
    show pendingQuantity s.buyOrders st + sharesBought (s.transactionHistory ++ _) st ≤ _
    rw [sharesBought_append_sell]
    exact s4 st
  · intro x hx
    have hx1 : x ∈ s.sellOrders.pop := hx
    rw [PQueue.pop_eq_erase _ _ ht] at hx1
    exact s5 x (List.mem_of_mem_erase hx1)
  · intro usr1 hacc1 st
    simp only [TradingSystem.account, hu] at hacc1
    rw [SMap.find_insert_self] at hacc1
    cases hacc1
    rw [Portfolio.shares_adjustBalance, Portfolio.shares_updateHoldings]
    show pendingQuantity s.sellOrders.pop st ≤ _
    rw [PQueue.pop_eq_erase _ _ ht, pendingQuantity_erase _ _ _ hmem]
    have := s6 usr hacc st
    by_cases e : st = o.stock
    · subst e
      simp only [if_true]
      omega
    · have e1 : ¬ o.stock = st := fun x => e x.symm
      simp only [e, e1, if_false]
      omega

/-- Under `Sound` the 32-bit buy fill does not overflow: it is the exact one. -/
theorem fillBuy32_eq (s : TradingSystem) (o : StockOrder) (p : ℚ)
    (ht : s.buyOrders.top = some o) (hs : Sound s) : fillBuy32 s o p = fillBuy s o p := by
  cases hu : s.currentUser with
  | none => simp [fillBuy32, fillBuy, hu]
  | some u =>
    cases hf : s.users.find u with
    | none => simp [fillBuy32, fillBuy, hu, hf]
    | some usr =>
      obtain ⟨s1, s2, s3, s4, _, _⟩ := hs
      have hmem := PQueue.top_mem _ _ ht
      have hq : 0 < o.quantity := s3 o hmem
      have hle := quantity_le_pendingQuantity s.buyOrders o hmem s3
      have h2 := s2 u usr hf o.stock
      have h4 := s4 o.stock
      have e := Portfolio.updateHoldings32_eq usr.portfolio o.stock o.quantity
        (by omega) (by omega)
      simp [fillBuy32, fillBuy, hu, hf, e]

/-- Under `Sound` the 32-bit sell fill does not overflow: it is the exact one. -/
theorem fillSell32_eq (s : TradingSystem) (o : StockOrder) (p : ℚ)
    (ht : s.sellOrders.top = some o) (hs : Sound s) :
    fillSell32 s o p = fillSell s o p := by
  cases hu : s.currentUser with
  | none => simp [fillSell32, fillSell, hu]
  | some u =>
    cases hf : s.users.find u with
    | none => simp [fillSell32, fillSell, hu, hf]
    | some usr =>
      obtain ⟨s1, s2, s3, s4, s5, s6⟩ := hs
      have hmem := PQueue.top_mem _ _ ht
      have hq : 0 < o.quantity := s5 o hmem
      have hle := quantity_le_pendingQuantity s.sellOrders o hmem s5
      have hacc : s.account = some usr := by
        rw [account_eq s u hu]
        exact hf
      have h6 := s6 usr hacc o.stock
      have h2 := s2 u usr hf o.stock
      have h4 := s4 o.stock
      have hb := pendingQuantity_nonneg s.buyOrders o.stock s3
      have hneg : wrapInt (-o.quantity) = -o.quantity :=
        wrapInt_of_inRange _ (by omega) (by omega)
      have e := Portfolio.updateHoldings32_eq usr.portfolio o.stock (-o.quantity)
        (by omega) (by omega)
      simp [fillSell32, fillSell, hu, hf, hneg, e]

end TradingSystem

namespace TradingSystem

theorem buyLoop_sound (n : Nat) : ∀ s r : TradingSystem, buyLoop n s = some r →
    Sound s → Sound r := by
  induction n with
  | zero =>
    intro s r h hs
    simp only [buyLoop, Option.some.injEq] at h
    subst h
    exact hs
  | succ n ih =>
    intro s r h hs
    cases ht : s.buyOrders.top with
    | none =>
      simp only [buyLoop, ht, Option.some.injEq] at h
      subst h
      exact hs
    | some o =>
      rw [buyLoop_succ n s o ht] at h
      split at h
      · obtain ⟨m, hm, hr⟩ := Option.bind_eq_some.1 h
        exact ih m r hr (fillBuy_sound s m o _ ht hm hs)
      · simp only [Option.some.injEq] at h
        subst h
        exact hs

theorem sellLoop_sound (n : Nat) : ∀ s r : TradingSystem, sellLoop n s = some r →
    Sound s → Sound r := by
  induction n with
  | zero =>
    intro s r h hs
    simp only [sellLoop, Option.some.injEq] at h
    subst h
    exact hs
  | succ n ih =>
    intro s r h hs
    cases ht : s.sellOrders.top with
    | none =>
      simp only [sellLoop, ht, Option.some.injEq] at h
      subst h
      exact hs
    | some o =>
      rw [sellLoop_succ n s o ht] at h
      split at h
      · obtain ⟨m, hm, hr⟩ := Option.bind_eq_some.1 h
        exact ih m r hr (fillSell_sound s m o _ ht hm hs)
      · simp only [Option.some.injEq] at h
        subst h
        exact hs

/-- Under `Sound` the buy loop with 32-bit share counts is the exact one. -/
theorem buyLoop32_eq (n : Nat) : ∀ s : TradingSystem, Sound s →
    buyLoop32 n s = buyLoop n s := by
  induction n with
  | zero =>
    intro s _
    rfl
  | succ n ih =>
    intro s hs
    cases ht : s.buyOrders.top with
    | none => simp [buyLoop32, buyLoop, ht]
    | some o =>
      rw [buyLoop_succ n s o ht]
      simp only [buyLoop32, ht]
      rw [fillBuy32_eq s o _ ht hs]
      split
      · cases hfill : fillBuy s o (s.market.getPrice o.stock) with
        | none => rfl
        | some m =>
          simp only [Option.some_bind]
          exact ih m (fillBuy_sound s m o _ ht hfill hs)
      · rfl

/-- Under `Sound` the sell loop with 32-bit share counts is the exact one. -/
theorem sellLoop32_eq (n : Nat) : ∀ s : TradingSystem, Sound s →
    sellLoop32 n s = sellLoop n s := by
  induction n with
  | zero =>
    intro s _
    rfl
  | succ n ih =>
    intro s hs
    cases ht : s.sellOrders.top with
    | none => simp [sellLoop32, sellLoop, ht]
    | some o =>
      rw [sellLoop_succ n s o ht]
      simp only [sellLoop32, ht]
      rw [fillSell32_eq s o _ ht hs]
      split
      · cases hfill : fillSell s o (s.market.getPrice o.stock) with
        | none => rfl
        | some m =>
          simp only [Option.some_bind]
          exact ih m (fillSell_sound s m o _ ht hfill hs)
      · rfl

theorem executeOrders32_eq (s : TradingSystem) (rnd : Nat → Nat) (hs : Sound s) :
    executeOrders32 s rnd = executeOrders s rnd := by
  have h0 : Sound (refresh s rnd) := hs
  unfold executeOrders32 executeOrders buyPhase
  rw [buyLoop32_eq _ _ h0]
  cases hb : buyLoop (refresh s rnd).buyOrders.length (refresh s rnd) with
  | none => rfl
  | some b =>
    simp only [Option.some_bind]
    exact sellLoop32_eq _ b (buyLoop_sound _ _ b hb h0)

theorem executeOrders_sound (s r : TradingSystem) (rnd : Nat → Nat)
    (h : executeOrders s rnd = some r) (hs : Sound s) : Sound r := by
  obtain ⟨b, hb, hr⟩ := executeOrders_split s r rnd h
  have h0 : Sound (refresh s rnd) := hs
  exact sellLoop_sound _ b r hr (buyLoop_sound _ _ b hb h0)

theorem addUser_sound (s : TradingSystem) (username password : String)
    (hw : WellFormed s) (hs : Sound s) : Sound (s.addUser username password) := by
  unfold addUser
  cases hfind : s.users.find username with
  | some x => exact hs
  | none =>
    obtain ⟨s1, s2, s3, s4, s5, s6⟩ := hs
    refine ⟨s1, ?_, s3, s4, s5, ?_⟩
    · intro name usr1 hf1 st
      by_cases hname : name = username
      · subst hname
        have hf2 : (s.users.insert name _).find name = some usr1 := hf1
        rw [SMap.find_insert_self] at hf2
        cases hf2
        have := s1 st
        simpa [User.create, Portfolio.init, Portfolio.shares, SMap.find] using this
      · have hf2 : (s.users.insert username _).find name = some usr1 := hf1
        rw [SMap.find_insert_ne _ _ _ _ hname] at hf2
        exact s2 name usr1 hf2 st
    · intro usr1 hacc st
      cases hcu : s.currentUser with
      | none => simp [TradingSystem.account, hcu] at hacc
      | some u =>
        obtain ⟨usr, hf⟩ := hw.1 u hcu
        have hne : u ≠ username := by
          intro e
          subst e
          rw [hfind] at hf
          cases hf
        simp only [TradingSystem.account, hcu] at hacc
        rw [SMap.find_insert_ne _ _ _ _ hne] at hacc
        exact s6 usr1 (by rw [account_eq s u hcu]; exact hacc) st

end TradingSystem

theorem step32_eq (s : TradingSystem) (c : Command) (hs : Sound s) :
    step32 s c = step s c := by
  cases c with
  | cycle rnd => exact TradingSystem.executeOrders32_eq s rnd hs
  | register a b => rfl
  | login a b => rfl
  | buy stock quantity price orderType => rfl
  | sell stock quantity price orderType => rfl

theorem covered_step (s r : TradingSystem) (c : Command) (h : step s c = some r)
    (hc : covered s c) (hw : WellFormed s) (hs : Sound s) : Sound r := by
  cases c with
  | register a b =>
    simp only [step, Option.some.injEq] at h
    subst h
    exact TradingSystem.addUser_sound s a b hw hs
  | login a b =>
    simp only [step, Option.some.injEq] at h
    subst h
    obtain ⟨q1, q2, q3, _, _, q6⟩ := TradingSystem.authenticateUser_queues s a b
    obtain ⟨s1, s2, s3, s4, s5, s6⟩ := hs
    refine ⟨?_, ?_, ?_, ?_, ?_, ?_⟩
    · rw [q3]
      exact s1
    · intro name usr hf st
      rw [q6] at hf
      rw [q3]
      exact s2 name usr hf st
    · rw [q1]
      exact s3
    · rw [q1, q3]
      exact s4
    · rw [q2]
      exact s5
    · intro usr hacc st
      rw [q2]
      rcases hc with hc | hc
      · refine s6 usr ?_ st
        unfold TradingSystem.account at hacc ⊢
        rw [hc, q6] at hacc
        exact hacc
      · exact hc usr hacc st
  | buy stock quantity price orderType =>
    simp only [step, Option.map_eq_some'] at h
    obtain ⟨⟨r1, n⟩, h1, h2⟩ := h
    simp only at h2
    subst h2
    obtain ⟨hq, hguard⟩ := hc
    rcases TradingSystem.addBuyOrder_cases s r1 n stock quantity price orderType h1 with
      ⟨_, e⟩ | ⟨hn, e⟩
    · rw [e]
      exact hs
    · subst hn
      have hadm : admittedBy s (.buy stock quantity price orderType) = 1 := by
        simp [admittedBy, h1]
      have hg := hguard hadm
      obtain ⟨s1, s2, s3, s4, s5, s6⟩ := hs
      rw [e]
      refine ⟨s1, s2, ?_, ?_, s5, s6⟩
      · intro x hx
        rcases List.mem_append.1 hx with hx | hx
        · exact s3 x hx
        · simp only [List.mem_singleton] at hx
          subst hx
          exact hq
      · intro st
        show pendingQuantity (s.buyOrders.push _) st + _ ≤ _
        rw [pendingQuantity_push]
        have := s4 st
        by_cases e1 : stock = st
        · subst e1
          simp only [if_true]
          omega
        · simp only [e1, if_false]
          omega
  | sell stock quantity price orderType =>
    simp only [step, Option.map_eq_some'] at h
    obtain ⟨⟨r1, n⟩, h1, h2⟩ := h
    simp only at h2
    subst h2
    obtain ⟨hq, hguard⟩ := hc
    rcases TradingSystem.addSellOrder_cases s r1 n stock quantity price orderType h1 with
      ⟨_, e⟩ | ⟨hn, e⟩
    · rw [e]
      exact hs
    · subst hn
      have hadm : admittedBy s (.sell stock quantity price orderType) = 1 := by
        simp [admittedBy, h1]
      have hg := hguard hadm
      obtain ⟨s1, s2, s3, s4, s5, s6⟩ := hs
      rw [e]
      refine ⟨s1, s2, s3, s4, ?_, ?_⟩
      · intro x hx
        rcases List.mem_append.1 hx with hx | hx
        · exact s5 x hx
        · simp only [List.mem_singleton] at hx
          subst hx
          exact hq
      · intro usr hacc st
        have hacc0 : s.account = some usr := hacc
        show pendingQuantity (s.sellOrders.push _) st ≤ _
        rw [pendingQuantity_push]
        have := s6 usr hacc0 st
        by_cases e1 : stock = st
        · subst e1
          simp only [if_true]
          exact hg usr hacc0
        · simp only [e1, if_false]
          omega
  | cycle rnd => exact TradingSystem.executeOrders_sound s r rnd h hs

theorem covered_run (cmds : List Command) : ∀ s : TradingSystem,
    WellFormed s → Sound s → Covered s cmds →
    ∃ r, run32 s cmds = some r ∧ run s cmds = some r ∧ Sound r := by
  induction cmds with
  | nil =>
    intro s _ hs _
    exact ⟨s, rfl, rfl, hs⟩
  | cons c cs ih =>
    intro s hw hs hc
    obtain ⟨s1, h1, hw1⟩ := wellFormed_step s c hw
    have h32 : step32 s c = some s1 := by
      rw [step32_eq s c hs]
      exact h1
    simp only [Covered, h32] at hc
    have hs1 := covered_step s s1 c h1 hc.1 hw hs
    obtain ⟨r, h3, h4, h5⟩ := ih s1 hw1 hs1 hc.2
    exact ⟨r, by simp [run32, h32, h3], by simp [run, h1, h4], h5⟩

theorem sound_init (market : Market) : Sound (TradingSystem.init market) := by
  refine ⟨?_, ?_, ?_, ?_, ?_, ?_⟩
  · intro st
    simp [TradingSystem.init, sharesBought]
  · intro name usr hf
    simp [TradingSystem.init, SMap.find] at hf
  · intro o ho
    simp [TradingSystem.init] at ho
  · intro st
    simp [TradingSystem.init, sharesBought, pendingQuantity]
  · intro o ho
    simp [TradingSystem.init] at ho
  · intro usr hacc
    simp [TradingSystem.init, TradingSystem.account] at hacc

/-- C11 as amended: perform from the initial system any sequence of registrations,
logins, order submissions with positive quantities (any price, any kind) and matching
cycles (any refreshed prices), share counts being 32-bit integers, such that (a) every
admitted buy order keeps the total quantity of the buy orders admitted so far on its
instrument at or below 2147483647, (b) every admitted sell order is covered, together
with the sell orders already pending on its instrument, by the holdings of the bound
account, and (c) every login that binds another account binds one whose holdings cover
the pending sell orders.  The sequence runs to a state `r`; no share count has
overflowed on the way (the exact run ends in `r` too), and in `r` every registered
account has, for every instrument, a share count between 0 and 2147483647. -/
theorem holdings_nonnegative_when_covered (market : Market) (cmds : List Command)
    (hc : Covered (TradingSystem.init market) cmds) :
    ∃ r, run32 (TradingSystem.init market) cmds = some r ∧
      run (TradingSystem.init market) cmds = some r ∧
      ∀ name usr, r.users.find name = some usr →
        ∀ st, 0 ≤ usr.portfolio.shares st ∧ usr.portfolio.shares st ≤ 2147483647 := by
  obtain ⟨r, h1, h2, hs⟩ := covered_run cmds _ (TradingSystem.wellFormed_init market)
    (sound_init market) hc
  refine ⟨r, h1, h2, ?_⟩
  intro name usr hf st
  obtain ⟨_, s2, s3, s4, _, _⟩ := hs
  have hb := pendingQuantity_nonneg r.buyOrders st s3
  have h4 := s4 st
  have h2' := s2 name usr hf st
  exact ⟨h2'.1, by omega⟩

/-- Why condition (a) is there: two market buys of 2147483647 shares of the untracked
"TSLA", quoted at 0, are admitted and filled at price 0; on 32-bit share counts the
second fill wraps around and the account ends with -2 shares. -/
theorem overflowing_buys_wrap_around :
    (run32 (TradingSystem.init ⟨[("AAPL", 100)], ["AAPL"]⟩)
      [.register "u" "pw", .login "u" "pw", .buy "TSLA" 2147483647 0 "market",
        .buy "TSLA" 2147483647 0 "market", .cycle (fun _ => 50)]).map
      (fun r => r.account.map (fun a => a.portfolio.shares "TSLA")) = some (some (-2)) := by
  have e1 : ("TSLA" = "AAPL") = False := by decide
  norm_num [run32, step32, step, wrapInt, TradingSystem.account, TradingSystem.init,
    TradingSystem.addUser, TradingSystem.authenticateUser, User.create,
    User.checkPassword, SMap.insert, SMap.find, TradingSystem.addBuyOrder,
    Portfolio.init, Portfolio.canBuy, Portfolio.shares, PQueue.push,
    TradingSystem.executeOrders32, TradingSystem.refresh, TradingSystem.buyLoop32,
    TradingSystem.sellLoop32, PQueue.top, PQueue.pop, StockOrder.lt,
    TradingSystem.buyMatches, TradingSystem.fillBuy32, Market.getPrice,
    Market.updatePrices, Market.perturb, Portfolio.updateHoldings32,
    Portfolio.adjustBalance, e1]

/-- Witness for C11 as amended: an account buys 10 AAPL, which are filled, then queues
two limit sell orders of 4 and 5 AAPL that the price does not reach (together they are
covered by the 10 shares held), fails a login, and runs another cycle. -/
theorem holdings_nonnegative_when_covered_witness :
    ∃ r, run32 (TradingSystem.init ⟨[("AAPL", 100)], ["AAPL"]⟩)
        [.register "u" "pw", .login "u" "pw", .buy "AAPL" 10 100 "market",
          .cycle (fun _ => 50), .sell "AAPL" 4 200 "limit", .sell "AAPL" 5 200 "limit",
          .login "u" "bad", .cycle (fun _ => 50)] = some r ∧
      run (TradingSystem.init ⟨[("AAPL", 100)], ["AAPL"]⟩)
        [.register "u" "pw", .login "u" "pw", .buy "AAPL" 10 100 "market",
          .cycle (fun _ => 50), .sell "AAPL" 4 200 "limit", .sell "AAPL" 5 200 "limit",
          .login "u" "bad", .cycle (fun _ => 50)] = some r ∧
      ∀ name usr, r.users.find name = some usr →
        ∀ st, 0 ≤ usr.portfolio.shares st ∧ usr.portfolio.shares st ≤ 2147483647 :=
  holdings_nonnegative_when_covered ⟨[("AAPL", 100)], ["AAPL"]⟩
    [.register "u" "pw", .login "u" "pw", .buy "AAPL" 10 100 "market",
      .cycle (fun _ => 50), .sell "AAPL" 4 200 "limit", .sell "AAPL" 5 200 "limit",
      .login "u" "bad", .cycle (fun _ => 50)]
    (by
      have e1 : ¬ ("limit" = "market") := by decide
      have e2 : ¬ ("pw" = "bad") := by decide
      norm_num [Covered, covered, step32, step, admittedBy, pendingQuantity, sharesBought,
        wrapInt, TradingSystem.account, TradingSystem.init, TradingSystem.addUser,
        TradingSystem.authenticateUser, User.create, User.checkPassword,
        SMap.insert, SMap.find, TradingSystem.addBuyOrder,
        TradingSystem.addSellOrder, Portfolio.init, Portfolio.canBuy,
        Portfolio.canSell, Portfolio.shares, PQueue.push, TradingSystem.executeOrders32,
        TradingSystem.refresh, TradingSystem.buyLoop32, TradingSystem.sellLoop32,
        PQueue.top, PQueue.pop, StockOrder.lt, TradingSystem.buyMatches,
        TradingSystem.sellMatches, TradingSystem.fillBuy32, TradingSystem.fillSell32,
        Market.getPrice, Market.updatePrices, Market.perturb, Portfolio.updateHoldings32,
        Portfolio.adjustBalance, e1, e2])

end AutoStockTrade
